import Mathlib

/-!
# The Tseitin CNF transformer of dReal4

A shallow embedding of `dreal/util/cnfizer.cc` (class `Cnfizer` and the
file-local helpers `Cnfize`, `Add`, `AddIff`, `CnfizeNegation`,
`CnfizeConjunction`, `CnfizeDisjunction`), followed by theorems about it.

The symbolic library (`Variable`, `Expression`, `Formula` and the operators on
them) is not part of `cnfizer.cc`; the definitions that stand for it say so in
their doc comments.
-/

set_option linter.unusedVariables false

namespace dreal

/-! ## Variables and expressions -/

/-- Modelled from the spec: the type tag of a variable (`Variable::Type`). -/
inductive VariableType where
  | BOOLEAN
  | CONTINUOUS
deriving DecidableEq

/-- Modelled from the spec: a variable of the symbolic library, "an identifier
with a type tag and a globally unique identity". The identity is `id`; the name
is the string handed to the constructor. -/
structure Variable where
  id : Nat
  name : String
  type : VariableType
deriving DecidableEq

/-- Modelled from the spec: `Variable::equal_to`, equality of identities. -/
def Variable.equal_to (v w : Variable) : Bool := v.id == w.id

/-- Position of a type tag, used to order variables. -/
def VariableType.idx : VariableType → Nat
  | .BOOLEAN => 0
  | .CONTINUOUS => 1

/-- Modelled from the spec: the order on variables. Variables are ordered by
identity; the two remaining fields only break ties between values that a
globally unique identity excludes, so that the order is total on every value of
the model. -/
def Variable.compare (v w : Variable) : Ordering :=
  (Ord.compare v.id w.id).then
    ((Ord.compare v.name w.name).then (Ord.compare v.type.idx w.type.idx))

/-- Modelled from the spec: a real-valued expression of the symbolic library.
The transformer treats expressions opaquely; the model keeps the variables,
integer constants, sums and products. -/
inductive Expression where
  | var (v : Variable)
  | const (c : Int)
  | add (a b : Expression)
  | mul (a b : Expression)
deriving DecidableEq

/-- Position of the head constructor of an expression. -/
def Expression.idx : Expression → Nat
  | .var _ => 0
  | .const _ => 1
  | .add _ _ => 2
  | .mul _ _ => 3

/-- Modelled from the spec: the structural order on expressions. -/
def Expression.compare : Expression → Expression → Ordering
  | .var v, .var w => v.compare w
  | .const a, .const b => Ord.compare a b
  | .add a b, .add c d => (Expression.compare a c).then (Expression.compare b d)
  | .mul a b, .mul c d => (Expression.compare a c).then (Expression.compare b d)
  | e, f => Ord.compare e.idx f.idx

/-- Modelled from the spec: the variables occurring in an expression
(`Expression::GetVariables`). -/
def Expression.GetVariables : Expression → List Variable
  | .var v => [v]
  | .const _ => []
  | .add a b => a.GetVariables ++ b.GetVariables
  | .mul a b => a.GetVariables ++ b.GetVariables

/-! ## Formulas -/

/-- Modelled from the spec: the kinds of formula nodes, in the order of the
`switch` of `Cnfize`. -/
inductive FormulaKind where
  | False | True | Var | Eq | Neq | Gt | Geq | Lt | Leq | And | Or | Not | Forall
deriving DecidableEq

/-- Modelled from the spec: a formula of the symbolic library. `And` and `Or`
carry their operand set as a list in the canonical order of the set. -/
inductive Formula where
  | False
  | True
  | Var (v : Variable)
  | Eq (l r : Expression)
  | Neq (l r : Expression)
  | Gt (l r : Expression)
  | Geq (l r : Expression)
  | Lt (l r : Expression)
  | Leq (l r : Expression)
  | And (operands : List Formula)
  | Or (operands : List Formula)
  | Not (operand : Formula)
  | Forall (vars : List Variable) (body : Formula)

/-- Modelled from the spec: `Formula::get_kind`. -/
def Formula.get_kind : Formula → FormulaKind
  | .False => .False
  | .True => .True
  | .Var _ => .Var
  | .Eq _ _ => .Eq
  | .Neq _ _ => .Neq
  | .Gt _ _ => .Gt
  | .Geq _ _ => .Geq
  | .Lt _ _ => .Lt
  | .Leq _ _ => .Leq
  | .And _ => .And
  | .Or _ => .Or
  | .Not _ => .Not
  | .Forall _ _ => .Forall

/-- Position of a kind in the enumeration. -/
def FormulaKind.idx : FormulaKind → Nat
  | .False => 0
  | .True => 1
  | .Var => 2
  | .Eq => 3
  | .Neq => 4
  | .Gt => 5
  | .Geq => 6
  | .Lt => 7
  | .Leq => 8
  | .And => 9
  | .Or => 10
  | .Not => 11
  | .Forall => 12

/-- Lexicographic order on lists of variables. -/
def compareVariables : List Variable → List Variable → Ordering
  | [], [] => .eq
  | [], _ :: _ => .lt
  | _ :: _, [] => .gt
  | v :: vs, w :: ws => (v.compare w).then (compareVariables vs ws)

mutual
/-- Modelled from the spec: the canonical order of formulas ("canonically
ordered for determinism"): by kind first, then structurally. -/
def Formula.compare : Formula → Formula → Ordering
  | .Var v, .Var w => v.compare w
  | .Eq a b, .Eq c d => (a.compare c).then (b.compare d)
  | .Neq a b, .Neq c d => (a.compare c).then (b.compare d)
  | .Gt a b, .Gt c d => (a.compare c).then (b.compare d)
  | .Geq a b, .Geq c d => (a.compare c).then (b.compare d)
  | .Lt a b, .Lt c d => (a.compare c).then (b.compare d)
  | .Leq a b, .Leq c d => (a.compare c).then (b.compare d)
  | .And l, .And r => compareOperands l r
  | .Or l, .Or r => compareOperands l r
  | .Not f, .Not g => Formula.compare f g
  | .Forall vs f, .Forall ws g => (compareVariables vs ws).then (Formula.compare f g)
  | f, g => Ord.compare f.get_kind.idx g.get_kind.idx
/-- Lexicographic order on operand lists. -/
def compareOperands : List Formula → List Formula → Ordering
  | [], [] => .eq
  | [], _ :: _ => .lt
  | _ :: _, [] => .gt
  | f :: fs, g :: gs => (Formula.compare f g).then (compareOperands fs gs)
end

/-! ## Sets of formulas and of variables -/

/-- Modelled from the spec: insertion into an ordered operand set
(`std::set<Formula>::insert`): the element goes to its place in the canonical
order, and an element that is already there is not inserted again. -/
def FormulaSet.insert (x : Formula) : List Formula → List Formula
  | [] => [x]
  | y :: ys =>
    match x.compare y with
    | .lt => x :: y :: ys
    | .eq => y :: ys
    | .gt => y :: FormulaSet.insert x ys

/-- The operand set holding the elements of a sequence, inserted one after
the other. -/
def FormulaSet.ofList (xs : List Formula) : List Formula :=
  xs.foldl (fun acc x => FormulaSet.insert x acc) []

/-- Modelled from the spec: `map(formulas, func)` of the symbolic library, for
a function without side effects: the set of the images. -/
def FormulaSet.map (formulas : List Formula) (func : Formula → Formula) : List Formula :=
  FormulaSet.ofList (formulas.map func)

/-- Modelled from the spec: the "set intersection primitive" on sets of
variables, by identity. -/
def intersect (vars1 vars2 : List Variable) : List Variable :=
  vars1.filter (fun v => vars2.any (fun w => w.equal_to v))

mutual
/-- Modelled from the spec: `Formula::GetFreeVariables`, "the variables free
in the subtree". -/
def Formula.GetFreeVariables : Formula → List Variable
  | .False => []
  | .True => []
  | .Var v => [v]
  | .Eq l r => l.GetVariables ++ r.GetVariables
  | .Neq l r => l.GetVariables ++ r.GetVariables
  | .Gt l r => l.GetVariables ++ r.GetVariables
  | .Geq l r => l.GetVariables ++ r.GetVariables
  | .Lt l r => l.GetVariables ++ r.GetVariables
  | .Leq l r => l.GetVariables ++ r.GetVariables
  | .And operands => GetFreeVariablesOfOperands operands
  | .Or operands => GetFreeVariablesOfOperands operands
  | .Not operand => operand.GetFreeVariables
  | .Forall vars body =>
    body.GetFreeVariables.filter (fun v => !(vars.any (fun w => w.equal_to v)))
/-- Free variables of the formulas of an operand list. -/
def GetFreeVariablesOfOperands : List Formula → List Variable
  | [] => []
  | f :: fs => f.GetFreeVariables ++ GetFreeVariablesOfOperands fs
end

/-! ## Predicates, accessors and constructors of the symbolic library -/

/-- Modelled from the spec: `is_true`, the formula is syntactically `True`. -/
def is_true : Formula → Bool
  | .True => true
  | _ => false

/-- Modelled from the spec: `is_false`. -/
def is_false : Formula → Bool
  | .False => true
  | _ => false

/-- Modelled from the spec: `is_conjunction`. -/
def is_conjunction : Formula → Bool
  | .And _ => true
  | _ => false

/-- Modelled from the spec: `is_disjunction`. -/
def is_disjunction : Formula → Bool
  | .Or _ => true
  | _ => false

/-- Modelled from the spec: `is_atomic`, "constant, Boolean var, or theory
atom". -/
def is_atomic : Formula → Bool
  | .False => true
  | .True => true
  | .Var _ => true
  | .Eq _ _ => true
  | .Neq _ _ => true
  | .Gt _ _ => true
  | .Geq _ _ => true
  | .Lt _ _ => true
  | .Leq _ _ => true
  | _ => false

/-- Modelled from the spec: `get_operands`, the operand set of an `And` or an
`Or`. The library defines it on these two kinds only; the model returns the
empty set elsewhere. -/
def get_operands : Formula → List Formula
  | .And operands => operands
  | .Or operands => operands
  | _ => []

/-- Modelled from the spec: `get_variable`, "extract the Boolean var underlying
a Formula that is a Var"; undefined on the other kinds. -/
def get_variable : Formula → Option Variable
  | .Var v => some v
  | _ => none

/-- Modelled from the spec: negation `!f` of the symbolic library (`Not(f)`).
The constants are folded and a double negation is cancelled: section 4.4 of the
spec and the comment of `CnfizeNegation` give `b₁ ∨ b` for `¬b₁ → b`, i.e. for
`!(¬b₁) || b`. -/
def Formula.lnot : Formula → Formula
  | .True => .False
  | .False => .True
  | .Not operand => operand
  | f => .Not f

/-- Modelled from the spec: disjunction `f1 || f2` of the symbolic library.
`True` absorbs (the clause that `Add` drops), `False` is neutral, and an operand
that is a disjunction is flattened into the result: section 4.4 of the spec
writes `¬p ∨ body` as the flat clause `¬p ∨ b₁ ∨ … ∨ bₙ`. -/
def Formula.lor (f1 f2 : Formula) : Formula :=
  if is_true f1 || is_true f2 then .True
  else if is_false f1 then f2
  else if is_false f2 then f1
  else
    match f1, f2 with
    | .Or ops1, .Or ops2 => .Or (ops2.foldl (fun acc x => FormulaSet.insert x acc) ops1)
    | .Or ops1, _ => .Or (FormulaSet.insert f2 ops1)
    | _, .Or ops2 => .Or (FormulaSet.insert f1 ops2)
    | _, _ => .Or (FormulaSet.insert f2 (FormulaSet.insert f1 []))

/-- Modelled from the spec: `imply(f1, f2)` (`Implies(f, g)`), that is
`!f1 || f2`. -/
def imply (f1 f2 : Formula) : Formula := (f1.lnot).lor f2

/-- Modelled from the spec: `make_conjunction` on an operand set, the
constructor `And(S)`. -/
def make_conjunction (operands : List Formula) : Formula := .And operands

/-- Modelled from the spec: `make_conjunction` on a vector of formulas, the
constructor `And(clauses)`: the conjunction of the set of its elements. -/
def make_conjunction_of_vector (formulas : List Formula) : Formula :=
  .And (FormulaSet.ofList formulas)

/-- Modelled from the spec: `make_disjunction` on an operand set, the
constructor `Or(S)`. -/
def make_disjunction (operands : List Formula) : Formula := .Or operands

/-- Modelled from the spec: `forall(vars, f)`, the constructor
`Forall(vars, body)`. -/
def mk_forall (vars : List Variable) (f : Formula) : Formula := .Forall vars f

/-! ## The clause emitters (`cnfizer.cc`, anonymous namespace) -/

/-- The ways in which the transformer fails: `DREAL_UNREACHABLE()` in `Cnfize`,
and `get_variable` applied to a formula that is not a variable. -/
inductive CnfizerError where
  | UnreachableState
  | NotAVariable
deriving DecidableEq

/-- `Add(f, clauses)`: add `f` to `clauses` if `f` is not true. -/
def Add (f : Formula) (clauses : List Formula) : List Formula :=
  if !(is_true f) then clauses ++ [f] else clauses

/-- `AddIff(f1, f2, clauses)`: add `f₁ ⇔ f₂` to `clauses`. -/
def AddIff (f1 f2 : Formula) (clauses : List Formula) : List Formula :=
  Add (imply f2 f1) (Add (imply f1 f2) clauses)

/-- `CnfizeNegation(b, f, clauses)`: cnfize `b ⇔ ¬b₁`. -/
def CnfizeNegation (b : Variable) (f : Formula) (clauses : List Formula) : List Formula :=
  AddIff (.Var b) f clauses

/-- `CnfizeConjunction(b, f, clauses)`: cnfize `b ⇔ (b₁ ∧ ... ∧ bₙ)`. -/
def CnfizeConjunction (b : Variable) (f : Formula) (clauses : List Formula) : List Formula :=
  let operands := get_operands f
  let negated_operands := FormulaSet.map operands (fun formula => formula.lnot)
  let clauses1 :=
    operands.foldl (fun acc b_i => Add (((Formula.Var b).lnot).lor b_i) acc) clauses
  Add ((make_disjunction negated_operands).lor (.Var b)) clauses1

/-- `CnfizeDisjunction(b, f, clauses)`: cnfize `b ⇔ (b₁ ∨ ... ∨ bₙ)`. -/
def CnfizeDisjunction (b : Variable) (f : Formula) (clauses : List Formula) : List Formula :=
  let negated_operands := FormulaSet.map (get_operands f) (fun formula => formula.lnot)
  let clauses1 := Add (((Formula.Var b).lnot).lor f) clauses
  negated_operands.foldl (fun acc neg_b_i => Add (neg_b_i.lor (.Var b)) acc) clauses1

/-- `Cnfize(b, f, clauses)`: cnfize `b ⇔ f` and add it to `clauses`, by the
kind of `f`; every kind but `And`, `Or` and `Not` is `DREAL_UNREACHABLE()`. -/
def Cnfize (b : Variable) (f : Formula) (clauses : List Formula) :
    Except CnfizerError (List Formula) :=
  match f.get_kind with
  | .False => .error .UnreachableState
  | .True => .error .UnreachableState
  | .Var => .error .UnreachableState
  | .Eq => .error .UnreachableState
  | .Neq => .error .UnreachableState
  | .Gt => .error .UnreachableState
  | .Geq => .error .UnreachableState
  | .Lt => .error .UnreachableState
  | .Leq => .error .UnreachableState
  | .Forall => .error .UnreachableState
  | .And => .ok (CnfizeConjunction b f clauses)
  | .Or => .ok (CnfizeDisjunction b f clauses)
  | .Not => .ok (CnfizeNegation b f clauses)

/-! ## The class `Cnfizer` -/

/-- The state shared by all `Cnfizer` instances of the process: the allocator
of variable identities behind the `Variable` constructor, and the `static
size_t id` counters of `VisitConjunction`, `VisitDisjunction` and
`VisitForall`. -/
structure Globals where
  next_id : Nat
  conj_id : Nat
  disj_id : Nat
  forall_id : Nat
deriving DecidableEq

/-- Modelled from the spec: the definition map `map_`, "an insertion-tracked
association from proxy Boolean variables to the compound subformulas they
abbreviate": the entries in the order of their insertion. -/
abbrev DefinitionMap := List (Variable × Formula)

/-- Modelled from the spec: `map_.emplace(bvar, f)`: the entry is added unless
the key is already in the map. -/
def DefinitionMap.emplace (m : DefinitionMap) (bvar : Variable) (f : Formula) : DefinitionMap :=
  if m.any (fun p => p.1.equal_to bvar) then m else m ++ [(bvar, f)]

/-- A `Cnfizer` instance: its member `map_`. -/
structure Cnfizer where
  map_ : DefinitionMap

/-- Modelled from the spec: the constructor `Variable{name, type}`, which
"yields a fresh variable each time": the next identity of the allocator. -/
def Globals.new_variable (g : Globals) (name : String) (type : VariableType) :
    Variable × Globals :=
  ({ id := g.next_id, name := name, type := type }, { g with next_id := g.next_id + 1 })

/-- The loop of `Convert` over the entries of `map_` (lines 45-56). -/
def Cnfizer.ConvertLoop (head : Formula) :
    DefinitionMap → List Formula → Except CnfizerError (List Formula)
  | [], ret => .ok ret
  | p :: rest, ret =>
    match get_variable head with
    | none => .error .NotAVariable
    | some head_var =>
      if head_var.equal_to p.1 then
        if is_conjunction p.2 then
          Cnfizer.ConvertLoop head rest (ret ++ get_operands p.2)
        else
          Cnfizer.ConvertLoop head rest (ret ++ [p.2])
      else
        match Cnfize p.1 p.2 ret with
        | .error e => .error e
        | .ok ret1 => Cnfizer.ConvertLoop head rest ret1

/-- The part of `Convert` after `Visit` has returned `head` (lines 42-57). -/
def Cnfizer.ConvertFrom (head : Formula) (map_ : DefinitionMap) :
    Except CnfizerError (List Formula) :=
  if map_.isEmpty then .ok [head] else Cnfizer.ConvertLoop head map_ []

/-- The loop of `VisitForall` over the clauses (lines 86-91): the universal
quantifier is put on a clause that has a quantified variable free. -/
def hoist (quantified_variables : List Variable) (clause : Formula) : Formula :=
  if !((intersect clause.GetFreeVariables quantified_variables).isEmpty) then
    mk_forall quantified_variables clause
  else clause

mutual
/-- `Cnfizer::Visit` with the `Visit…` member functions it dispatches to. The
result is the returned formula, the instance with its `map_` extended, and the
process state. In the `Forall` case the call `cnfizer.Convert(quantified_formula)`
on the new instance is written out: `Visit` from the empty map, then
`ConvertFrom` (see `Visit_Forall`). -/
def Cnfizer.Visit : Formula → Cnfizer → Globals →
    Except CnfizerError (Formula × Cnfizer × Globals)
  | .False, c, g => .ok (.False, c, g)
  | .True, c, g => .ok (.True, c, g)
  | .Var v, c, g => .ok (.Var v, c, g)
  | .Eq l r, c, g => .ok (.Eq l r, c, g)
  | .Neq l r, c, g => .ok (.Neq l r, c, g)
  | .Gt l r, c, g => .ok (.Gt l r, c, g)
  | .Geq l r, c, g => .ok (.Geq l r, c, g)
  | .Lt l r, c, g => .ok (.Lt l r, c, g)
  | .Leq l r, c, g => .ok (.Leq l r, c, g)
  | .Forall quantified_variables quantified_formula, c, g =>
    match Cnfizer.Visit quantified_formula { map_ := [] } g with
    | .error e => .error e
    | .ok (head, cnfizer, g1) =>
      match Cnfizer.ConvertFrom head cnfizer.map_ with
      | .error e => .error e
      | .ok cnf =>
        let quantified_formula_in_cnf := cnf.map (hoist quantified_variables)
        match quantified_formula_in_cnf with
        | [clause] => .ok (clause, c, g1)
        | _ =>
          let (bvar, g2) :=
            g1.new_variable ("forall" ++ toString g1.forall_id) .BOOLEAN
          .ok (.Var bvar,
            { c with map_ :=
                c.map_.emplace bvar (make_conjunction_of_vector quantified_formula_in_cnf) },
            { g2 with forall_id := g1.forall_id + 1 })
  | .And operands, c, g =>
    match Cnfizer.VisitOperands operands c g with
    | .error e => .error e
    | .ok (visited, c1, g1) =>
      let transformed_operands := FormulaSet.ofList visited
      let (bvar, g2) := g1.new_variable ("conj" ++ toString g1.conj_id) .BOOLEAN
      .ok (.Var bvar,
        { c1 with map_ := c1.map_.emplace bvar (make_conjunction transformed_operands) },
        { g2 with conj_id := g1.conj_id + 1 })
  | .Or operands, c, g =>
    match Cnfizer.VisitOperands operands c g with
    | .error e => .error e
    | .ok (visited, c1, g1) =>
      let transformed_operands := FormulaSet.ofList visited
      let (bvar, g2) := g1.new_variable ("disj" ++ toString g1.disj_id) .BOOLEAN
      .ok (.Var bvar,
        { c1 with map_ := c1.map_.emplace bvar (make_disjunction transformed_operands) },
        { g2 with disj_id := g1.disj_id + 1 })
  | .Not operand, c, g =>
    if is_atomic operand then .ok (.Not operand, c, g)
    else
      let (bvar, g1) := g.new_variable "neg" .BOOLEAN
      match Cnfizer.Visit operand c g1 with
      | .error e => .error e
      | .ok (transformed_operand, c1, g2) =>
        .ok (.Var bvar,
          { c1 with map_ := c1.map_.emplace bvar transformed_operand.lnot }, g2)
/-- The calls `this->Visit(formula)` that `map(get_operands(f), …)` makes, one
for each operand in the order of the set; the results in that order. -/
def Cnfizer.VisitOperands : List Formula → Cnfizer → Globals →
    Except CnfizerError (List Formula × Cnfizer × Globals)
  | [], c, g => .ok ([], c, g)
  | f :: fs, c, g =>
    match Cnfizer.Visit f c g with
    | .error e => .error e
    | .ok (f1, c1, g1) =>
      match Cnfizer.VisitOperands fs c1 g1 with
      | .error e => .error e
      | .ok (visited, c2, g2) => .ok (f1 :: visited, c2, g2)
end

/-- `Cnfizer::Convert`: clear `map_`, visit `f`, and turn the definitions of
`map_` into clauses. The result is the returned vector, the instance as the call
leaves it, and the process state. -/
def Cnfizer.Convert (c : Cnfizer) (f : Formula) (g : Globals) :
    Except CnfizerError (List Formula × Cnfizer × Globals) :=
  match Cnfizer.Visit f { c with map_ := [] } g with
  | .error e => .error e
  | .ok (head, c1, g1) =>
    match Cnfizer.ConvertFrom head c1.map_ with
    | .error e => .error e
    | .ok ret => .ok (ret, c1, g1)

/-- The clauses that `Cnfize` emits for the entries of a definition map, one
entry after the other: what the loop of `Convert` does on a map without the
head's entry. -/
def CnfizeAll : DefinitionMap → List Formula → Except CnfizerError (List Formula)
  | [], ret => .ok ret
  | p :: rest, ret =>
    match Cnfize p.1 p.2 ret with
    | .error e => .error e
    | .ok ret1 => CnfizeAll rest ret1

/-! ## Classes of formulas -/

mutual
/-- The test `P` holds at every node of the formula. -/
def Formula.all_nodes (P : Formula → Bool) : Formula → Bool
  | .And operands => P (.And operands) && all_nodes_of_operands P operands
  | .Or operands => P (.Or operands) && all_nodes_of_operands P operands
  | .Not operand => P (.Not operand) && Formula.all_nodes P operand
  | .Forall vars body => P (.Forall vars body) && Formula.all_nodes P body
  | f => P f
/-- The test `P` holds at every node of every formula of the list. -/
def all_nodes_of_operands (P : Formula → Bool) : List Formula → Bool
  | [] => true
  | f :: fs => Formula.all_nodes P f && all_nodes_of_operands P fs
end

/-- The formula is `True` or `False`. -/
def is_constant (f : Formula) : Bool := is_true f || is_false f

/-- Modelled from the spec: `is_negation`. -/
def is_negation : Formula → Bool
  | .Not _ => true
  | _ => false

/-- The formula is a universal quantification. -/
def is_forall : Formula → Bool
  | .Forall _ _ => true
  | _ => false

/-- The formula has no `Forall` node: it is "built from constants, Boolean
variables, theory atoms, And, Or and Not". -/
def Formula.quantifier_free (f : Formula) : Bool :=
  f.all_nodes (fun h => !(is_forall h))

/-- No negation in the formula is applied to a negation: the negation operator
of the library cancels a double negation (`lnot`), so it never builds one. -/
def Formula.well_formed (f : Formula) : Bool :=
  f.all_nodes (fun h =>
    match h with
    | .Not operand => !(is_negation operand)
    | _ => true)

/-- No `And`, no `Or` and no `Not` of the formula has `True` or `False` as an
operand: a constant occurs only as the whole formula or as the body of a
quantifier. -/
def Formula.no_constant_operand (f : Formula) : Bool :=
  f.all_nodes (fun h =>
    match h with
    | .And operands => operands.all (fun x => !(is_constant x))
    | .Or operands => operands.all (fun x => !(is_constant x))
    | .Not operand => !(is_constant operand)
    | _ => true)

/-- A Boolean variable or a theory atom. -/
def is_variable_or_atom : Formula → Bool
  | .Var _ => true
  | .Eq _ _ => true
  | .Neq _ _ => true
  | .Gt _ _ => true
  | .Geq _ _ => true
  | .Lt _ _ => true
  | .Leq _ _ => true
  | _ => false

/-- A literal: "a Boolean variable, a theory atom, or the negation of one of
these". -/
def is_literal : Formula → Bool
  | .Not operand => is_variable_or_atom operand
  | f => is_variable_or_atom f

/-- Clausal form of an element of the result: a constant, a literal, or a
disjunction all of whose operands are literals. -/
def in_clausal_form : Formula → Bool
  | .Or operands => operands.all is_literal
  | f => is_constant f || is_literal f

/-- Clausal form for quantified input: a formula in clausal form, or a
universal quantifier over one. -/
def in_quantified_clausal_form : Formula → Bool
  | .Forall _ body => in_clausal_form body
  | f => in_clausal_form f

/-- All variables that occur free in the formula have an identity below `n`:
the allocator of a state with `next_id = n` has handed out each of them. -/
def Formula.vars_below (n : Nat) (f : Formula) : Prop :=
  ∀ v ∈ f.GetFreeVariables, v.id < n

/-! ## Semantics -/

/-- An assignment: a truth value for every Boolean variable and a value of `R`
for every continuous variable, both by identity. -/
structure Assignment (R : Type) where
  b : Nat → Bool
  r : Nat → R

/-- An interpretation of the theory atoms: for a relation kind and two
expressions, the set of valuations of the continuous variables under which the
atom is true. The transformer treats atoms opaquely, so every statement below
is made for an arbitrary interpretation. -/
abbrev Theory (R : Type) := FormulaKind → Expression → Expression → (Nat → R) → Prop

/-- The assignment `M'` differs from `M` at most on the variables `vars`. -/
def Assignment.agrees_outside {R : Type} (vars : List Variable) (M' M : Assignment R) : Prop :=
  ∀ i : Nat, (∀ v ∈ vars, v.id ≠ i) → M'.b i = M.b i ∧ M'.r i = M.r i

mutual
/-- Truth of a formula under an assignment. -/
def Formula.holds {R : Type} (T : Theory R) : Formula → Assignment R → Prop
  | .False, _ => False
  | .True, _ => True
  | .Var v, M => M.b v.id = true
  | .Eq l r, M => T .Eq l r M.r
  | .Neq l r, M => T .Neq l r M.r
  | .Gt l r, M => T .Gt l r M.r
  | .Geq l r, M => T .Geq l r M.r
  | .Lt l r, M => T .Lt l r M.r
  | .Leq l r, M => T .Leq l r M.r
  | .And operands, M => holds_all T operands M
  | .Or operands, M => holds_some T operands M
  | .Not operand, M => ¬ Formula.holds T operand M
  | .Forall vars body, M =>
    ∀ M' : Assignment R, M'.agrees_outside vars M → Formula.holds T body M'
/-- Every formula of the list is true. -/
def holds_all {R : Type} (T : Theory R) : List Formula → Assignment R → Prop
  | [], _ => True
  | f :: fs, M => Formula.holds T f M ∧ holds_all T fs M
/-- Some formula of the list is true. -/
def holds_some {R : Type} (T : Theory R) : List Formula → Assignment R → Prop
  | [], _ => False
  | f :: fs, M => Formula.holds T f M ∨ holds_some T fs M
end

/-- The assignment satisfies the definition `b ⇔ f` of an entry of the
definition map. -/
def definition_holds {R : Type} (T : Theory R) (M : Assignment R) (p : Variable × Formula) : Prop :=
  M.b p.1.id = true ↔ p.2.holds T M

/-- What the loop of `Convert` appends for the entry of the head (lines
47-52): the operands of a conjunction, or the definition itself. -/
def head_clauses (body : Formula) : List Formula :=
  if is_conjunction body then get_operands body else [body]

/-! ## The variables and the state of the scenarios -/

/-- The Boolean variable `a` of the scenarios. -/
def Scenario.a : Variable := { id := 0, name := "a", type := .BOOLEAN }

/-- The Boolean variable `b` of the scenarios. -/
def Scenario.b : Variable := { id := 1, name := "b", type := .BOOLEAN }

/-- The Boolean variable `c` of the scenarios. -/
def Scenario.c : Variable := { id := 2, name := "c", type := .BOOLEAN }

/-- The Boolean variable `d` of the scenarios. -/
def Scenario.d : Variable := { id := 3, name := "d", type := .BOOLEAN }

/-- The continuous variable `x` of the scenarios. -/
def Scenario.x : Variable := { id := 4, name := "x", type := .CONTINUOUS }

/-- The quantified Boolean variable `y` of the scenarios. -/
def Scenario.y : Variable := { id := 5, name := "y", type := .BOOLEAN }

/-- The quantified continuous variable `z` of the scenarios. -/
def Scenario.z : Variable := { id := 6, name := "z", type := .CONTINUOUS }

/-- The process state of the scenarios: the seven variables above have been
allocated, and no proxy has been named yet. -/
def Scenario.start : Globals := { next_id := 7, conj_id := 0, disj_id := 0, forall_id := 0 }

/-- The interpretation of the atoms used where a scenario has no atom or
does not depend on one: every atom is true. -/
def Scenario.theory : Theory Unit := fun _ _ _ _ => True

/-- Scenario S2: `¬(a ∧ b)`. -/
def Scenario.S2 : Formula := .Not (.And [.Var Scenario.a, .Var Scenario.b])

/-- A quantified formula that every assignment with `a` and `b` true
satisfies: `∀y. (a ∧ y) ∨ (b ∧ ¬y)`. -/
def Scenario.choice : Formula :=
  .Forall [Scenario.y]
    (.Or [.And [.Var Scenario.a, .Var Scenario.y],
      .And [.Var Scenario.b, .Not (.Var Scenario.y)]])

/-- A negated universal: `¬(∀y. a ∨ y)`. -/
def Scenario.negated_forall : Formula :=
  .Not (.Forall [Scenario.y] (.Or [.Var Scenario.a, .Var Scenario.y]))

/-- A disjunction with a negated universal whose body is a negative literal
without the quantified variable: `b ∨ ¬(∀y. ¬a)`. -/
def Scenario.negated_vacuous_forall : Formula :=
  .Or [.Var Scenario.b, .Not (.Forall [Scenario.y] (.Not (.Var Scenario.a)))]

/-- Scenario S6: `∀z. (p(x,z) ∧ q(x))` with `p(x,z)` the atom `x > z` and
`q(x)` the atom `x > 0`. -/
def Scenario.S6 : Formula :=
  .Forall [Scenario.z]
    (.And [.Gt (.var Scenario.x) (.var Scenario.z), .Gt (.var Scenario.x) (.const 0)])

/-- The clauses that `Convert` returns for `Scenario.choice`, with the proxies
`conj0` of `a ∧ y` and `conj1` of `b ∧ ¬y`. -/
def Scenario.choice_cnf : List Formula :=
  [.Or [.Var Scenario.a, .Not (.Var ⟨7, "conj0", .BOOLEAN⟩)],
    .Or [.Var Scenario.b, .Not (.Var ⟨8, "conj1", .BOOLEAN⟩)],
    .Or [.Var ⟨7, "conj0", .BOOLEAN⟩, .Var ⟨8, "conj1", .BOOLEAN⟩],
    .Forall [Scenario.y]
      (.Or [.Var Scenario.y, .Var ⟨8, "conj1", .BOOLEAN⟩, .Not (.Var Scenario.b)]),
    .Forall [Scenario.y] (.Or [.Var Scenario.y, .Not (.Var ⟨7, "conj0", .BOOLEAN⟩)]),
    .Forall [Scenario.y]
      (.Or [.Var ⟨7, "conj0", .BOOLEAN⟩, .Not (.Var Scenario.a), .Not (.Var Scenario.y)]),
    .Forall [Scenario.y] (.Or [.Not (.Var Scenario.y), .Not (.Var ⟨8, "conj1", .BOOLEAN⟩)])]

/-! ## The invariant of a visit of a quantifier-free formula -/

/-- The formula is an `And`, an `Or` or a `Not`: the kinds on which `Cnfize`
does not reach `DREAL_UNREACHABLE()`. -/
def is_compound (f : Formula) : Bool :=
  is_conjunction f || is_disjunction f || is_negation f

/-- The formulas that `Visit` returns as they are: the atomic formulas and
the negations of atomic formulas. -/
def returned_unchanged : Formula → Bool
  | .Not operand => is_atomic operand
  | f => is_atomic f

/-- The shape of a value of the definition map after a visit of a
quantifier-free formula: a conjunction or a disjunction of atomic formulas and
negations of atomic formulas, or the negation of a variable. -/
def definition_shape : Formula → Bool
  | .And operands => operands.all returned_unchanged
  | .Or operands => operands.all returned_unchanged
  | .Not (.Var _) => true
  | _ => false

/-- A value of the definition map whose operands are literals: a conjunction
or a disjunction of literals, or the negation of a variable. -/
def definition_of_literals : Formula → Bool
  | .And operands => operands.all is_literal
  | .Or operands => operands.all is_literal
  | .Not (.Var _) => true
  | _ => false

/-- Every variable of the formula is a variable of the input (identity below
`m`) or was allocated by the visit (identity from `n` up to `n'`). -/
def Formula.vars_in (m n n' : Nat) (f : Formula) : Prop :=
  ∀ v ∈ f.GetFreeVariables, v.id < m ∨ (n ≤ v.id ∧ v.id < n')

/-- The assignment with the truth value of the Boolean variable `i` set. -/
def Assignment.set {R : Type} (M : Assignment R) (i : Nat) (value : Bool) : Assignment R :=
  { M with b := fun j => if j = i then value else M.b j }

/-- What holds after `Visit` has run on a quantifier-free formula `f` with the
allocator at `n`: `r` is the returned formula, `Δ` the entries added to `map_`
in the order of insertion, `n'` the allocator afterwards. -/
structure VisitInv (f r : Formula) (Δ : DefinitionMap) (n n' : Nat) : Prop where
  le : n ≤ n'
  keys : ∀ p ∈ Δ, n ≤ p.1.id ∧ p.1.id < n'
  nodup : (Δ.map (fun p => p.1.id)).Nodup
  shape : ∀ p ∈ Δ, definition_shape p.2 = true
  qf : r.quantifier_free = true ∧ ∀ p ∈ Δ, p.2.quantifier_free = true
  result : (Δ = [] ∧ r = f ∧ returned_unchanged f = true) ∨
    (returned_unchanged f = false ∧
      ∃ p body Δ0, Δ = Δ0 ++ [(p, body)] ∧ r = .Var p)
  literals : f.no_constant_operand = true → ∀ p ∈ Δ, definition_of_literals p.2 = true
  vars : ∀ m, m ≤ n → f.vars_below m → r.vars_in m n n' ∧ ∀ p ∈ Δ, p.2.vars_in m n n'
  sound : ∀ {R : Type} (T : Theory R) (M : Assignment R),
    (∀ p ∈ Δ, definition_holds T M p) → (r.holds T M ↔ f.holds T M)
  sound_head : ∀ {R : Type} (T : Theory R) (M : Assignment R) (Δ0 : DefinitionMap)
    (p : Variable) (body : Formula), Δ = Δ0 ++ [(p, body)] →
    (∀ q ∈ Δ0, definition_holds T M q) → (body.holds T M ↔ f.holds T M)
  complete : ∀ m, m ≤ n → f.vars_below m → ∀ {R : Type} (T : Theory R) (M : Assignment R),
    ∃ M' : Assignment R, M'.r = M.r ∧ (∀ i, i < n ∨ n' ≤ i → M'.b i = M.b i) ∧
      ∀ p ∈ Δ, definition_holds T M' p

/-- What holds after `VisitOperands` has run on quantifier-free operands. -/
structure VisitOperandsInv (ops visited : List Formula) (Δ : DefinitionMap) (n n' : Nat) :
    Prop where
  le : n ≤ n'
  keys : ∀ p ∈ Δ, n ≤ p.1.id ∧ p.1.id < n'
  nodup : (Δ.map (fun p => p.1.id)).Nodup
  shape : ∀ p ∈ Δ, definition_shape p.2 = true
  qf : (∀ x ∈ visited, x.quantifier_free = true) ∧ ∀ p ∈ Δ, p.2.quantifier_free = true
  results : List.Forall₂
    (fun o x => (x = o ∧ returned_unchanged o = true) ∨
      (returned_unchanged o = false ∧
        ∃ p body, x = .Var p ∧ (p, body) ∈ Δ)) ops visited
  literals : (∀ o ∈ ops, o.no_constant_operand = true) →
    ∀ p ∈ Δ, definition_of_literals p.2 = true
  vars : ∀ m, m ≤ n → (∀ o ∈ ops, o.vars_below m) →
    (∀ x ∈ visited, x.vars_in m n n') ∧ ∀ p ∈ Δ, p.2.vars_in m n n'
  sound : ∀ {R : Type} (T : Theory R) (M : Assignment R),
    (∀ p ∈ Δ, definition_holds T M p) →
      List.Forall₂ (fun o x => x.holds T M ↔ o.holds T M) ops visited
  complete : ∀ m, m ≤ n → (∀ o ∈ ops, o.vars_below m) →
    ∀ {R : Type} (T : Theory R) (M : Assignment R),
    ∃ M' : Assignment R, M'.r = M.r ∧ (∀ i, i < n ∨ n' ≤ i → M'.b i = M.b i) ∧
      ∀ p ∈ Δ, definition_holds T M' p

/-! ## Measures of formulas and of results -/

mutual
/-- The variables that occur in the formula, free or bound. -/
def Formula.GetVariables : Formula → List Variable
  | .False => []
  | .True => []
  | .Var v => [v]
  | .Eq l r => l.GetVariables ++ r.GetVariables
  | .Neq l r => l.GetVariables ++ r.GetVariables
  | .Gt l r => l.GetVariables ++ r.GetVariables
  | .Geq l r => l.GetVariables ++ r.GetVariables
  | .Lt l r => l.GetVariables ++ r.GetVariables
  | .Leq l r => l.GetVariables ++ r.GetVariables
  | .And operands => GetVariablesOfOperands operands
  | .Or operands => GetVariablesOfOperands operands
  | .Not operand => operand.GetVariables
  | .Forall vars body => vars ++ body.GetVariables
/-- The variables that occur in the formulas of an operand list. -/
def GetVariablesOfOperands : List Formula → List Variable
  | [] => []
  | f :: fs => f.GetVariables ++ GetVariablesOfOperands fs
end

mutual
/-- The number of nodes of the formula for which `Visit` allocates a proxy when
there is no quantifier: the `And` nodes, the `Or` nodes and the `Not` nodes
with an operand that is not atomic. -/
def Formula.proxy_count : Formula → Nat
  | .And operands => 1 + proxy_count_of_operands operands
  | .Or operands => 1 + proxy_count_of_operands operands
  | .Not operand => if is_atomic operand then 0 else 1 + operand.proxy_count
  | _ => 0
/-- The sum of `proxy_count` over an operand list. -/
def proxy_count_of_operands : List Formula → Nat
  | [] => 0
  | f :: fs => f.proxy_count + proxy_count_of_operands fs
end

mutual
/-- The number of Boolean compound subnodes of the formula: its `And`, `Or`
and `Not` nodes. -/
def Formula.compound_count : Formula → Nat
  | .And operands => 1 + compound_count_of_operands operands
  | .Or operands => 1 + compound_count_of_operands operands
  | .Not operand => 1 + operand.compound_count
  | .Forall _ body => body.compound_count
  | _ => 0
/-- The sum of `compound_count` over an operand list. -/
def compound_count_of_operands : List Formula → Nat
  | [] => 0
  | f :: fs => f.compound_count + compound_count_of_operands fs
end

mutual
/-- The number of nodes of the formula, the constants, variables and atoms
included. -/
def Formula.node_count : Formula → Nat
  | .And operands => 1 + node_count_of_operands operands
  | .Or operands => 1 + node_count_of_operands operands
  | .Not operand => 1 + operand.node_count
  | .Forall _ body => 1 + body.node_count
  | _ => 1
/-- The sum of `node_count` over an operand list. -/
def node_count_of_operands : List Formula → Nat
  | [] => 0
  | f :: fs => f.node_count + node_count_of_operands fs
end

/-- The number of literal occurrences of an element of the result: the number
of operands of a disjunction, and one for every other formula. -/
def clause_size : Formula → Nat
  | .Or operands => operands.length
  | _ => 1

/-- The number of literal occurrences over all elements of a list. -/
def total_size (clauses : List Formula) : Nat := (clauses.map clause_size).sum

/-- The size of a definition `b ⇔ f`: the number of operands of a conjunction
or a disjunction plus one, and two for a negation. -/
def definition_size : Formula → Nat
  | .And operands => operands.length + 1
  | .Or operands => operands.length + 1
  | _ => 2

/-- The sum of the sizes of the definitions of a map. -/
def definitions_size (m : DefinitionMap) : Nat := (m.map (fun p => definition_size p.2)).sum

/-- Every conjunction in the formula has at least one operand. -/
def Formula.no_empty_conjunction (f : Formula) : Bool :=
  f.all_nodes (fun h =>
    match h with
    | .And operands => !operands.isEmpty
    | _ => true)

/-- A conjunction, or a conjunction under negations. -/
def is_negated_conjunction : Formula → Bool
  | .And _ => true
  | .Not operand => is_negated_conjunction operand
  | _ => false

/-- What holds after `Visit` has run on a formula `f` of any kind with the
allocator at `n`: `r` is the returned formula, `Δ` the entries added to `map_`
in the order of insertion, `n'` the allocator afterwards. -/
structure VisitFacts (f r : Formula) (Δ : DefinitionMap) (n n' : Nat) : Prop where
  le : n ≤ n'
  keys : ∀ p ∈ Δ, n ≤ p.1.id ∧ p.1.id < n' ∧ p.1.type = .BOOLEAN
  nodup : (Δ.map (fun p => p.1.id)).Nodup
  head : Δ = [] ∨ ∃ p body Δ0, Δ = Δ0 ++ [(p, body)] ∧ r = .Var p
  plain : is_negated_conjunction r = false ∧
    ∀ p ∈ Δ, ∀ x ∈ head_clauses p.2, is_negated_conjunction x = false
  nonempty : f.no_empty_conjunction = true → ∀ p ∈ Δ, head_clauses p.2 ≠ []
  count : f.quantifier_free = true → Δ.length = f.proxy_count ∧ n' = n + f.proxy_count
  unchanged : f.quantifier_free = true → returned_unchanged r = true
  size : f.quantifier_free = true → definitions_size Δ + 1 ≤ 2 * f.node_count
  covers : f.quantifier_free = true → ∀ v ∈ f.GetFreeVariables,
    (Δ = [] ∧ v ∈ r.GetFreeVariables) ∨ ∃ p ∈ Δ, v ∈ p.2.GetFreeVariables
  exact : f.quantifier_free = true →
    (∀ v ∈ r.GetFreeVariables, v ∈ f.GetFreeVariables ∨ ∃ p ∈ Δ, v = p.1) ∧
    ∀ q ∈ Δ, ∀ v ∈ q.2.GetFreeVariables, v ∈ f.GetFreeVariables ∨ ∃ p ∈ Δ, v = p.1

/-- What holds after `VisitOperands` has run on operands of any kind. -/
structure VisitOperandsFacts (ops visited : List Formula) (Δ : DefinitionMap) (n n' : Nat) :
    Prop where
  le : n ≤ n'
  keys : ∀ p ∈ Δ, n ≤ p.1.id ∧ p.1.id < n' ∧ p.1.type = .BOOLEAN
  nodup : (Δ.map (fun p => p.1.id)).Nodup
  length : visited.length = ops.length
  plain : (∀ x ∈ visited, is_negated_conjunction x = false) ∧
    ∀ p ∈ Δ, ∀ x ∈ head_clauses p.2, is_negated_conjunction x = false
  nonempty : (∀ o ∈ ops, o.no_empty_conjunction = true) → ∀ p ∈ Δ, head_clauses p.2 ≠ []
  count : (∀ o ∈ ops, o.quantifier_free = true) →
    Δ.length = proxy_count_of_operands ops ∧ n' = n + proxy_count_of_operands ops
  unchanged : (∀ o ∈ ops, o.quantifier_free = true) →
    ∀ x ∈ visited, returned_unchanged x = true
  size : (∀ o ∈ ops, o.quantifier_free = true) →
    definitions_size Δ + ops.length ≤ 2 * node_count_of_operands ops
  covers : (∀ o ∈ ops, o.quantifier_free = true) → ∀ o ∈ ops, ∀ v ∈ o.GetFreeVariables,
    (∃ x ∈ visited, v ∈ x.GetFreeVariables) ∨ ∃ p ∈ Δ, v ∈ p.2.GetFreeVariables
  exact : (∀ o ∈ ops, o.quantifier_free = true) →
    (∀ x ∈ visited, ∀ v ∈ x.GetFreeVariables,
      (∃ o ∈ ops, v ∈ o.GetFreeVariables) ∨ ∃ p ∈ Δ, v = p.1) ∧
    ∀ q ∈ Δ, ∀ v ∈ q.2.GetFreeVariables,
      (∃ o ∈ ops, v ∈ o.GetFreeVariables) ∨ ∃ p ∈ Δ, v = p.1

/-- The disjunction of the `n` Boolean variables with the identities `0` to
`n - 1`: one compound node with `n` operands. -/
def Scenario.wide (n : Nat) : Formula :=
  .Or ((List.range n).map (fun i => Formula.Var { id := i, name := "x", type := .BOOLEAN }))

/-! ## Renaming of variables -/

/-- The expression with every variable `v` replaced by `ρ v`. -/
def Expression.rename (ρ : Variable → Variable) : Expression → Expression
  | .var v => .var (ρ v)
  | .const c => .const c
  | .add a b => .add (a.rename ρ) (b.rename ρ)
  | .mul a b => .mul (a.rename ρ) (b.rename ρ)

mutual
/-- The formula with every variable `v`, free or bound, replaced by `ρ v`; the
operands of a conjunction or a disjunction stay in their order. -/
def Formula.rename (ρ : Variable → Variable) : Formula → Formula
  | .False => .False
  | .True => .True
  | .Var v => .Var (ρ v)
  | .Eq l r => .Eq (l.rename ρ) (r.rename ρ)
  | .Neq l r => .Neq (l.rename ρ) (r.rename ρ)
  | .Gt l r => .Gt (l.rename ρ) (r.rename ρ)
  | .Geq l r => .Geq (l.rename ρ) (r.rename ρ)
  | .Lt l r => .Lt (l.rename ρ) (r.rename ρ)
  | .Leq l r => .Leq (l.rename ρ) (r.rename ρ)
  | .And operands => .And (renameOperands ρ operands)
  | .Or operands => .Or (renameOperands ρ operands)
  | .Not operand => .Not (Formula.rename ρ operand)
  | .Forall vars body => .Forall (vars.map ρ) (Formula.rename ρ body)
/-- The renaming of every formula of an operand list. -/
def renameOperands (ρ : Variable → Variable) : List Formula → List Formula
  | [] => []
  | f :: fs => Formula.rename ρ f :: renameOperands ρ fs
end

/-- The definition map with every key and every value renamed. -/
def DefinitionMap.rename (ρ : Variable → Variable) (m : DefinitionMap) : DefinitionMap :=
  m.map (fun p => (ρ p.1, p.2.rename ρ))

/-- The renaming given by a list of pairs: the first component of a pair goes
to the second one, every other variable stays. -/
def rename_by : List (Variable × Variable) → Variable → Variable
  | [], v => v
  | p :: rest, v => if v = p.1 then p.2 else rename_by rest v

/-- The renaming `ρ` keeps, on the variables in `P`, the order of the variables
and the equality of their identities. -/
structure Renaming (ρ : Variable → Variable) (P : Variable → Prop) : Prop where
  compare : ∀ u v, P u → P v → (ρ u).compare (ρ v) = u.compare v
  ident : ∀ u v, P u → P v → (ρ u).equal_to (ρ v) = u.equal_to v

/-- The process state that a second call reaches from `g2` when it allocates
what a first call has allocated between `g1` and `g1'`. -/
def Globals.shift (g1 g1' g2 : Globals) : Globals :=
  { next_id := g2.next_id + (g1'.next_id - g1.next_id)
    conj_id := g2.conj_id + (g1'.conj_id - g1.conj_id)
    disj_id := g2.disj_id + (g1'.disj_id - g1.disj_id)
    forall_id := g2.forall_id + (g1'.forall_id - g1.forall_id) }

/-- No counter of the process state `g1` is above the one of `g1'`. -/
def Globals.le (g1 g1' : Globals) : Prop :=
  g1.next_id ≤ g1'.next_id ∧ g1.conj_id ≤ g1'.conj_id ∧ g1.disj_id ≤ g1'.disj_id ∧
    g1.forall_id ≤ g1'.forall_id

/-- A record of the proxies of two calls, pair by pair: the first components
have the identities that the first call allocates from `g1` up to `g1'`, each
of them once, a second component has the identity at the same distance from
`g2`, and there are as many pairs as identities between `g1` and `g1'`. -/
structure ProxyLog (A : List (Variable × Variable)) (g1 g1' g2 : Globals) : Prop where
  range : ∀ p ∈ A, g1.next_id ≤ p.1.id ∧ p.1.id < g1'.next_id ∧
    p.2.id + g1.next_id = p.1.id + g2.next_id
  nodup : (A.map (fun p => p.1.id)).Nodup
  length : A.length + g1.next_id = g1'.next_id

/-- What a second call of `Visit` on `f` does, from any process state `g2` and
on any instance, when a first call from `g1` has returned `r`, added the
entries `Δ` and left the process state `g1'`: there is a record `A` of the
proxies of the two calls such that, under every renaming that follows `A` and
keeps the variables of `f`, the second call returns the renamed `r`, adds the
renamed `Δ`, and moves the process state as the first call did. -/
def VisitAlike (f r : Formula) (Δ : DefinitionMap) (g1 g1' : Globals) : Prop :=
  ∀ g2 : Globals, ∃ A : List (Variable × Variable), ProxyLog A g1 g1' g2 ∧
    (∀ k ∈ Δ, k.1 ∈ A.map Prod.fst) ∧
    ∀ (c2 : Cnfizer) (ρ : Variable → Variable) (P : Variable → Prop),
      (∀ p ∈ c2.map_, p.1.id < g2.next_id) → Renaming ρ P →
      (∀ v ∈ f.GetVariables, P v ∧ ρ v = v) → (∀ p ∈ A, P p.1 ∧ ρ p.1 = p.2) →
      Cnfizer.Visit f c2 g2 =
          .ok (r.rename ρ, ⟨c2.map_ ++ Δ.rename ρ⟩, Globals.shift g1 g1' g2) ∧
        (∀ v ∈ r.GetVariables, P v) ∧ ∀ k ∈ Δ, ∀ v ∈ k.2.GetVariables, P v

/-- The same for `VisitOperands`. -/
def VisitOperandsAlike (ops visited : List Formula) (Δ : DefinitionMap) (g1 g1' : Globals) :
    Prop :=
  ∀ g2 : Globals, ∃ A : List (Variable × Variable), ProxyLog A g1 g1' g2 ∧
    (∀ k ∈ Δ, k.1 ∈ A.map Prod.fst) ∧
    ∀ (c2 : Cnfizer) (ρ : Variable → Variable) (P : Variable → Prop),
      (∀ p ∈ c2.map_, p.1.id < g2.next_id) → Renaming ρ P →
      (∀ o ∈ ops, ∀ v ∈ o.GetVariables, P v ∧ ρ v = v) → (∀ p ∈ A, P p.1 ∧ ρ p.1 = p.2) →
      Cnfizer.VisitOperands ops c2 g2 =
          .ok (visited.map (Formula.rename ρ), ⟨c2.map_ ++ Δ.rename ρ⟩,
            Globals.shift g1 g1' g2) ∧
        (∀ x ∈ visited, ∀ v ∈ x.GetVariables, P v) ∧ ∀ k ∈ Δ, ∀ v ∈ k.2.GetVariables, P v

end dreal

/-! # Theorems -/

namespace dreal

/-! ## The canonical order decides equality -/

theorem Ordering_then_eq (a b : Ordering) : a.then b = .eq ↔ a = .eq ∧ b = .eq := by
  cases a <;> simp [Ordering.then]

theorem VariableType.idx_inj {a b : VariableType} (h : a.idx = b.idx) : a = b := by
  cases a <;> cases b <;> simp_all [VariableType.idx]

theorem Variable_compare_eq {v w : Variable} : v.compare w = .eq ↔ v = w := by
  constructor
  · intro h
    simp only [Variable.compare, Ordering_then_eq, compare_eq_iff_eq] at h
    cases v; cases w
    simp only [Variable.mk.injEq]
    exact ⟨h.1, h.2.1, VariableType.idx_inj h.2.2⟩
  · rintro rfl
    simp [Variable.compare, Ordering_then_eq, compare_eq_iff_eq]

theorem Expression_compare_eq : ∀ {a b : Expression}, a.compare b = .eq ↔ a = b := by
  intro a
  induction a with
  | var v =>
    intro b
    cases b <;> simp [Expression.compare, Variable_compare_eq, Expression.idx, compare_eq_iff_eq]
  | const c =>
    intro b
    cases b <;> simp [Expression.compare, Expression.idx, compare_eq_iff_eq]
  | add a1 a2 ih1 ih2 =>
    intro b
    cases b <;>
      simp [Expression.compare, Expression.idx, Ordering_then_eq, ih1, ih2, compare_eq_iff_eq]
  | mul a1 a2 ih1 ih2 =>
    intro b
    cases b <;>
      simp [Expression.compare, Expression.idx, Ordering_then_eq, ih1, ih2, compare_eq_iff_eq]

theorem compareVariables_eq :
    ∀ {vs ws : List Variable}, compareVariables vs ws = .eq ↔ vs = ws
  | [], [] => by simp [compareVariables]
  | [], _ :: _ => by simp [compareVariables]
  | _ :: _, [] => by simp [compareVariables]
  | v :: vs, w :: ws => by
    simp [compareVariables, Ordering_then_eq, Variable_compare_eq,
      @compareVariables_eq vs ws]

mutual
theorem Formula_compare_eq : ∀ (a b : Formula), a.compare b = .eq ↔ a = b
  | .False, b => by
    cases b <;> simp [Formula.compare, Formula.get_kind, FormulaKind.idx, compare_eq_iff_eq]
  | .True, b => by
    cases b <;> simp [Formula.compare, Formula.get_kind, FormulaKind.idx, compare_eq_iff_eq]
  | .Var v, b => by
    cases b <;> simp [Formula.compare, Formula.get_kind, FormulaKind.idx, compare_eq_iff_eq,
      Variable_compare_eq]
  | .Eq l r, b => by
    cases b <;> simp [Formula.compare, Formula.get_kind, FormulaKind.idx, compare_eq_iff_eq,
      Ordering_then_eq, Expression_compare_eq]
  | .Neq l r, b => by
    cases b <;> simp [Formula.compare, Formula.get_kind, FormulaKind.idx, compare_eq_iff_eq,
      Ordering_then_eq, Expression_compare_eq]
  | .Gt l r, b => by
    cases b <;> simp [Formula.compare, Formula.get_kind, FormulaKind.idx, compare_eq_iff_eq,
      Ordering_then_eq, Expression_compare_eq]
  | .Geq l r, b => by
    cases b <;> simp [Formula.compare, Formula.get_kind, FormulaKind.idx, compare_eq_iff_eq,
      Ordering_then_eq, Expression_compare_eq]
  | .Lt l r, b => by
    cases b <;> simp [Formula.compare, Formula.get_kind, FormulaKind.idx, compare_eq_iff_eq,
      Ordering_then_eq, Expression_compare_eq]
  | .Leq l r, b => by
    cases b <;> simp [Formula.compare, Formula.get_kind, FormulaKind.idx, compare_eq_iff_eq,
      Ordering_then_eq, Expression_compare_eq]
  | .And l, b => by
    cases b <;> simp [Formula.compare, Formula.get_kind, FormulaKind.idx, compare_eq_iff_eq,
      compareOperands_eq l]
  | .Or l, b => by
    cases b <;> simp [Formula.compare, Formula.get_kind, FormulaKind.idx, compare_eq_iff_eq,
      compareOperands_eq l]
  | .Not f, b => by
    cases b <;> simp [Formula.compare, Formula.get_kind, FormulaKind.idx, compare_eq_iff_eq,
      Formula_compare_eq f]
  | .Forall vs f, b => by
    cases b <;> simp [Formula.compare, Formula.get_kind, FormulaKind.idx, compare_eq_iff_eq,
      Ordering_then_eq, compareVariables_eq, Formula_compare_eq f]
theorem compareOperands_eq : ∀ (l r : List Formula), compareOperands l r = .eq ↔ l = r
  | [], [] => by simp [compareOperands]
  | [], _ :: _ => by simp [compareOperands]
  | _ :: _, [] => by simp [compareOperands]
  | f :: fs, g :: gs => by
    simp [compareOperands, Ordering_then_eq, Formula_compare_eq f, compareOperands_eq fs]
end

/-! ## Operand sets -/

theorem FormulaSet.mem_insert {x z : Formula} :
    ∀ {l : List Formula}, z ∈ FormulaSet.insert x l ↔ z = x ∨ z ∈ l
  | [] => by simp [FormulaSet.insert]
  | y :: ys => by
    unfold FormulaSet.insert
    split
    · simp
    · next h =>
      have hxy : x = y := (Formula_compare_eq x y).1 h
      subst hxy
      simp
    · simp only [List.mem_cons, FormulaSet.mem_insert (l := ys)]
      tauto

theorem FormulaSet.mem_foldl_insert {z : Formula} :
    ∀ {xs acc : List Formula},
      z ∈ xs.foldl (fun acc x => FormulaSet.insert x acc) acc ↔ z ∈ acc ∨ z ∈ xs
  | [], acc => by simp
  | x :: xs, acc => by
    simp only [List.foldl_cons, List.mem_cons,
      @FormulaSet.mem_foldl_insert z xs, FormulaSet.mem_insert]
    tauto

theorem FormulaSet.mem_ofList {z : Formula} {xs : List Formula} :
    z ∈ FormulaSet.ofList xs ↔ z ∈ xs := by
  simp [FormulaSet.ofList, FormulaSet.mem_foldl_insert]

theorem FormulaSet.mem_map {z : Formula} {xs : List Formula} {func : Formula → Formula} :
    z ∈ FormulaSet.map xs func ↔ ∃ x ∈ xs, func x = z := by
  simp [FormulaSet.map, FormulaSet.mem_ofList]

/-! ## Semantics of the library operators -/

theorem holds_all_iff {R : Type} (T : Theory R) (M : Assignment R) :
    ∀ l : List Formula, holds_all T l M ↔ ∀ x ∈ l, x.holds T M
  | [] => by simp [holds_all]
  | f :: fs => by simp [holds_all, holds_all_iff T M fs]

theorem holds_some_iff {R : Type} (T : Theory R) (M : Assignment R) :
    ∀ l : List Formula, holds_some T l M ↔ ∃ x ∈ l, x.holds T M
  | [] => by simp [holds_some]
  | f :: fs => by simp [holds_some, holds_some_iff T M fs]

theorem holds_And {R : Type} (T : Theory R) (M : Assignment R) (l : List Formula) :
    (Formula.And l).holds T M ↔ ∀ x ∈ l, x.holds T M := by
  simp [Formula.holds, holds_all_iff]

theorem holds_Or {R : Type} (T : Theory R) (M : Assignment R) (l : List Formula) :
    (Formula.Or l).holds T M ↔ ∃ x ∈ l, x.holds T M := by
  simp [Formula.holds, holds_some_iff]

theorem holds_Var {R : Type} (T : Theory R) (M : Assignment R) (v : Variable) :
    (Formula.Var v).holds T M ↔ M.b v.id = true := by
  simp [Formula.holds]

theorem holds_Not {R : Type} (T : Theory R) (M : Assignment R) (f : Formula) :
    (Formula.Not f).holds T M ↔ ¬ f.holds T M := by
  simp [Formula.holds]

theorem holds_lnot {R : Type} (T : Theory R) (M : Assignment R) (f : Formula) :
    (f.lnot).holds T M ↔ ¬ f.holds T M := by
  cases f <;> simp [Formula.lnot, Formula.holds]

theorem holds_lor {R : Type} (T : Theory R) (M : Assignment R) (f1 f2 : Formula) :
    (f1.lor f2).holds T M ↔ f1.holds T M ∨ f2.holds T M := by
  unfold Formula.lor
  by_cases h1 : is_true f1 = true
  · cases f1 <;> simp_all [is_true, Formula.holds]
  by_cases h2 : is_true f2 = true
  · cases f2 <;> simp_all [is_true, Formula.holds]
  by_cases h3 : is_false f1 = true
  · cases f1 <;> simp_all [is_false, is_true, Formula.holds]
  by_cases h4 : is_false f2 = true
  · cases f2 <;> simp_all [is_false, is_true, Formula.holds]
  simp only [h1, h2, h3, h4, Bool.or_self, Bool.false_eq_true, if_false]
  split
  · simp only [holds_Or, FormulaSet.mem_foldl_insert]
    constructor
    · rintro ⟨x, hx | hx, hh⟩
      · exact Or.inl ⟨x, hx, hh⟩
      · exact Or.inr ⟨x, hx, hh⟩
    · rintro (⟨x, hx, hh⟩ | ⟨x, hx, hh⟩)
      · exact ⟨x, Or.inl hx, hh⟩
      · exact ⟨x, Or.inr hx, hh⟩
  · simp only [holds_Or, FormulaSet.mem_insert]
    constructor
    · rintro ⟨x, rfl | hx, hh⟩
      · exact Or.inr hh
      · exact Or.inl ⟨x, hx, hh⟩
    · rintro (⟨x, hx, hh⟩ | hh)
      · exact ⟨x, Or.inr hx, hh⟩
      · exact ⟨_, Or.inl rfl, hh⟩
  · simp only [holds_Or, FormulaSet.mem_insert]
    constructor
    · rintro ⟨x, rfl | hx, hh⟩
      · exact Or.inl hh
      · exact Or.inr ⟨x, hx, hh⟩
    · rintro (hh | ⟨x, hx, hh⟩)
      · exact ⟨_, Or.inl rfl, hh⟩
      · exact ⟨x, Or.inr hx, hh⟩
  · simp only [holds_Or, FormulaSet.mem_insert, List.not_mem_nil, or_false]
    constructor
    · rintro ⟨x, rfl | rfl, hh⟩
      · exact Or.inr hh
      · exact Or.inl hh
    · rintro (hh | hh)
      · exact ⟨_, Or.inr rfl, hh⟩
      · exact ⟨_, Or.inl rfl, hh⟩

theorem holds_imply {R : Type} (T : Theory R) (M : Assignment R) (f1 f2 : Formula) :
    (imply f1 f2).holds T M ↔ (f1.holds T M → f2.holds T M) := by
  simp only [imply, holds_lor, holds_lnot]
  tauto

/-! ## The emitters -/

theorem Add_eq (f : Formula) (clauses : List Formula) :
    Add f clauses = clauses ++ (if is_true f then [] else [f]) := by
  unfold Add
  by_cases h : is_true f = true <;> simp [h]

theorem is_true_holds {R : Type} (T : Theory R) (M : Assignment R) {f : Formula}
    (h : is_true f = true) : f.holds T M := by
  cases f <;> simp_all [is_true, Formula.holds]

theorem holds_Add {R : Type} (T : Theory R) (M : Assignment R) (f : Formula)
    (clauses : List Formula) :
    (∀ c ∈ Add f clauses, c.holds T M) ↔ (∀ c ∈ clauses, c.holds T M) ∧ f.holds T M := by
  rw [Add_eq]
  by_cases h : is_true f = true
  · simp [h, is_true_holds T M h]
  · simp only [h, Bool.false_eq_true, if_false, List.mem_append, List.mem_singleton]
    constructor
    · intro hh
      exact ⟨fun c hc => hh c (Or.inl hc), hh f (Or.inr rfl)⟩
    · rintro ⟨h1, h2⟩ c (hc | rfl)
      · exact h1 c hc
      · exact h2

theorem holds_foldl_Add {R : Type} (T : Theory R) (M : Assignment R) (F : Formula → Formula) :
    ∀ (l clauses : List Formula),
      (∀ c ∈ l.foldl (fun acc x => Add (F x) acc) clauses, c.holds T M) ↔
        (∀ c ∈ clauses, c.holds T M) ∧ ∀ x ∈ l, (F x).holds T M
  | [], clauses => by simp
  | x :: xs, clauses => by
    simp only [List.foldl_cons, holds_foldl_Add T M F xs, holds_Add, List.mem_cons,
      forall_eq_or_imp]
    tauto

theorem holds_CnfizeNegation {R : Type} (T : Theory R) (M : Assignment R) (b : Variable)
    (f : Formula) (clauses : List Formula) :
    (∀ c ∈ CnfizeNegation b f clauses, c.holds T M) ↔
      (∀ c ∈ clauses, c.holds T M) ∧ definition_holds T M (b, f) := by
  simp only [CnfizeNegation, AddIff, holds_Add, holds_imply, definition_holds, holds_Var]
  tauto

theorem holds_CnfizeConjunction {R : Type} (T : Theory R) (M : Assignment R) (b : Variable)
    (operands : List Formula) (clauses : List Formula) :
    (∀ c ∈ CnfizeConjunction b (.And operands) clauses, c.holds T M) ↔
      (∀ c ∈ clauses, c.holds T M) ∧ definition_holds T M (b, .And operands) := by
  simp only [CnfizeConjunction, get_operands, holds_Add, holds_foldl_Add, holds_lor, holds_lnot,
    make_disjunction, holds_Or, FormulaSet.mem_map, definition_holds, holds_And, holds_Var]
  constructor
  · rintro ⟨⟨h1, h2⟩, h3⟩
    refine ⟨h1, fun hb x hx => ?_, fun hall => ?_⟩
    · rcases h2 x hx with h | h
      · exact absurd hb h
      · exact h
    · rcases h3 with ⟨x, ⟨y, hy, rfl⟩, hx⟩ | h
      · exact absurd (hall y hy) ((holds_lnot T M y).1 hx)
      · exact h
  · rintro ⟨h1, h2, h3⟩
    refine ⟨⟨h1, fun x hx => ?_⟩, ?_⟩
    · by_cases hb : M.b b.id = true
      · exact Or.inr (h2 hb x hx)
      · exact Or.inl hb
    · by_cases hall : ∀ x ∈ operands, x.holds T M
      · exact Or.inr (h3 hall)
      · push_neg at hall
        obtain ⟨x, hx, hnx⟩ := hall
        exact Or.inl ⟨x.lnot, ⟨x, hx, rfl⟩, (holds_lnot T M x).2 hnx⟩

theorem holds_CnfizeDisjunction {R : Type} (T : Theory R) (M : Assignment R) (b : Variable)
    (operands : List Formula) (clauses : List Formula) :
    (∀ c ∈ CnfizeDisjunction b (.Or operands) clauses, c.holds T M) ↔
      (∀ c ∈ clauses, c.holds T M) ∧ definition_holds T M (b, .Or operands) := by
  simp only [CnfizeDisjunction, get_operands]
  rw [holds_foldl_Add T M (fun neg_b_i => neg_b_i.lor (.Var b))]
  simp only [holds_Add, holds_lor, holds_lnot, FormulaSet.mem_map, holds_Or, holds_Var,
    definition_holds]
  constructor
  · rintro ⟨⟨h1, h2⟩, h3⟩
    refine ⟨h1, fun hb => ?_, ?_⟩
    · rcases h2 with h | h
      · exact absurd hb h
      · exact h
    · rintro ⟨x, hx, hh⟩
      rcases h3 x.lnot ⟨x, hx, rfl⟩ with h | h
      · exact absurd hh ((holds_lnot T M x).1 h)
      · exact h
  · rintro ⟨h1, h2, h3⟩
    refine ⟨⟨h1, ?_⟩, ?_⟩
    · by_cases hb : M.b b.id = true
      · exact Or.inr (h2 hb)
      · exact Or.inl hb
    · rintro _ ⟨x, hx, rfl⟩
      by_cases hh : x.holds T M
      · exact Or.inr (h3 ⟨x, hx, hh⟩)
      · exact Or.inl ((holds_lnot T M x).2 hh)

/-! ## Nodes, free variables and coincidence -/

theorem all_nodes_of_operands_iff (P : Formula → Bool) :
    ∀ l : List Formula, all_nodes_of_operands P l = true ↔ ∀ x ∈ l, x.all_nodes P = true
  | [] => by simp [all_nodes_of_operands]
  | f :: fs => by simp [all_nodes_of_operands, all_nodes_of_operands_iff P fs]

theorem all_nodes_self (P : Formula → Bool) (f : Formula) (h : f.all_nodes P = true) :
    P f = true := by
  cases f <;> simp_all [Formula.all_nodes]

theorem all_nodes_And (P : Formula → Bool) (l : List Formula) :
    (Formula.And l).all_nodes P = true ↔
      P (.And l) = true ∧ ∀ x ∈ l, x.all_nodes P = true := by
  simp [Formula.all_nodes, all_nodes_of_operands_iff]

theorem all_nodes_Or (P : Formula → Bool) (l : List Formula) :
    (Formula.Or l).all_nodes P = true ↔
      P (.Or l) = true ∧ ∀ x ∈ l, x.all_nodes P = true := by
  simp [Formula.all_nodes, all_nodes_of_operands_iff]

theorem all_nodes_Not (P : Formula → Bool) (f : Formula) :
    (Formula.Not f).all_nodes P = true ↔ P (.Not f) = true ∧ f.all_nodes P = true := by
  simp [Formula.all_nodes]

theorem mem_GetFreeVariablesOfOperands {v : Variable} :
    ∀ {l : List Formula},
      v ∈ GetFreeVariablesOfOperands l ↔ ∃ x ∈ l, v ∈ x.GetFreeVariables
  | [] => by simp [GetFreeVariablesOfOperands]
  | f :: fs => by
    simp [GetFreeVariablesOfOperands, mem_GetFreeVariablesOfOperands (l := fs)]

theorem mem_GetFreeVariables_And {v : Variable} {l : List Formula} :
    v ∈ (Formula.And l).GetFreeVariables ↔ ∃ x ∈ l, v ∈ x.GetFreeVariables := by
  simp [Formula.GetFreeVariables, mem_GetFreeVariablesOfOperands]

theorem mem_GetFreeVariables_Or {v : Variable} {l : List Formula} :
    v ∈ (Formula.Or l).GetFreeVariables ↔ ∃ x ∈ l, v ∈ x.GetFreeVariables := by
  simp [Formula.GetFreeVariables, mem_GetFreeVariablesOfOperands]

theorem GetFreeVariables_lnot (f : Formula) :
    (f.lnot).GetFreeVariables = f.GetFreeVariables := by
  cases f <;> simp [Formula.lnot, Formula.GetFreeVariables]

theorem mem_GetFreeVariables_lor {v : Variable} {f1 f2 : Formula}
    (h : v ∈ (f1.lor f2).GetFreeVariables) :
    v ∈ f1.GetFreeVariables ∨ v ∈ f2.GetFreeVariables := by
  unfold Formula.lor at h
  split at h
  · simp [Formula.GetFreeVariables] at h
  split at h
  · exact Or.inr h
  split at h
  · exact Or.inl h
  split at h
  · simp only [mem_GetFreeVariables_Or, FormulaSet.mem_foldl_insert] at h ⊢
    obtain ⟨x, hx | hx, hv⟩ := h
    · exact Or.inl ⟨x, hx, hv⟩
    · exact Or.inr ⟨x, hx, hv⟩
  · simp only [mem_GetFreeVariables_Or, FormulaSet.mem_insert] at h ⊢
    obtain ⟨x, rfl | hx, hv⟩ := h
    · exact Or.inr hv
    · exact Or.inl ⟨x, hx, hv⟩
  · simp only [mem_GetFreeVariables_Or, FormulaSet.mem_insert] at h ⊢
    obtain ⟨x, rfl | hx, hv⟩ := h
    · exact Or.inl hv
    · exact Or.inr ⟨x, hx, hv⟩
  · simp only [mem_GetFreeVariables_Or, FormulaSet.mem_insert, List.not_mem_nil, or_false] at h
    obtain ⟨x, rfl | rfl, hv⟩ := h
    · exact Or.inr hv
    · exact Or.inl hv

mutual
theorem holds_congr {R : Type} (T : Theory R) (M1 M2 : Assignment R) (hr : M1.r = M2.r) :
    ∀ f : Formula, f.quantifier_free = true →
      (∀ v ∈ f.GetFreeVariables, M1.b v.id = M2.b v.id) → (f.holds T M1 ↔ f.holds T M2)
  | .False, _, _ => by simp [Formula.holds]
  | .True, _, _ => by simp [Formula.holds]
  | .Var v, _, h => by
    have := h v (by simp [Formula.GetFreeVariables])
    simp [Formula.holds, this]
  | .Eq l r, _, _ => by simp [Formula.holds, hr]
  | .Neq l r, _, _ => by simp [Formula.holds, hr]
  | .Gt l r, _, _ => by simp [Formula.holds, hr]
  | .Geq l r, _, _ => by simp [Formula.holds, hr]
  | .Lt l r, _, _ => by simp [Formula.holds, hr]
  | .Leq l r, _, _ => by simp [Formula.holds, hr]
  | .And l, hq, h => by
    have hq' : all_nodes_of_operands (fun h => !(is_forall h)) l = true := by
      simpa [Formula.quantifier_free, Formula.all_nodes, is_forall] using hq
    simp only [Formula.holds]
    exact (holds_all_congr T M1 M2 hr l hq' (by simpa [Formula.GetFreeVariables] using h)).1
  | .Or l, hq, h => by
    have hq' : all_nodes_of_operands (fun h => !(is_forall h)) l = true := by
      simpa [Formula.quantifier_free, Formula.all_nodes, is_forall] using hq
    simp only [Formula.holds]
    exact (holds_all_congr T M1 M2 hr l hq' (by simpa [Formula.GetFreeVariables] using h)).2
  | .Not f, hq, h => by
    have hq' : f.quantifier_free = true := by
      simpa [Formula.quantifier_free, Formula.all_nodes, is_forall] using hq
    simp only [Formula.holds]
    exact not_congr (holds_congr T M1 M2 hr f hq' (by simpa [Formula.GetFreeVariables] using h))
  | .Forall vs f, hq, _ => by
    simp [Formula.quantifier_free, Formula.all_nodes, is_forall] at hq
theorem holds_all_congr {R : Type} (T : Theory R) (M1 M2 : Assignment R) (hr : M1.r = M2.r) :
    ∀ l : List Formula, all_nodes_of_operands (fun h => !(is_forall h)) l = true →
      (∀ v ∈ GetFreeVariablesOfOperands l, M1.b v.id = M2.b v.id) →
      (holds_all T l M1 ↔ holds_all T l M2) ∧ (holds_some T l M1 ↔ holds_some T l M2)
  | [], _, _ => by simp [holds_all, holds_some]
  | f :: fs, hq, h => by
    simp only [all_nodes_of_operands, Bool.and_eq_true] at hq
    simp only [GetFreeVariablesOfOperands, List.mem_append] at h
    have h1 := holds_congr T M1 M2 hr f hq.1 (fun v hv => h v (Or.inl hv))
    have h2 := holds_all_congr T M1 M2 hr fs hq.2 (fun v hv => h v (Or.inr hv))
    simp only [holds_all, holds_some, h1, h2.1, h2.2, and_self]
end

/-! ## Building blocks of the visit invariant -/

theorem DefinitionMap.emplace_fresh (m : DefinitionMap) (k : Variable) (f : Formula)
    (h : ∀ p ∈ m, p.1.id ≠ k.id) : DefinitionMap.emplace m k f = m ++ [(k, f)] := by
  unfold DefinitionMap.emplace
  have : m.any (fun p => p.1.equal_to k) = false := by
    simp only [List.any_eq_false, Variable.equal_to, beq_iff_eq]
    exact fun p hp => h p hp
  simp [this]

theorem definition_holds_congr {R : Type} (T : Theory R) (M1 M2 : Assignment R)
    (hr : M1.r = M2.r) (p : Variable × Formula) (hq : p.2.quantifier_free = true)
    (hk : M1.b p.1.id = M2.b p.1.id)
    (hv : ∀ v ∈ p.2.GetFreeVariables, M1.b v.id = M2.b v.id) :
    definition_holds T M1 p ↔ definition_holds T M2 p := by
  unfold definition_holds
  rw [hk, holds_congr T M1 M2 hr p.2 hq hv]

theorem Forall₂_mem_right {α β : Type} {P : α → β → Prop} :
    ∀ {l : List α} {r : List β}, List.Forall₂ P l r → ∀ x ∈ r, ∃ o ∈ l, P o x
  | _, _, .nil, x, hx => by simp at hx
  | _, _, .cons h t, x, hx => by
    rcases List.mem_cons.1 hx with rfl | hx
    · exact ⟨_, List.mem_cons_self _ _, h⟩
    · obtain ⟨o, ho, hp⟩ := Forall₂_mem_right t x hx
      exact ⟨o, List.mem_cons_of_mem _ ho, hp⟩

theorem Forall₂_mem_left {α β : Type} {P : α → β → Prop} :
    ∀ {l : List α} {r : List β}, List.Forall₂ P l r → ∀ o ∈ l, ∃ x ∈ r, P o x
  | _, _, .nil, x, hx => by simp at hx
  | _, _, .cons h t, o, ho => by
    rcases List.mem_cons.1 ho with rfl | ho
    · exact ⟨_, List.mem_cons_self _ _, h⟩
    · obtain ⟨x, hx, hp⟩ := Forall₂_mem_left t o ho
      exact ⟨x, List.mem_cons_of_mem _ hx, hp⟩

theorem quantifier_free_And {l : List Formula} :
    (Formula.And l).quantifier_free = true ↔ ∀ x ∈ l, x.quantifier_free = true := by
  simp [Formula.quantifier_free, all_nodes_And, is_forall]

theorem quantifier_free_Or {l : List Formula} :
    (Formula.Or l).quantifier_free = true ↔ ∀ x ∈ l, x.quantifier_free = true := by
  simp [Formula.quantifier_free, all_nodes_Or, is_forall]

theorem quantifier_free_Not {f : Formula} :
    (Formula.Not f).quantifier_free = true ↔ f.quantifier_free = true := by
  simp [Formula.quantifier_free, all_nodes_Not, is_forall]

theorem vars_in_mono {m n n' k k' : Nat} {f : Formula} (h : f.vars_in m k k')
    (h1 : n ≤ k) (h2 : k' ≤ n') : f.vars_in m n n' := by
  intro v hv
  rcases h v hv with h | h
  · exact Or.inl h
  · exact Or.inr ⟨by omega, by omega⟩

theorem Assignment.set_b {R : Type} (M : Assignment R) (i j : Nat) (value : Bool) :
    (M.set i value).b j = if j = i then value else M.b j := rfl

theorem Assignment.set_r {R : Type} (M : Assignment R) (i : Nat) (value : Bool) :
    (M.set i value).r = M.r := rfl

theorem VisitInv.leaf {f : Formula} (n : Nat) (hq : f.quantifier_free = true)
    (h : returned_unchanged f = true) : VisitInv f f [] n n where
  le := Nat.le_refl n
  keys := by simp
  nodup := by simp
  shape := by simp
  qf := ⟨hq, by simp⟩
  result := Or.inl ⟨rfl, rfl, h⟩
  literals := by simp
  vars := fun m _ hv => ⟨fun v hvm => Or.inl (hv v hvm), by simp⟩
  sound := fun _ _ _ => Iff.rfl
  sound_head := by
    intro R T M Δ0 p body h
    simp at h
  complete := fun _ _ _ _ _ M => ⟨M, rfl, fun _ _ => rfl, by simp⟩

theorem VisitOperandsInv.nil (n : Nat) : VisitOperandsInv [] [] [] n n where
  le := Nat.le_refl n
  keys := by simp
  nodup := by simp
  shape := by simp
  qf := ⟨by simp, by simp⟩
  results := .nil
  literals := by simp
  vars := fun _ _ _ => ⟨by simp, by simp⟩
  sound := fun _ _ _ => .nil
  complete := fun _ _ _ _ _ M => ⟨M, rfl, fun _ _ => rfl, by simp⟩

theorem VisitOperandsInv.cons {f r1 : Formula} {fs visited : List Formula}
    {Δ1 Δ2 : DefinitionMap} {n n1 n2 : Nat}
    (h1 : VisitInv f r1 Δ1 n n1) (h2 : VisitOperandsInv fs visited Δ2 n1 n2) :
    VisitOperandsInv (f :: fs) (r1 :: visited) (Δ1 ++ Δ2) n n2 where
  le := Nat.le_trans h1.le h2.le
  keys := by
    intro p hp
    rcases List.mem_append.1 hp with hp | hp
    · have := h1.keys p hp
      have := h2.le
      omega
    · have := h2.keys p hp
      have := h1.le
      omega
  nodup := by
    rw [List.map_append, List.nodup_append]
    refine ⟨h1.nodup, h2.nodup, ?_⟩
    intro i hi1 hi2
    obtain ⟨p, hp, rfl⟩ := List.mem_map.1 hi1
    obtain ⟨q, hq, hpq⟩ := List.mem_map.1 hi2
    have := h1.keys p hp
    have := h2.keys q hq
    omega
  shape := by
    intro p hp
    rcases List.mem_append.1 hp with hp | hp
    · exact h1.shape p hp
    · exact h2.shape p hp
  qf := by
    refine ⟨?_, ?_⟩
    · intro x hx
      rcases List.mem_cons.1 hx with rfl | hx
      · exact h1.qf.1
      · exact h2.qf.1 x hx
    · intro p hp
      rcases List.mem_append.1 hp with hp | hp
      · exact h1.qf.2 p hp
      · exact h2.qf.2 p hp
  results := by
    refine .cons ?_ ?_
    · rcases h1.result with ⟨_, hr, hc⟩ | ⟨hn, p, body, Δ0, hΔ, hr⟩
      · exact Or.inl ⟨hr, hc⟩
      · exact Or.inr ⟨hn, p, body, hr, by rw [hΔ]; simp⟩
    · refine h2.results.imp ?_
      rintro o x (h | ⟨hn, p, body, hx, hm⟩)
      · exact Or.inl h
      · exact Or.inr ⟨hn, p, body, hx, List.mem_append_right _ hm⟩
  literals := by
    intro hnc p hp
    rcases List.mem_append.1 hp with hp | hp
    · exact h1.literals (hnc f (List.mem_cons_self _ _)) p hp
    · exact h2.literals (fun o ho => hnc o (List.mem_cons_of_mem _ ho)) p hp
  vars := by
    intro m hm hv
    have hv1 := h1.vars m hm (hv f (List.mem_cons_self _ _))
    have hv2 := h2.vars m (Nat.le_trans hm h1.le) (fun o ho => hv o (List.mem_cons_of_mem _ ho))
    refine ⟨?_, ?_⟩
    · intro x hx
      rcases List.mem_cons.1 hx with rfl | hx
      · exact vars_in_mono hv1.1 (Nat.le_refl _) h2.le
      · exact vars_in_mono (hv2.1 x hx) h1.le (Nat.le_refl _)
    · intro p hp
      rcases List.mem_append.1 hp with hp | hp
      · exact vars_in_mono (hv1.2 p hp) (Nat.le_refl _) h2.le
      · exact vars_in_mono (hv2.2 p hp) h1.le (Nat.le_refl _)
  sound := by
    intro R T M hd
    refine .cons ?_ ?_
    · exact h1.sound T M (fun p hp => hd p (List.mem_append_left _ hp))
    · exact h2.sound T M (fun p hp => hd p (List.mem_append_right _ hp))
  complete := by
    intro m hm hv R T M
    have hv1 := h1.vars m hm (hv f (List.mem_cons_self _ _))
    obtain ⟨M1, hr1, ha1, hd1⟩ := h1.complete m hm (hv f (List.mem_cons_self _ _)) T M
    obtain ⟨M2, hr2, ha2, hd2⟩ :=
      h2.complete m (Nat.le_trans hm h1.le) (fun o ho => hv o (List.mem_cons_of_mem _ ho)) T M1
    refine ⟨M2, hr2.trans hr1, ?_, ?_⟩
    · intro i hi
      have hle1 := h1.le
      have hle2 := h2.le
      rw [ha2 i (by omega), ha1 i (by omega)]
    · intro p hp
      rcases List.mem_append.1 hp with hp | hp
      · have hk := h1.keys p hp
        refine (definition_holds_congr T M2 M1 hr2 p (h1.qf.2 p hp) (ha2 _ (by omega)) ?_).2
          (hd1 p hp)
        intro v hvm
        refine ha2 _ ?_
        rcases hv1.2 p hp v hvm with h | h
        · have := h1.le
          omega
        · omega
      · exact hd2 p hp

theorem holds_set {R : Type} (T : Theory R) (M : Assignment R) (i : Nat) (value : Bool)
    (f : Formula) (hq : f.quantifier_free = true) (hv : ∀ v ∈ f.GetFreeVariables, v.id ≠ i) :
    f.holds T (M.set i value) ↔ f.holds T M := by
  refine holds_congr T (M.set i value) M (Assignment.set_r M i value) f hq ?_
  intro v hvm
  simp [Assignment.set_b, hv v hvm]

theorem definition_holds_set {R : Type} (T : Theory R) (M : Assignment R) (i : Nat)
    (value : Bool) (p : Variable × Formula) (hq : p.2.quantifier_free = true)
    (hk : p.1.id ≠ i) (hv : ∀ v ∈ p.2.GetFreeVariables, v.id ≠ i) :
    definition_holds T (M.set i value) p ↔ definition_holds T M p := by
  refine definition_holds_congr T (M.set i value) M (Assignment.set_r M i value) p hq ?_ ?_
  · simp [Assignment.set_b, hk]
  · intro v hvm
    simp [Assignment.set_b, hv v hvm]

theorem vars_below_And {m : Nat} {l : List Formula} :
    (Formula.And l).vars_below m ↔ ∀ o ∈ l, o.vars_below m := by
  simp only [Formula.vars_below, mem_GetFreeVariables_And]
  constructor
  · intro h o ho v hv
    exact h v ⟨o, ho, hv⟩
  · rintro h v ⟨o, ho, hv⟩
    exact h o ho v hv

theorem vars_below_Or {m : Nat} {l : List Formula} :
    (Formula.Or l).vars_below m ↔ ∀ o ∈ l, o.vars_below m := by
  simp only [Formula.vars_below, mem_GetFreeVariables_Or]
  constructor
  · intro h o ho v hv
    exact h v ⟨o, ho, hv⟩
  · rintro h v ⟨o, ho, hv⟩
    exact h o ho v hv

theorem is_literal_of_unchanged {f : Formula} (hu : returned_unchanged f = true)
    (hc : is_constant f = false) (hn : f.no_constant_operand = true) :
    is_literal f = true := by
  cases f with
  | Not g =>
    have hg := ((all_nodes_Not _ _).1 hn).1
    cases g <;> simp_all [returned_unchanged, is_atomic, is_literal, is_variable_or_atom,
      is_constant, is_true, is_false]
  | _ =>
    simp_all [returned_unchanged, is_atomic, is_literal, is_variable_or_atom, is_constant,
      is_true, is_false]

theorem VisitInv.of_And {ops visited : List Formula} {Δ : DefinitionMap} {n n1 : Nat}
    (h : VisitOperandsInv ops visited Δ n n1) (bvar : Variable) (hb : bvar.id = n1) :
    VisitInv (.And ops) (.Var bvar)
      (Δ ++ [(bvar, .And (FormulaSet.ofList visited))]) n (n1 + 1) where
  le := by
    have := h.le
    omega
  keys := by
    intro p hp
    rcases List.mem_append.1 hp with hp | hp
    · have := h.keys p hp
      omega
    · have := h.le
      simp only [List.mem_singleton] at hp
      subst hp
      simp only
      omega
  nodup := by
    rw [List.map_append, List.nodup_append]
    refine ⟨h.nodup, by simp, ?_⟩
    intro i hi1 hi2
    obtain ⟨p, hp, rfl⟩ := List.mem_map.1 hi1
    simp only [List.map_cons, List.map_nil, List.mem_singleton] at hi2
    have := h.keys p hp
    omega
  shape := by
    intro p hp
    rcases List.mem_append.1 hp with hp | hp
    · exact h.shape p hp
    · simp only [List.mem_singleton] at hp
      subst hp
      simp only [definition_shape, List.all_eq_true, FormulaSet.mem_ofList]
      intro x hx
      obtain ⟨o, ho, hox⟩ := Forall₂_mem_right h.results x hx
      rcases hox with ⟨rfl, hu⟩ | ⟨_, p, body, rfl, _⟩
      · exact hu
      · rfl
  qf := by
    refine ⟨rfl, ?_⟩
    intro p hp
    rcases List.mem_append.1 hp with hp | hp
    · exact h.qf.2 p hp
    · simp only [List.mem_singleton] at hp
      subst hp
      exact quantifier_free_And.2 (fun x hx => h.qf.1 x (FormulaSet.mem_ofList.1 hx))
  result := Or.inr ⟨rfl, bvar, _, Δ, rfl, rfl⟩
  literals := by
    intro hnc p hp
    have hnc' := (all_nodes_And _ _).1 hnc
    rcases List.mem_append.1 hp with hp | hp
    · exact h.literals hnc'.2 p hp
    · simp only [List.mem_singleton] at hp
      subst hp
      simp only [definition_of_literals, List.all_eq_true, FormulaSet.mem_ofList]
      intro x hx
      obtain ⟨o, ho, hox⟩ := Forall₂_mem_right h.results x hx
      rcases hox with ⟨rfl, hu⟩ | ⟨_, p, body, rfl, _⟩
      · have := hnc'.1
        simp only [List.all_eq_true] at this
        exact is_literal_of_unchanged hu (by simpa using this x ho) (hnc'.2 x ho)
      · rfl
  vars := by
    intro m hm hv
    have hvars := h.vars m hm (vars_below_And.1 hv)
    refine ⟨?_, ?_⟩
    · intro v hvm
      simp only [Formula.GetFreeVariables, List.mem_singleton] at hvm
      subst hvm
      have := h.le
      exact Or.inr ⟨by omega, by omega⟩
    · intro p hp
      rcases List.mem_append.1 hp with hp | hp
      · exact vars_in_mono (hvars.2 p hp) (Nat.le_refl _) (Nat.le_succ _)
      · simp only [List.mem_singleton] at hp
        subst hp
        intro v hvm
        obtain ⟨x, hx, hvx⟩ := mem_GetFreeVariables_And.1 hvm
        exact vars_in_mono (hvars.1 x (FormulaSet.mem_ofList.1 hx)) (Nat.le_refl _)
          (Nat.le_succ _) v hvx
  sound := by
    intro R T M hd
    have hdef := hd (bvar, .And (FormulaSet.ofList visited)) (by simp)
    have hs := h.sound T M (fun p hp => hd p (List.mem_append_left _ hp))
    unfold definition_holds at hdef
    simp only [holds_And, FormulaSet.mem_ofList] at hdef
    simp only [holds_Var, holds_And, hdef]
    constructor
    · intro hx o ho
      obtain ⟨x, hxm, hox⟩ := Forall₂_mem_left hs o ho
      exact hox.1 (hx x hxm)
    · intro ho x hx
      obtain ⟨o, hom, hox⟩ := Forall₂_mem_right hs x hx
      exact hox.2 (ho o hom)
  sound_head := by
    intro R T M Δ0 p body he hd
    obtain ⟨h1, h2⟩ := List.append_inj' he rfl
    simp only [List.cons.injEq, Prod.mk.injEq, and_true] at h2
    obtain ⟨-, rfl⟩ := h2
    subst h1
    have hs := h.sound T M hd
    simp only [holds_And, FormulaSet.mem_ofList]
    constructor
    · intro hx o ho
      obtain ⟨x, hxm, hox⟩ := Forall₂_mem_left hs o ho
      exact hox.1 (hx x hxm)
    · intro ho x hx
      obtain ⟨o, hom, hox⟩ := Forall₂_mem_right hs x hx
      exact hox.2 (ho o hom)
  complete := by
    intro m hm hv R T M
    have hvo := vars_below_And.1 hv
    have hvars := h.vars m hm hvo
    have hle := h.le
    obtain ⟨M1, hr1, ha1, hd1⟩ := h.complete m hm hvo T M
    classical
    have hbody : ∀ v ∈ (Formula.And (FormulaSet.ofList visited)).GetFreeVariables,
        v.id ≠ n1 := by
      intro v hvm
      obtain ⟨x, hx, hvx⟩ := mem_GetFreeVariables_And.1 hvm
      rcases hvars.1 x (FormulaSet.mem_ofList.1 hx) v hvx with h | h <;> omega
    have hqf : (Formula.And (FormulaSet.ofList visited)).quantifier_free = true :=
      quantifier_free_And.2 (fun x hx => h.qf.1 x (FormulaSet.mem_ofList.1 hx))
    refine ⟨M1.set n1 (decide ((Formula.And (FormulaSet.ofList visited)).holds T M1)),
      hr1, ?_, ?_⟩
    · intro i hi
      have hne : i ≠ n1 := by omega
      rw [Assignment.set_b, if_neg hne]
      exact ha1 i (by omega)
    · intro p hp
      rcases List.mem_append.1 hp with hp | hp
      · have hk := h.keys p hp
        refine (definition_holds_set T M1 n1 _ p (h.qf.2 p hp) (by omega) ?_).2 (hd1 p hp)
        intro v hvm
        rcases hvars.2 p hp v hvm with h | h <;> omega
      · simp only [List.mem_singleton] at hp
        subst hp
        unfold definition_holds
        rw [holds_set T M1 n1 _ _ hqf hbody, Assignment.set_b, hb]
        simp
  
theorem VisitInv.of_Or {ops visited : List Formula} {Δ : DefinitionMap} {n n1 : Nat}
    (h : VisitOperandsInv ops visited Δ n n1) (bvar : Variable) (hb : bvar.id = n1) :
    VisitInv (.Or ops) (.Var bvar)
      (Δ ++ [(bvar, .Or (FormulaSet.ofList visited))]) n (n1 + 1) where
  le := by
    have := h.le
    omega
  keys := by
    intro p hp
    rcases List.mem_append.1 hp with hp | hp
    · have := h.keys p hp
      omega
    · have := h.le
      simp only [List.mem_singleton] at hp
      subst hp
      simp only
      omega
  nodup := by
    rw [List.map_append, List.nodup_append]
    refine ⟨h.nodup, by simp, ?_⟩
    intro i hi1 hi2
    obtain ⟨p, hp, rfl⟩ := List.mem_map.1 hi1
    simp only [List.map_cons, List.map_nil, List.mem_singleton] at hi2
    have := h.keys p hp
    omega
  shape := by
    intro p hp
    rcases List.mem_append.1 hp with hp | hp
    · exact h.shape p hp
    · simp only [List.mem_singleton] at hp
      subst hp
      simp only [definition_shape, List.all_eq_true, FormulaSet.mem_ofList]
      intro x hx
      obtain ⟨o, ho, hox⟩ := Forall₂_mem_right h.results x hx
      rcases hox with ⟨rfl, hu⟩ | ⟨_, p, body, rfl, _⟩
      · exact hu
      · rfl
  qf := by
    refine ⟨rfl, ?_⟩
    intro p hp
    rcases List.mem_append.1 hp with hp | hp
    · exact h.qf.2 p hp
    · simp only [List.mem_singleton] at hp
      subst hp
      exact quantifier_free_Or.2 (fun x hx => h.qf.1 x (FormulaSet.mem_ofList.1 hx))
  result := Or.inr ⟨rfl, bvar, _, Δ, rfl, rfl⟩
  literals := by
    intro hnc p hp
    have hnc' := (all_nodes_Or _ _).1 hnc
    rcases List.mem_append.1 hp with hp | hp
    · exact h.literals hnc'.2 p hp
    · simp only [List.mem_singleton] at hp
      subst hp
      simp only [definition_of_literals, List.all_eq_true, FormulaSet.mem_ofList]
      intro x hx
      obtain ⟨o, ho, hox⟩ := Forall₂_mem_right h.results x hx
      rcases hox with ⟨rfl, hu⟩ | ⟨_, p, body, rfl, _⟩
      · have := hnc'.1
        simp only [List.all_eq_true] at this
        exact is_literal_of_unchanged hu (by simpa using this x ho) (hnc'.2 x ho)
      · rfl
  vars := by
    intro m hm hv
    have hvars := h.vars m hm (vars_below_Or.1 hv)
    refine ⟨?_, ?_⟩
    · intro v hvm
      simp only [Formula.GetFreeVariables, List.mem_singleton] at hvm
      subst hvm
      have := h.le
      exact Or.inr ⟨by omega, by omega⟩
    · intro p hp
      rcases List.mem_append.1 hp with hp | hp
      · exact vars_in_mono (hvars.2 p hp) (Nat.le_refl _) (Nat.le_succ _)
      · simp only [List.mem_singleton] at hp
        subst hp
        intro v hvm
        obtain ⟨x, hx, hvx⟩ := mem_GetFreeVariables_Or.1 hvm
        exact vars_in_mono (hvars.1 x (FormulaSet.mem_ofList.1 hx)) (Nat.le_refl _)
          (Nat.le_succ _) v hvx
  sound := by
    intro R T M hd
    have hdef := hd (bvar, .Or (FormulaSet.ofList visited)) (by simp)
    have hs := h.sound T M (fun p hp => hd p (List.mem_append_left _ hp))
    unfold definition_holds at hdef
    simp only [holds_Or, FormulaSet.mem_ofList] at hdef
    simp only [holds_Var, holds_Or, hdef]
    constructor
    · rintro ⟨x, hxm, hx⟩
      obtain ⟨o, hom, hox⟩ := Forall₂_mem_right hs x hxm
      exact ⟨o, hom, hox.1 hx⟩
    · rintro ⟨o, hom, ho⟩
      obtain ⟨x, hxm, hox⟩ := Forall₂_mem_left hs o hom
      exact ⟨x, hxm, hox.2 ho⟩
  sound_head := by
    intro R T M Δ0 p body he hd
    obtain ⟨h1, h2⟩ := List.append_inj' he rfl
    simp only [List.cons.injEq, Prod.mk.injEq, and_true] at h2
    obtain ⟨-, rfl⟩ := h2
    subst h1
    have hs := h.sound T M hd
    simp only [holds_Or, FormulaSet.mem_ofList]
    constructor
    · rintro ⟨x, hxm, hx⟩
      obtain ⟨o, hom, hox⟩ := Forall₂_mem_right hs x hxm
      exact ⟨o, hom, hox.1 hx⟩
    · rintro ⟨o, hom, ho⟩
      obtain ⟨x, hxm, hox⟩ := Forall₂_mem_left hs o hom
      exact ⟨x, hxm, hox.2 ho⟩
  complete := by
    intro m hm hv R T M
    have hvo := vars_below_Or.1 hv
    have hvars := h.vars m hm hvo
    have hle := h.le
    obtain ⟨M1, hr1, ha1, hd1⟩ := h.complete m hm hvo T M
    classical
    have hbody : ∀ v ∈ (Formula.Or (FormulaSet.ofList visited)).GetFreeVariables,
        v.id ≠ n1 := by
      intro v hvm
      obtain ⟨x, hx, hvx⟩ := mem_GetFreeVariables_Or.1 hvm
      rcases hvars.1 x (FormulaSet.mem_ofList.1 hx) v hvx with h | h <;> omega
    have hqf : (Formula.Or (FormulaSet.ofList visited)).quantifier_free = true :=
      quantifier_free_Or.2 (fun x hx => h.qf.1 x (FormulaSet.mem_ofList.1 hx))
    refine ⟨M1.set n1 (decide ((Formula.Or (FormulaSet.ofList visited)).holds T M1)),
      hr1, ?_, ?_⟩
    · intro i hi
      have hne : i ≠ n1 := by omega
      rw [Assignment.set_b, if_neg hne]
      exact ha1 i (by omega)
    · intro p hp
      rcases List.mem_append.1 hp with hp | hp
      · have hk := h.keys p hp
        refine (definition_holds_set T M1 n1 _ p (h.qf.2 p hp) (by omega) ?_).2 (hd1 p hp)
        intro v hvm
        rcases hvars.2 p hp v hvm with h | h <;> omega
      · simp only [List.mem_singleton] at hp
        subst hp
        unfold definition_holds
        rw [holds_set T M1 n1 _ _ hqf hbody, Assignment.set_b, hb]
        simp

theorem VisitInv.of_Not {g : Formula} {p : Variable} {Δ : DefinitionMap} {n n2 : Nat}
    (h : VisitInv g (.Var p) Δ (n + 1) n2) (bvar : Variable) (hb : bvar.id = n)
    (hg : is_atomic g = false) :
    VisitInv (.Not g) (.Var bvar) (Δ ++ [(bvar, .Not (.Var p))]) n n2 where
  le := by
    have := h.le
    omega
  keys := by
    intro q hq
    rcases List.mem_append.1 hq with hq | hq
    · have := h.keys q hq
      omega
    · have := h.le
      simp only [List.mem_singleton] at hq
      subst hq
      simp only
      omega
  nodup := by
    rw [List.map_append, List.nodup_append]
    refine ⟨h.nodup, by simp, ?_⟩
    intro i hi1 hi2
    obtain ⟨q, hq, rfl⟩ := List.mem_map.1 hi1
    simp only [List.map_cons, List.map_nil, List.mem_singleton] at hi2
    have := h.keys q hq
    omega
  shape := by
    intro q hq
    rcases List.mem_append.1 hq with hq | hq
    · exact h.shape q hq
    · simp only [List.mem_singleton] at hq
      subst hq
      rfl
  qf := by
    refine ⟨rfl, ?_⟩
    intro q hq
    rcases List.mem_append.1 hq with hq | hq
    · exact h.qf.2 q hq
    · simp only [List.mem_singleton] at hq
      subst hq
      rfl
  result := Or.inr ⟨hg, bvar, _, Δ, rfl, rfl⟩
  literals := by
    intro hnc q hq
    rcases List.mem_append.1 hq with hq | hq
    · exact h.literals ((all_nodes_Not _ _).1 hnc).2 q hq
    · simp only [List.mem_singleton] at hq
      subst hq
      rfl
  vars := by
    intro m hm hv
    have hvars := h.vars m (Nat.le_succ_of_le hm) hv
    have hle := h.le
    refine ⟨?_, ?_⟩
    · intro v hvm
      simp only [Formula.GetFreeVariables, List.mem_singleton] at hvm
      subst hvm
      exact Or.inr ⟨by omega, by omega⟩
    · intro q hq
      rcases List.mem_append.1 hq with hq | hq
      · exact vars_in_mono (hvars.2 q hq) (Nat.le_succ _) (Nat.le_refl _)
      · simp only [List.mem_singleton] at hq
        subst hq
        exact vars_in_mono hvars.1 (Nat.le_succ _) (Nat.le_refl _)
  sound := by
    intro R T M hd
    have hdef := hd (bvar, .Not (.Var p)) (by simp)
    have hs := h.sound T M (fun q hq => hd q (List.mem_append_left _ hq))
    unfold definition_holds at hdef
    simp only [holds_Not] at hdef ⊢
    simp only [holds_Var, hdef]
    exact not_congr hs
  sound_head := by
    intro R T M Δ0 q body he hd
    obtain ⟨h1, h2⟩ := List.append_inj' he rfl
    simp only [List.cons.injEq, Prod.mk.injEq, and_true] at h2
    obtain ⟨-, rfl⟩ := h2
    subst h1
    simp only [holds_Not]
    exact not_congr (h.sound T M hd)
  complete := by
    intro m hm hv R T M
    have hvars := h.vars m (Nat.le_succ_of_le hm) hv
    have hle := h.le
    obtain ⟨M1, hr1, ha1, hd1⟩ := h.complete m (Nat.le_succ_of_le hm) hv T M
    have hp : p.id ≠ n := by
      rcases hvars.1 p (by simp [Formula.GetFreeVariables]) with h | h <;> omega
    refine ⟨M1.set n (!(M1.b p.id)), hr1, ?_, ?_⟩
    · intro i hi
      have hne : i ≠ n := by omega
      rw [Assignment.set_b, if_neg hne]
      exact ha1 i (by omega)
    · intro q hq
      rcases List.mem_append.1 hq with hq | hq
      · have hk := h.keys q hq
        refine (definition_holds_set T M1 n _ q (h.qf.2 q hq) (by omega) ?_).2 (hd1 q hq)
        intro v hvm
        rcases hvars.2 q hq v hvm with h | h <;> omega
      · simp only [List.mem_singleton] at hq
        subst hq
        unfold definition_holds
        simp only [holds_Not, holds_Var, Assignment.set_b, hb, if_pos, if_neg hp]
        simp

/-! ## `Visit` on quantifier-free formulas -/

theorem well_formed_And {l : List Formula} :
    (Formula.And l).well_formed = true ↔ ∀ x ∈ l, x.well_formed = true := by
  simp [Formula.well_formed, all_nodes_And]

theorem well_formed_Or {l : List Formula} :
    (Formula.Or l).well_formed = true ↔ ∀ x ∈ l, x.well_formed = true := by
  simp [Formula.well_formed, all_nodes_Or]

theorem well_formed_Not {f : Formula} :
    (Formula.Not f).well_formed = true ↔
      is_negation f = false ∧ f.well_formed = true := by
  simp [Formula.well_formed, all_nodes_Not]

mutual
theorem Visit_inv : ∀ (f : Formula) (c : Cnfizer) (g : Globals),
    f.quantifier_free = true → f.well_formed = true →
    (∀ p ∈ c.map_, p.1.id < g.next_id) →
    ∃ r Δ g', Cnfizer.Visit f c g = .ok (r, ⟨c.map_ ++ Δ⟩, g') ∧
      VisitInv f r Δ g.next_id g'.next_id
  | .False, c, g, hq, _, _ =>
    ⟨.False, [], g, by simp [Cnfizer.Visit], VisitInv.leaf _ hq rfl⟩
  | .True, c, g, hq, _, _ =>
    ⟨.True, [], g, by simp [Cnfizer.Visit], VisitInv.leaf _ hq rfl⟩
  | .Var v, c, g, hq, _, _ =>
    ⟨.Var v, [], g, by simp [Cnfizer.Visit], VisitInv.leaf _ hq rfl⟩
  | .Eq l r, c, g, hq, _, _ =>
    ⟨.Eq l r, [], g, by simp [Cnfizer.Visit], VisitInv.leaf _ hq rfl⟩
  | .Neq l r, c, g, hq, _, _ =>
    ⟨.Neq l r, [], g, by simp [Cnfizer.Visit], VisitInv.leaf _ hq rfl⟩
  | .Gt l r, c, g, hq, _, _ =>
    ⟨.Gt l r, [], g, by simp [Cnfizer.Visit], VisitInv.leaf _ hq rfl⟩
  | .Geq l r, c, g, hq, _, _ =>
    ⟨.Geq l r, [], g, by simp [Cnfizer.Visit], VisitInv.leaf _ hq rfl⟩
  | .Lt l r, c, g, hq, _, _ =>
    ⟨.Lt l r, [], g, by simp [Cnfizer.Visit], VisitInv.leaf _ hq rfl⟩
  | .Leq l r, c, g, hq, _, _ =>
    ⟨.Leq l r, [], g, by simp [Cnfizer.Visit], VisitInv.leaf _ hq rfl⟩
  | .Forall vs body, c, g, hq, _, _ => by
    simp [Formula.quantifier_free, Formula.all_nodes, is_forall] at hq
  | .And ops, c, g, hq, hw, hk => by
    obtain ⟨visited, Δ, g1, he, hinv⟩ :=
      VisitOperands_inv ops c g (quantifier_free_And.1 hq) (well_formed_And.1 hw) hk
    have hfresh : ∀ p ∈ c.map_ ++ Δ, p.1.id ≠ g1.next_id := by
      intro p hp
      have hle := hinv.le
      rcases List.mem_append.1 hp with hp | hp
      · have := hk p hp
        omega
      · have := hinv.keys p hp
        omega
    refine ⟨.Var ⟨g1.next_id, "conj" ++ toString g1.conj_id, .BOOLEAN⟩,
      Δ ++ [(⟨g1.next_id, "conj" ++ toString g1.conj_id, .BOOLEAN⟩,
        .And (FormulaSet.ofList visited))],
      { g1 with next_id := g1.next_id + 1, conj_id := g1.conj_id + 1 }, ?_, ?_⟩
    · simp only [Cnfizer.Visit, he, Globals.new_variable, make_conjunction]
      rw [DefinitionMap.emplace_fresh _ _ _ hfresh, List.append_assoc]
    · exact VisitInv.of_And hinv _ rfl
  | .Or ops, c, g, hq, hw, hk => by
    obtain ⟨visited, Δ, g1, he, hinv⟩ :=
      VisitOperands_inv ops c g (quantifier_free_Or.1 hq) (well_formed_Or.1 hw) hk
    have hfresh : ∀ p ∈ c.map_ ++ Δ, p.1.id ≠ g1.next_id := by
      intro p hp
      have hle := hinv.le
      rcases List.mem_append.1 hp with hp | hp
      · have := hk p hp
        omega
      · have := hinv.keys p hp
        omega
    refine ⟨.Var ⟨g1.next_id, "disj" ++ toString g1.disj_id, .BOOLEAN⟩,
      Δ ++ [(⟨g1.next_id, "disj" ++ toString g1.disj_id, .BOOLEAN⟩,
        .Or (FormulaSet.ofList visited))],
      { g1 with next_id := g1.next_id + 1, disj_id := g1.disj_id + 1 }, ?_, ?_⟩
    · simp only [Cnfizer.Visit, he, Globals.new_variable, make_disjunction]
      rw [DefinitionMap.emplace_fresh _ _ _ hfresh, List.append_assoc]
    · exact VisitInv.of_Or hinv _ rfl
  | .Not operand, c, g, hq, hw, hk => by
    have hw' := well_formed_Not.1 hw
    by_cases ha : is_atomic operand = true
    · refine ⟨.Not operand, [], g, by simp [Cnfizer.Visit, ha], ?_⟩
      exact VisitInv.leaf _ hq ha
    · obtain ⟨r, Δ, g2, he, hinv⟩ :=
        Visit_inv operand c { g with next_id := g.next_id + 1 } (quantifier_free_Not.1 hq)
          hw'.2 (fun p hp => Nat.lt_succ_of_lt (hk p hp))
      have hr : ∃ p, r = .Var p := by
        rcases hinv.result with ⟨_, _, hu⟩ | ⟨_, p, _, _, _, hr⟩
        · cases operand <;> simp_all [returned_unchanged, is_atomic, is_negation]
        · exact ⟨p, hr⟩
      obtain ⟨p, rfl⟩ := hr
      have hfresh : ∀ q ∈ c.map_ ++ Δ, q.1.id ≠ g.next_id := by
        intro q hq'
        rcases List.mem_append.1 hq' with hq' | hq'
        · have := hk q hq'
          omega
        · have := hinv.keys q hq'
          simp only at this
          omega
      refine ⟨.Var ⟨g.next_id, "neg", .BOOLEAN⟩,
        Δ ++ [(⟨g.next_id, "neg", .BOOLEAN⟩, .Not (.Var p))], g2, ?_, ?_⟩
      · simp only [Cnfizer.Visit, ha, Globals.new_variable, he, Formula.lnot]
        rw [DefinitionMap.emplace_fresh _ _ _ hfresh, List.append_assoc]
        simp
      · exact VisitInv.of_Not hinv _ rfl (by simpa using ha)
theorem VisitOperands_inv : ∀ (ops : List Formula) (c : Cnfizer) (g : Globals),
    (∀ o ∈ ops, o.quantifier_free = true) → (∀ o ∈ ops, o.well_formed = true) →
    (∀ p ∈ c.map_, p.1.id < g.next_id) →
    ∃ visited Δ g', Cnfizer.VisitOperands ops c g = .ok (visited, ⟨c.map_ ++ Δ⟩, g') ∧
      VisitOperandsInv ops visited Δ g.next_id g'.next_id
  | [], c, g, _, _, _ =>
    ⟨[], [], g, by simp [Cnfizer.VisitOperands], VisitOperandsInv.nil _⟩
  | f :: fs, c, g, hq, hw, hk => by
    obtain ⟨r1, Δ1, g1, he1, hinv1⟩ :=
      Visit_inv f c g (hq f (List.mem_cons_self _ _)) (hw f (List.mem_cons_self _ _)) hk
    have hk1 : ∀ p ∈ (⟨c.map_ ++ Δ1⟩ : Cnfizer).map_, p.1.id < g1.next_id := by
      intro p hp
      have hle := hinv1.le
      rcases List.mem_append.1 hp with hp | hp
      · have := hk p hp
        omega
      · exact (hinv1.keys p hp).2
    obtain ⟨visited, Δ2, g2, he2, hinv2⟩ :=
      VisitOperands_inv fs ⟨c.map_ ++ Δ1⟩ g1 (fun o ho => hq o (List.mem_cons_of_mem _ ho))
        (fun o ho => hw o (List.mem_cons_of_mem _ ho)) hk1
    refine ⟨r1 :: visited, Δ1 ++ Δ2, g2, ?_, VisitOperandsInv.cons hinv1 hinv2⟩
    simp only [Cnfizer.VisitOperands, he1, he2, List.append_assoc]
end

/-! ## The loop of `Convert` -/

theorem foldl_Add_eq (F : Formula → Formula) :
    ∀ (l clauses : List Formula),
      l.foldl (fun acc x => Add (F x) acc) clauses =
        clauses ++ l.foldl (fun acc x => Add (F x) acc) []
  | [], clauses => by simp
  | x :: xs, clauses => by
    simp only [List.foldl_cons]
    rw [foldl_Add_eq F xs (Add (F x) clauses), foldl_Add_eq F xs (Add (F x) [])]
    simp [Add_eq]

theorem CnfizeConjunction_append (b : Variable) (f : Formula) (clauses : List Formula) :
    CnfizeConjunction b f clauses = clauses ++ CnfizeConjunction b f [] := by
  simp only [CnfizeConjunction]
  rw [foldl_Add_eq]
  simp [Add_eq]

theorem CnfizeDisjunction_append (b : Variable) (f : Formula) (clauses : List Formula) :
    CnfizeDisjunction b f clauses = clauses ++ CnfizeDisjunction b f [] := by
  simp only [CnfizeDisjunction]
  rw [foldl_Add_eq, foldl_Add_eq _ _ (Add _ [])]
  simp [Add_eq]

theorem CnfizeNegation_append (b : Variable) (f : Formula) (clauses : List Formula) :
    CnfizeNegation b f clauses = clauses ++ CnfizeNegation b f [] := by
  simp [CnfizeNegation, AddIff, Add_eq]

theorem Cnfize_append (b : Variable) (f : Formula) (clauses : List Formula) :
    Cnfize b f clauses =
      match Cnfize b f [] with
      | .ok new_clauses => .ok (clauses ++ new_clauses)
      | .error e => .error e := by
  cases f <;> simp only [Cnfize, Formula.get_kind]
  · rw [CnfizeConjunction_append]
  · rw [CnfizeDisjunction_append]
  · rw [CnfizeNegation_append]

theorem Cnfize_ok_of_compound (b : Variable) (f : Formula) (h : is_compound f = true) :
    ∃ new_clauses, Cnfize b f [] = .ok new_clauses := by
  cases f <;>
    simp_all [is_compound, is_conjunction, is_disjunction, is_negation, Cnfize,
      Formula.get_kind]

theorem holds_Cnfize {R : Type} (T : Theory R) (M : Assignment R) (b : Variable)
    (f : Formula) (clauses new_clauses : List Formula)
    (h : Cnfize b f clauses = .ok new_clauses) :
    (∀ c ∈ new_clauses, c.holds T M) ↔
      (∀ c ∈ clauses, c.holds T M) ∧ definition_holds T M (b, f) := by
  cases f <;> simp only [Cnfize, Formula.get_kind, reduceCtorEq, Except.ok.injEq] at h
  · subst h
    exact holds_CnfizeConjunction T M b _ clauses
  · subst h
    exact holds_CnfizeDisjunction T M b _ clauses
  · subst h
    exact holds_CnfizeNegation T M b _ clauses

theorem CnfizeAll_append :
    ∀ (m : DefinitionMap) (clauses : List Formula),
      CnfizeAll m clauses =
        match CnfizeAll m [] with
        | .ok new_clauses => .ok (clauses ++ new_clauses)
        | .error e => .error e
  | [], clauses => by simp [CnfizeAll]
  | p :: rest, clauses => by
    simp only [CnfizeAll]
    rw [Cnfize_append]
    cases h : Cnfize p.1 p.2 [] with
    | error e => simp
    | ok new_clauses =>
      simp only
      rw [CnfizeAll_append rest (clauses ++ new_clauses), CnfizeAll_append rest new_clauses]
      cases CnfizeAll rest [] <;> simp

theorem CnfizeAll_ok :
    ∀ (m : DefinitionMap), (∀ p ∈ m, is_compound p.2 = true) →
      ∃ clauses, CnfizeAll m [] = .ok clauses
  | [], _ => ⟨[], rfl⟩
  | p :: rest, h => by
    obtain ⟨c1, h1⟩ := Cnfize_ok_of_compound p.1 p.2 (h p (List.mem_cons_self _ _))
    obtain ⟨c2, h2⟩ := CnfizeAll_ok rest (fun q hq => h q (List.mem_cons_of_mem _ hq))
    refine ⟨c1 ++ c2, ?_⟩
    simp only [CnfizeAll, h1]
    rw [CnfizeAll_append, h2]

theorem holds_CnfizeAll {R : Type} (T : Theory R) (M : Assignment R) :
    ∀ (m : DefinitionMap) (clauses new_clauses : List Formula),
      CnfizeAll m clauses = .ok new_clauses →
      ((∀ c ∈ new_clauses, c.holds T M) ↔
        (∀ c ∈ clauses, c.holds T M) ∧ ∀ p ∈ m, definition_holds T M p)
  | [], clauses, new_clauses, h => by
    simp only [CnfizeAll, Except.ok.injEq] at h
    subst h
    simp
  | p :: rest, clauses, new_clauses, h => by
    simp only [CnfizeAll] at h
    cases h1 : Cnfize p.1 p.2 clauses with
    | error e => simp [h1] at h
    | ok c1 =>
      simp only [h1] at h
      rw [holds_CnfizeAll T M rest c1 new_clauses h, holds_Cnfize T M p.1 p.2 clauses c1 h1]
      simp only [List.mem_cons, forall_eq_or_imp]
      tauto

theorem ConvertLoop_eq_CnfizeAll (head_var : Variable) :
    ∀ (m : DefinitionMap) (ret : List Formula), (∀ p ∈ m, p.1.id ≠ head_var.id) →
      Cnfizer.ConvertLoop (.Var head_var) m ret = CnfizeAll m ret
  | [], ret, _ => by simp [Cnfizer.ConvertLoop, CnfizeAll]
  | p :: rest, ret, h => by
    have hne : head_var.equal_to p.1 = false := by
      simp only [Variable.equal_to, beq_eq_false_iff_ne, ne_eq]
      exact fun e => h p (List.mem_cons_self _ _) e.symm
    simp only [Cnfizer.ConvertLoop, get_variable, hne, Bool.false_eq_true, if_false, CnfizeAll]
    cases Cnfize p.1 p.2 ret with
    | error e => rfl
    | ok ret1 =>
      exact ConvertLoop_eq_CnfizeAll head_var rest ret1
        (fun q hq => h q (List.mem_cons_of_mem _ hq))

theorem ConvertLoop_head (head_var : Variable) (body : Formula) :
    ∀ (m : DefinitionMap) (ret : List Formula), (∀ p ∈ m, p.1.id ≠ head_var.id) →
      Cnfizer.ConvertLoop (.Var head_var) (m ++ [(head_var, body)]) ret =
        match CnfizeAll m ret with
        | .ok clauses => .ok (clauses ++ head_clauses body)
        | .error e => .error e
  | [], ret, _ => by
    by_cases hc : is_conjunction body = true <;>
      simp [Cnfizer.ConvertLoop, get_variable, Variable.equal_to, CnfizeAll, head_clauses, hc]
  | p :: rest, ret, h => by
    have hne : head_var.equal_to p.1 = false := by
      simp only [Variable.equal_to, beq_eq_false_iff_ne, ne_eq]
      exact fun e => h p (List.mem_cons_self _ _) e.symm
    simp only [List.cons_append, Cnfizer.ConvertLoop, get_variable, hne, Bool.false_eq_true,
      if_false, CnfizeAll]
    cases Cnfize p.1 p.2 ret with
    | error e => rfl
    | ok ret1 =>
      exact ConvertLoop_head head_var body rest ret1
        (fun q hq => h q (List.mem_cons_of_mem _ hq))

/-! ## `Convert` on quantifier-free formulas -/

theorem is_compound_of_shape {f : Formula} (h : definition_shape f = true) :
    is_compound f = true := by
  cases f <;> simp_all [definition_shape, is_compound, is_conjunction, is_disjunction,
    is_negation]

theorem holds_head_clauses {R : Type} (T : Theory R) (M : Assignment R) (body : Formula) :
    (∀ c ∈ head_clauses body, c.holds T M) ↔ body.holds T M := by
  cases body <;> simp [head_clauses, is_conjunction, get_operands, holds_And]

/-- The result of `Convert` on a quantifier-free formula, in terms of the visit
from the empty map: the formula itself when the visit defines nothing, and
otherwise the clauses of all definitions but the last, followed by what the
entry of the head gives. -/
theorem Convert_quantifier_free (c : Cnfizer) (f : Formula) (g : Globals)
    (hq : f.quantifier_free = true) (hw : f.well_formed = true) :
    ∃ r Δ g', Cnfizer.Visit f ⟨[]⟩ g = .ok (r, ⟨Δ⟩, g') ∧
      VisitInv f r Δ g.next_id g'.next_id ∧
      ((Δ = [] ∧ r = f ∧ Cnfizer.Convert c f g = .ok ([f], ⟨[]⟩, g')) ∨
        ∃ p body Δ0 clauses, Δ = Δ0 ++ [(p, body)] ∧ r = .Var p ∧
          CnfizeAll Δ0 [] = .ok clauses ∧
          Cnfizer.Convert c f g = .ok (clauses ++ head_clauses body, ⟨Δ⟩, g')) := by
  obtain ⟨r, Δ, g', he, hinv⟩ := Visit_inv f ⟨[]⟩ g hq hw (by simp)
  simp only [List.nil_append] at he
  refine ⟨r, Δ, g', he, hinv, ?_⟩
  rcases hinv.result with ⟨hΔ, hr, _⟩ | ⟨_, p, body, Δ0, hΔ, hr⟩
  · subst hΔ
    subst hr
    refine Or.inl ⟨rfl, rfl, ?_⟩
    simp [Cnfizer.Convert, he, Cnfizer.ConvertFrom]
  · subst hΔ
    subst hr
    have hne : ∀ q ∈ Δ0, q.1.id ≠ p.id := by
      intro q hq' e
      have hnd := hinv.nodup
      rw [List.map_append, List.nodup_append] at hnd
      exact hnd.2.2 (List.mem_map.2 ⟨q, hq', rfl⟩) (by simp [e])
    obtain ⟨clauses, hcl⟩ := CnfizeAll_ok Δ0
      (fun q hq' => is_compound_of_shape (hinv.shape q (List.mem_append_left _ hq')))
    refine Or.inr ⟨p, body, Δ0, clauses, rfl, rfl, hcl, ?_⟩
    simp only [Cnfizer.Convert, he, Cnfizer.ConvertFrom]
    rw [ConvertLoop_head p body Δ0 [] hne, hcl]
    simp

/-- C1. Equisatisfiability on the quantifier-free fragment: for a well-formed
quantifier-free formula `f` (no negation of a negation, which the negation of
the library never builds) whose variables the allocator has handed out, `Convert` returns a list `L` such that (i) every assignment that
satisfies `f` can be changed on the proxies only (the identities allocated by
the call) into one that satisfies every element of `L`, and (ii) every
assignment that satisfies every element of `L` satisfies `f`. -/
theorem Convert_equisatisfiable {R : Type} (T : Theory R) (c : Cnfizer) (f : Formula)
    (g : Globals) (hq : f.quantifier_free = true) (hw : f.well_formed = true)
    (hv : f.vars_below g.next_id) :
    ∃ L c' g', Cnfizer.Convert c f g = .ok (L, c', g') ∧
      (∀ M : Assignment R, f.holds T M →
        ∃ M' : Assignment R, M'.r = M.r ∧
          (∀ i, i < g.next_id ∨ g'.next_id ≤ i → M'.b i = M.b i) ∧
          ∀ cl ∈ L, cl.holds T M') ∧
      (∀ M : Assignment R, (∀ cl ∈ L, cl.holds T M) → f.holds T M) := by
  obtain ⟨r, Δ, g', he, hinv, hc⟩ := Convert_quantifier_free c f g hq hw
  rcases hc with ⟨hΔ, hr, hconv⟩ | ⟨p, body, Δ0, clauses, hΔ, hr, hcl, hconv⟩
  · refine ⟨[f], ⟨[]⟩, g', hconv, ?_, ?_⟩
    · intro M hM
      exact ⟨M, rfl, fun _ _ => rfl, by simpa using hM⟩
    · intro M hM
      exact hM f (by simp)
  · refine ⟨clauses ++ head_clauses body, ⟨Δ⟩, g', hconv, ?_, ?_⟩
    · intro M hM
      obtain ⟨M', hr', ha, hd⟩ := hinv.complete g.next_id (Nat.le_refl _) hv T M
      refine ⟨M', hr', ha, ?_⟩
      have hfM' : f.holds T M' :=
        (holds_congr T M' M hr' f hq (fun v hvm => ha v.id (Or.inl (hv v hvm)))).2 hM
      have hp : (Formula.Var p).holds T M' := by
        rw [← hr]
        exact (hinv.sound T M' hd).2 hfM'
      have hbody : body.holds T M' := by
        have := hd (p, body) (by rw [hΔ]; simp)
        exact this.1 ((holds_Var T M' p).1 hp)
      intro cl hcl'
      rcases List.mem_append.1 hcl' with h | h
      · refine ((holds_CnfizeAll T M' Δ0 [] clauses hcl).2 ⟨by simp, ?_⟩) cl h
        intro q hq'
        exact hd q (by rw [hΔ]; exact List.mem_append_left _ hq')
      · exact (holds_head_clauses T M' body).2 hbody cl h
    · intro M hM
      have h1 : ∀ q ∈ Δ0, definition_holds T M q :=
        ((holds_CnfizeAll T M Δ0 [] clauses hcl).1
          (fun cl h => hM cl (List.mem_append_left _ h))).2
      have h2 : body.holds T M :=
        (holds_head_clauses T M body).1 (fun cl h => hM cl (List.mem_append_right _ h))
      exact (hinv.sound_head T M Δ0 p body hΔ h1).1 h2

/-- C3. Atomic short-circuit: on a constant, a Boolean variable or a theory
atom, `Convert` returns exactly `[f]`, leaves the definition map empty, and
allocates no variable. -/
theorem Convert_atomic (c : Cnfizer) (f : Formula) (g : Globals)
    (h : is_atomic f = true) : Cnfizer.Convert c f g = .ok ([f], ⟨[]⟩, g) := by
  cases f <;> simp_all [is_atomic, Cnfizer.Convert, Cnfizer.Visit, Cnfizer.ConvertFrom]

/-- C4. Negation preservation: on the negation of a constant, a Boolean
variable or a theory atom, `Convert` returns exactly `[Not g]`; no proxy is
allocated and the definition map stays empty, so no biconditional is emitted. -/
theorem Convert_Not_atomic (c : Cnfizer) (operand : Formula) (g : Globals)
    (h : is_atomic operand = true) :
    Cnfizer.Convert c (.Not operand) g = .ok ([.Not operand], ⟨[]⟩, g) := by
  simp [Cnfizer.Convert, Cnfizer.Visit, Cnfizer.ConvertFrom, h]

/-! ## The shape and the variables of the emitted clauses -/

theorem mem_Add {cl f : Formula} {clauses : List Formula} (h : cl ∈ Add f clauses) :
    cl ∈ clauses ∨ cl = f := by
  rw [Add_eq] at h
  rcases List.mem_append.1 h with h | h
  · exact Or.inl h
  · split at h
    · simp at h
    · exact Or.inr (by simpa using h)

theorem mem_foldl_Add {cl : Formula} (F : Formula → Formula) :
    ∀ {l clauses : List Formula},
      cl ∈ l.foldl (fun acc x => Add (F x) acc) clauses → cl ∈ clauses ∨ ∃ x ∈ l, cl = F x
  | [], clauses, h => Or.inl (by simpa using h)
  | y :: ys, clauses, h => by
    simp only [List.foldl_cons] at h
    rcases mem_foldl_Add F h with h | ⟨x, hx, he⟩
    · rcases mem_Add h with h | h
      · exact Or.inl h
      · exact Or.inr ⟨y, List.mem_cons_self _ _, h⟩
    · exact Or.inr ⟨x, List.mem_cons_of_mem _ hx, he⟩

/-- The clauses that `Cnfize` emits for `b ⇔ f`, for the three kinds it
handles. -/
theorem mem_Cnfize {b : Variable} {f cl : Formula} {clauses : List Formula}
    (h : Cnfize b f [] = .ok clauses) (hcl : cl ∈ clauses) :
    (∃ x ∈ get_operands f, is_compound f = true ∧ is_negation f = false ∧
        (cl = ((Formula.Var b).lnot).lor x ∨ cl = (x.lnot).lor (.Var b))) ∨
      (is_conjunction f = true ∧
        cl = (make_disjunction (FormulaSet.map (get_operands f) (fun x => x.lnot))).lor
          (.Var b)) ∨
      (is_disjunction f = true ∧ cl = ((Formula.Var b).lnot).lor f) ∨
      (is_negation f = true ∧ (cl = imply (.Var b) f ∨ cl = imply f (.Var b))) := by
  cases f <;> simp only [Cnfize, Formula.get_kind, reduceCtorEq, Except.ok.injEq] at h
  · subst h
    simp only [CnfizeConjunction] at hcl
    rcases mem_Add hcl with hcl | hcl
    · rcases mem_foldl_Add _ hcl with hcl | ⟨x, hx, he⟩
      · simp at hcl
      · exact Or.inl ⟨x, hx, rfl, rfl, Or.inl he⟩
    · exact Or.inr (Or.inl ⟨rfl, hcl⟩)
  · subst h
    simp only [CnfizeDisjunction] at hcl
    rcases mem_foldl_Add _ hcl with hcl | ⟨z, hz, he⟩
    · rcases mem_Add hcl with hcl | hcl
      · simp at hcl
      · exact Or.inr (Or.inr (Or.inl ⟨rfl, hcl⟩))
    · obtain ⟨x, hx, rfl⟩ := FormulaSet.mem_map.1 hz
      exact Or.inl ⟨x, hx, rfl, rfl, Or.inr he⟩
  · subst h
    simp only [CnfizeNegation, AddIff] at hcl
    rcases mem_Add hcl with hcl | hcl
    · rcases mem_Add hcl with hcl | hcl
      · simp at hcl
      · exact Or.inr (Or.inr (Or.inr ⟨rfl, Or.inl hcl⟩))
    · exact Or.inr (Or.inr (Or.inr ⟨rfl, Or.inr hcl⟩))

theorem mem_CnfizeAll {cl : Formula} :
    ∀ {m : DefinitionMap} {clauses : List Formula}, CnfizeAll m [] = .ok clauses →
      cl ∈ clauses → ∃ p ∈ m, ∃ new_clauses, Cnfize p.1 p.2 [] = .ok new_clauses ∧
        cl ∈ new_clauses
  | [], clauses, h, hcl => by
    simp only [CnfizeAll, Except.ok.injEq] at h
    subst h
    simp at hcl
  | p :: rest, clauses, h, hcl => by
    simp only [CnfizeAll] at h
    cases h1 : Cnfize p.1 p.2 [] with
    | error e => simp [h1] at h
    | ok c1 =>
      simp only [h1] at h
      rw [CnfizeAll_append] at h
      cases h2 : CnfizeAll rest [] with
      | error e => simp [h2] at h
      | ok c2 =>
        simp only [h2, Except.ok.injEq] at h
        subst h
        rcases List.mem_append.1 hcl with hcl | hcl
        · exact ⟨p, List.mem_cons_self _ _, c1, h1, hcl⟩
        · obtain ⟨q, hq, c3, h3, h4⟩ := mem_CnfizeAll h2 hcl
          exact ⟨q, List.mem_cons_of_mem _ hq, c3, h3, h4⟩

theorem is_literal_lnot {x : Formula} (h : is_literal x = true) :
    is_literal x.lnot = true := by
  cases x with
  | Not g => cases g <;> simp_all [is_literal, is_variable_or_atom, Formula.lnot]
  | _ => simp_all [is_literal, is_variable_or_atom, Formula.lnot]

theorem lor_of_clauses {x y : Formula}
    (hx : is_literal x = true ∨ ∃ l, x = .Or l ∧ ∀ z ∈ l, is_literal z = true)
    (hy : is_literal y = true ∨ ∃ l, y = .Or l ∧ ∀ z ∈ l, is_literal z = true) :
    ∃ l, x.lor y = .Or l ∧ ∀ z ∈ l, is_literal z = true := by
  have h1 : is_true x = false ∧ is_false x = false := by
    rcases hx with h | ⟨l, rfl, _⟩
    · cases x <;> simp_all [is_literal, is_variable_or_atom, is_true, is_false]
    · simp [is_true, is_false]
  have h2 : is_true y = false ∧ is_false y = false := by
    rcases hy with h | ⟨l, rfl, _⟩
    · cases y <;> simp_all [is_literal, is_variable_or_atom, is_true, is_false]
    · simp [is_true, is_false]
  unfold Formula.lor
  simp only [h1.1, h1.2, h2.1, h2.2, Bool.or_self, Bool.false_eq_true, if_false]
  split
  · next ops1 ops2 =>
    refine ⟨_, rfl, ?_⟩
    intro z hz
    rcases FormulaSet.mem_foldl_insert.1 hz with hz | hz
    · rcases hx with h | ⟨l, hl, hall⟩
      · simp [is_literal, is_variable_or_atom] at h
      · cases hl
        exact hall z hz
    · rcases hy with h | ⟨l, hl, hall⟩
      · simp [is_literal, is_variable_or_atom] at h
      · cases hl
        exact hall z hz
  · next ops1 _ hne =>
    refine ⟨_, rfl, ?_⟩
    intro z hz
    rcases FormulaSet.mem_insert.1 hz with rfl | hz
    · rcases hy with h | ⟨l, hl, _⟩
      · exact h
      · exact absurd hl (hne l)
    · rcases hx with h | ⟨l, hl, hall⟩
      · simp [is_literal, is_variable_or_atom] at h
      · cases hl
        exact hall z hz
  · next _ ops2 hne =>
    refine ⟨_, rfl, ?_⟩
    intro z hz
    rcases FormulaSet.mem_insert.1 hz with rfl | hz
    · rcases hx with h | ⟨l, hl, _⟩
      · exact h
      · exact absurd hl (hne l)
    · rcases hy with h | ⟨l, hl, hall⟩
      · simp [is_literal, is_variable_or_atom] at h
      · cases hl
        exact hall z hz
  · next hne0 hne1 hne2 =>
    refine ⟨_, rfl, ?_⟩
    intro z hz
    simp only [FormulaSet.mem_insert, List.not_mem_nil, or_false] at hz
    rcases hz with hz | hz
    · rcases hy with h | ⟨l, hl, _⟩
      · exact hz ▸ h
      · exact absurd hl (hne1 l)
    · rcases hx with h | ⟨l, hl, _⟩
      · exact hz ▸ h
      · exact absurd hl (hne0 l)

theorem in_clausal_form_of_Or {cl : Formula}
    (h : ∃ l, cl = .Or l ∧ ∀ z ∈ l, is_literal z = true) : in_clausal_form cl = true := by
  obtain ⟨l, rfl, hall⟩ := h
  simpa [in_clausal_form] using hall

theorem in_clausal_form_of_literal {cl : Formula} (h : is_literal cl = true) :
    in_clausal_form cl = true := by
  cases cl <;> simp_all [in_clausal_form, is_literal, is_variable_or_atom]

theorem in_clausal_form_Cnfize {b : Variable} {f cl : Formula} {clauses : List Formula}
    (hf : definition_of_literals f = true) (h : Cnfize b f [] = .ok clauses)
    (hcl : cl ∈ clauses) : in_clausal_form cl = true := by
  have hb : is_literal (Formula.Var b) = true := rfl
  have hnb : is_literal ((Formula.Var b).lnot) = true := rfl
  rcases mem_Cnfize h hcl with ⟨x, hx, hc, hn, he⟩ | ⟨hc, he⟩ | ⟨hd, he⟩ | ⟨hn, he⟩
  · have hlit : is_literal x = true := by
      cases f <;> simp_all [definition_of_literals, get_operands, is_compound, is_negation,
        is_conjunction, is_disjunction]
    rcases he with rfl | rfl
    · exact in_clausal_form_of_Or (lor_of_clauses (Or.inl hnb) (Or.inl hlit))
    · exact in_clausal_form_of_Or (lor_of_clauses (Or.inl (is_literal_lnot hlit)) (Or.inl hb))
  · subst he
    refine in_clausal_form_of_Or (lor_of_clauses (Or.inr ⟨_, rfl, ?_⟩) (Or.inl hb))
    intro z hz
    obtain ⟨x, hx, rfl⟩ := FormulaSet.mem_map.1 hz
    refine is_literal_lnot ?_
    cases f <;> simp_all [definition_of_literals, get_operands, is_conjunction]
  · subst he
    refine in_clausal_form_of_Or (lor_of_clauses (Or.inl hnb) (Or.inr ?_))
    cases f <;> simp_all [definition_of_literals, is_disjunction]
  · have hf' : ∃ q, f = .Not (.Var q) := by
      cases f with
      | Not g => cases g <;> simp_all [definition_of_literals]
      | _ => simp_all [is_negation]
    obtain ⟨q, rfl⟩ := hf'
    rcases he with rfl | rfl
    · exact in_clausal_form_of_Or (lor_of_clauses (Or.inl hnb) (Or.inl rfl))
    · exact in_clausal_form_of_Or (lor_of_clauses (Or.inl rfl) (Or.inl hb))

theorem vars_Cnfize {b : Variable} {f cl : Formula} {clauses : List Formula}
    (h : Cnfize b f [] = .ok clauses) (hcl : cl ∈ clauses) :
    ∀ v ∈ cl.GetFreeVariables, v = b ∨ v ∈ f.GetFreeVariables := by
  intro v hv
  have hop : ∀ x ∈ get_operands f, ∀ w ∈ x.GetFreeVariables, w ∈ f.GetFreeVariables := by
    intro x hx w hw
    cases f <;> simp only [get_operands, List.not_mem_nil] at hx
    · exact mem_GetFreeVariables_And.2 ⟨x, hx, hw⟩
    · exact mem_GetFreeVariables_Or.2 ⟨x, hx, hw⟩
  have hvb : ∀ w ∈ (Formula.Var b).GetFreeVariables, w = b := by
    intro w hw
    simpa [Formula.GetFreeVariables] using hw
  rcases mem_Cnfize h hcl with ⟨x, hx, _, _, he⟩ | ⟨_, he⟩ | ⟨_, he⟩ | ⟨_, he⟩
  · rcases he with rfl | rfl
    · rcases mem_GetFreeVariables_lor hv with hv | hv
      · rw [GetFreeVariables_lnot] at hv
        exact Or.inl (hvb v hv)
      · exact Or.inr (hop x hx v hv)
    · rcases mem_GetFreeVariables_lor hv with hv | hv
      · rw [GetFreeVariables_lnot] at hv
        exact Or.inr (hop x hx v hv)
      · exact Or.inl (hvb v hv)
  · subst he
    rcases mem_GetFreeVariables_lor hv with hv | hv
    · obtain ⟨z, hz, hvz⟩ := mem_GetFreeVariables_Or.1 hv
      obtain ⟨x, hx, rfl⟩ := FormulaSet.mem_map.1 hz
      rw [GetFreeVariables_lnot] at hvz
      exact Or.inr (hop x hx v hvz)
    · exact Or.inl (hvb v hv)
  · subst he
    rcases mem_GetFreeVariables_lor hv with hv | hv
    · rw [GetFreeVariables_lnot] at hv
      exact Or.inl (hvb v hv)
    · exact Or.inr hv
  · rcases he with rfl | rfl
    · rcases mem_GetFreeVariables_lor hv with hv | hv
      · rw [GetFreeVariables_lnot] at hv
        exact Or.inl (hvb v hv)
      · exact Or.inr hv
    · rcases mem_GetFreeVariables_lor hv with hv | hv
      · rw [GetFreeVariables_lnot] at hv
        exact Or.inr hv
      · exact Or.inl (hvb v hv)

/-! ## Clausal form and top-level proxy elimination (quantifier-free input) -/

/-- Clausal form of the result of `Convert` on a quantifier-free formula
without constant operands. -/
theorem clausal_form_of_quantifier_free (c : Cnfizer) (f : Formula) (g : Globals)
    (hq : f.quantifier_free = true) (hw : f.well_formed = true)
    (hn : f.no_constant_operand = true) :
    ∃ L c' g', Cnfizer.Convert c f g = .ok (L, c', g') ∧
      ∀ cl ∈ L, in_clausal_form cl = true := by
  obtain ⟨r, Δ, g', he, hinv, hc⟩ := Convert_quantifier_free c f g hq hw
  rcases hc with ⟨hΔ, hr, hconv⟩ | ⟨p, body, Δ0, clauses, hΔ, hr, hcl, hconv⟩
  · refine ⟨[f], ⟨[]⟩, g', hconv, ?_⟩
    intro cl hcl
    simp only [List.mem_singleton] at hcl
    subst hcl
    rcases hinv.result with ⟨_, _, h⟩ | ⟨_, p, body, Δ0, hΔ', _⟩
    · by_cases hc : is_constant cl = true
      · cases cl <;> simp_all [in_clausal_form, is_constant, is_true, is_false]
      · exact in_clausal_form_of_literal
          (is_literal_of_unchanged h (by simpa using hc) hn)
    · simp [hΔ] at hΔ'
  · refine ⟨clauses ++ head_clauses body, ⟨Δ⟩, g', hconv, ?_⟩
    have hlit := hinv.literals hn
    intro cl hcl'
    rcases List.mem_append.1 hcl' with h | h
    · obtain ⟨q, hq', c1, h1, h2⟩ := mem_CnfizeAll hcl h
      exact in_clausal_form_Cnfize (hlit q (by rw [hΔ]; exact List.mem_append_left _ hq')) h1 h2
    · have hb := hlit (p, body) (by rw [hΔ]; simp)
      cases body with
      | And l =>
        simp only [head_clauses, is_conjunction, if_true, get_operands] at h
        simp only [definition_of_literals, List.all_eq_true] at hb
        exact in_clausal_form_of_literal (hb cl h)
      | Or l =>
        simp only [head_clauses, is_conjunction, Bool.false_eq_true, if_false,
          List.mem_singleton] at h
        subst h
        exact hb
      | Not b1 =>
        simp only [head_clauses, is_conjunction, Bool.false_eq_true, if_false,
          List.mem_singleton] at h
        subst h
        cases b1 <;> simp_all [definition_of_literals, in_clausal_form, is_literal,
          is_variable_or_atom]
      | _ => simp [definition_of_literals] at hb

/-- C5 (amended). Clausal form on the quantifier-free fragment: for a
well-formed quantifier-free formula in which `True` and `False` are not
operands of an `And`, an `Or` or a `Not`, `Convert` returns a list every element of which is a
constant, a literal, or a disjunction all of whose operands are literals. -/
theorem Convert_clausal_form (c : Cnfizer) (f : Formula) (g : Globals)
    (hq : f.quantifier_free = true) (hw : f.well_formed = true)
    (hn : f.no_constant_operand = true) :
    ∃ L c' g', Cnfizer.Convert c f g = .ok (L, c', g') ∧
      ∀ cl ∈ L, in_clausal_form cl = true :=
  clausal_form_of_quantifier_free c f g hq hw hn

/-- C5, witness: the amended claim at `¬(a ∧ b)`. -/
theorem Convert_clausal_form_witness :
    ∃ L c' g', Cnfizer.Convert ⟨[]⟩
        (.Not (.And [.Var Scenario.a, .Var Scenario.b])) Scenario.start = .ok (L, c', g') ∧
      ∀ cl ∈ L, in_clausal_form cl = true :=
  Convert_clausal_form ⟨[]⟩ (.Not (.And [.Var Scenario.a, .Var Scenario.b])) Scenario.start
    rfl rfl rfl

/-- C5, counterexample: `True ∨ a` is quantifier-free and well-formed, and
`Convert` returns the one element `True ∨ a`, a disjunction with the operand
`True`, which is not a literal. -/
theorem Convert_clausal_form_counterexample :
    (Formula.Or [.True, .Var Scenario.a]).quantifier_free = true ∧
    (Formula.Or [.True, .Var Scenario.a]).well_formed = true ∧
    Cnfizer.Convert ⟨[]⟩ (.Or [.True, .Var Scenario.a]) Scenario.start =
      .ok ([.Or [.True, .Var Scenario.a]],
        ⟨[(⟨7, "disj0", .BOOLEAN⟩, .Or [.True, .Var Scenario.a])]⟩,
        { next_id := 8, conj_id := 0, disj_id := 1, forall_id := 0 }) ∧
    in_clausal_form (.Or [.True, .Var Scenario.a]) = false :=
  ⟨rfl, rfl, rfl, rfl⟩

/-- C10. Top-level proxy elimination: for a quantifier-free conjunction
`And ops` whose variables the allocator has handed out, `Convert` returns the
clauses that `Cnfize` emits for the definitions made while the operands are
visited (every definition but the head's), followed by the set of the visited
operands, each as an element of its own; a visited operand is the operand
itself when that is an atomic formula or the negation of one, and the proxy of
its definition otherwise; and the head proxy occurs in no element of the
result. -/
theorem Convert_And (c : Cnfizer) (ops : List Formula) (g : Globals)
    (hq : (Formula.And ops).quantifier_free = true)
    (hw : (Formula.And ops).well_formed = true)
    (hv : (Formula.And ops).vars_below g.next_id) :
    ∃ visited Δ0 g1 clauses,
      Cnfizer.VisitOperands ops ⟨[]⟩ g = .ok (visited, ⟨Δ0⟩, g1) ∧
      CnfizeAll Δ0 [] = .ok clauses ∧
      Cnfizer.Convert c (.And ops) g =
        .ok (clauses ++ FormulaSet.ofList visited,
          ⟨Δ0 ++ [(⟨g1.next_id, "conj" ++ toString g1.conj_id, .BOOLEAN⟩,
            .And (FormulaSet.ofList visited))]⟩,
          { g1 with next_id := g1.next_id + 1, conj_id := g1.conj_id + 1 }) ∧
      (∀ cl ∈ clauses ++ FormulaSet.ofList visited, ∀ v ∈ cl.GetFreeVariables,
        v.id ≠ g1.next_id) ∧
      List.Forall₂
        (fun o x => (x = o ∧ returned_unchanged o = true) ∨
          (returned_unchanged o = false ∧
            ∃ p body, x = .Var p ∧ (p, body) ∈ Δ0)) ops visited := by
  obtain ⟨visited, Δ, g1, he, hinv⟩ :=
    VisitOperands_inv ops ⟨[]⟩ g (quantifier_free_And.1 hq) (well_formed_And.1 hw) (by simp)
  simp only [List.nil_append] at he
  obtain ⟨clauses, hcl⟩ := CnfizeAll_ok Δ
    (fun q hq' => is_compound_of_shape (hinv.shape q hq'))
  have hvars := hinv.vars g.next_id (Nat.le_refl _) (vars_below_And.1 hv)
  have hle := hinv.le
  have hkeys : ∀ q ∈ Δ, q.1.id ≠ g1.next_id := by
    intro q hq'
    have := hinv.keys q hq'
    omega
  refine ⟨visited, Δ, g1, clauses, he, hcl, ?_, ?_, hinv.results⟩
  · simp only [Cnfizer.Convert, Cnfizer.Visit, he, Globals.new_variable, make_conjunction]
    rw [DefinitionMap.emplace_fresh _ _ _ hkeys]
    simp only [Cnfizer.ConvertFrom]
    rw [ConvertLoop_head _ _ Δ [] hkeys, hcl]
    simp [head_clauses, is_conjunction, get_operands]
  · intro cl hcl' v hvm
    rcases List.mem_append.1 hcl' with h | h
    · obtain ⟨q, hq', c1, h1, h2⟩ := mem_CnfizeAll hcl h
      rcases vars_Cnfize h1 h2 v hvm with rfl | hvq
      · exact hkeys q hq'
      · rcases hvars.2 q hq' v hvq with h | h <;> omega
    · rcases hvars.1 cl (FormulaSet.mem_ofList.1 h) v hvm with h | h <;> omega

/-- C10, witness (scenario S3): `(a ∨ b) ∧ (c ∨ d)` gives 8 elements, the six
clauses of the two disjunction proxies and the two proxies as unit clauses. -/
theorem Convert_And_witness :
    (∃ visited Δ0 g1 clauses,
      Cnfizer.VisitOperands
        [.Or [.Var Scenario.a, .Var Scenario.b], .Or [.Var Scenario.c, .Var Scenario.d]]
        ⟨[]⟩ Scenario.start = .ok (visited, ⟨Δ0⟩, g1) ∧
      CnfizeAll Δ0 [] = .ok clauses ∧
      Cnfizer.Convert ⟨[]⟩
        (.And [.Or [.Var Scenario.a, .Var Scenario.b], .Or [.Var Scenario.c, .Var Scenario.d]])
        Scenario.start =
        .ok (clauses ++ FormulaSet.ofList visited,
          ⟨Δ0 ++ [(⟨g1.next_id, "conj" ++ toString g1.conj_id, .BOOLEAN⟩,
            .And (FormulaSet.ofList visited))]⟩,
          { g1 with next_id := g1.next_id + 1, conj_id := g1.conj_id + 1 }) ∧
      (∀ cl ∈ clauses ++ FormulaSet.ofList visited, ∀ v ∈ cl.GetFreeVariables,
        v.id ≠ g1.next_id) ∧
      List.Forall₂
        (fun o x => (x = o ∧ returned_unchanged o = true) ∨
          (returned_unchanged o = false ∧
            ∃ p body, x = .Var p ∧ (p, body) ∈ Δ0))
        [.Or [.Var Scenario.a, .Var Scenario.b], .Or [.Var Scenario.c, .Var Scenario.d]]
        visited) ∧
    Cnfizer.Convert ⟨[]⟩
        (.And [.Or [.Var Scenario.a, .Var Scenario.b], .Or [.Var Scenario.c, .Var Scenario.d]])
        Scenario.start =
      .ok ([.Or [.Var Scenario.a, .Var Scenario.b, .Not (.Var ⟨7, "disj0", .BOOLEAN⟩)],
          .Or [.Var ⟨7, "disj0", .BOOLEAN⟩, .Not (.Var Scenario.a)],
          .Or [.Var ⟨7, "disj0", .BOOLEAN⟩, .Not (.Var Scenario.b)],
          .Or [.Var Scenario.c, .Var Scenario.d, .Not (.Var ⟨8, "disj1", .BOOLEAN⟩)],
          .Or [.Var ⟨8, "disj1", .BOOLEAN⟩, .Not (.Var Scenario.c)],
          .Or [.Var ⟨8, "disj1", .BOOLEAN⟩, .Not (.Var Scenario.d)],
          .Var ⟨7, "disj0", .BOOLEAN⟩,
          .Var ⟨8, "disj1", .BOOLEAN⟩],
        ⟨[(⟨7, "disj0", .BOOLEAN⟩, .Or [.Var Scenario.a, .Var Scenario.b]),
          (⟨8, "disj1", .BOOLEAN⟩, .Or [.Var Scenario.c, .Var Scenario.d]),
          (⟨9, "conj0", .BOOLEAN⟩,
            .And [.Var ⟨7, "disj0", .BOOLEAN⟩, .Var ⟨8, "disj1", .BOOLEAN⟩])]⟩,
        { next_id := 10, conj_id := 1, disj_id := 2, forall_id := 0 }) :=
  ⟨Convert_And ⟨[]⟩
      [.Or [.Var Scenario.a, .Var Scenario.b], .Or [.Var Scenario.c, .Var Scenario.d]]
      Scenario.start rfl rfl (by unfold Formula.vars_below; decide),
    rfl⟩

/-! ## Instances of the quantifier-free theorems, and scenario S2 -/

/-- C1, witness: equisatisfiability at scenario S2, `¬(a ∧ b)`. -/
theorem Convert_equisatisfiable_witness :
    Scenario.S2.quantifier_free = true ∧ Scenario.S2.well_formed = true ∧
    ∃ L c' g', Cnfizer.Convert ⟨[]⟩ Scenario.S2 Scenario.start = .ok (L, c', g') ∧
      (∀ M : Assignment Unit, Scenario.S2.holds Scenario.theory M →
        ∃ M' : Assignment Unit, M'.r = M.r ∧
          (∀ i, i < Scenario.start.next_id ∨ g'.next_id ≤ i → M'.b i = M.b i) ∧
          ∀ cl ∈ L, cl.holds Scenario.theory M') ∧
      (∀ M : Assignment Unit, (∀ cl ∈ L, cl.holds Scenario.theory M) →
        Scenario.S2.holds Scenario.theory M) :=
  ⟨rfl, rfl, Convert_equisatisfiable Scenario.theory ⟨[]⟩ Scenario.S2 Scenario.start rfl rfl
    (by unfold Formula.vars_below; decide)⟩

/-- C3, witness: the atom `x > 0`, on an instance whose map is not empty. -/
theorem Convert_atomic_witness :
    is_atomic (.Gt (.var Scenario.x) (.const 0)) = true ∧
    Cnfizer.Convert ⟨[(Scenario.a, .Not (.Var Scenario.b))]⟩
        (.Gt (.var Scenario.x) (.const 0)) Scenario.start =
      .ok ([.Gt (.var Scenario.x) (.const 0)], ⟨[]⟩, Scenario.start) :=
  ⟨rfl, Convert_atomic _ _ _ rfl⟩

/-- C4, witness: the negated atom `¬(x > 0)`. -/
theorem Convert_Not_atomic_witness :
    is_atomic (.Gt (.var Scenario.x) (.const 0)) = true ∧
    Cnfizer.Convert ⟨[]⟩ (.Not (.Gt (.var Scenario.x) (.const 0))) Scenario.start =
      .ok ([.Not (.Gt (.var Scenario.x) (.const 0))], ⟨[]⟩, Scenario.start) :=
  ⟨rfl, Convert_Not_atomic _ _ _ rfl⟩

theorem Variable.compare_of_id_lt {v w : Variable} (h : v.id < w.id) :
    v.compare w = .lt ∧ w.compare v = .gt := by
  have h1 : Ord.compare v.id w.id = .lt := compare_lt_iff_lt.2 h
  have h2 : Ord.compare w.id v.id = .gt := compare_gt_iff_gt.2 h
  simp [Variable.compare, h1, h2, Ordering.then]

theorem Convert_S2_of_lt (c : Cnfizer) (a b : Variable) (g : Globals) (h : a.id < b.id) :
    Cnfizer.Convert c (.Not (.And [.Var a, .Var b])) g =
      .ok ([.Or [.Var a, .Not (.Var ⟨g.next_id + 1, "conj" ++ toString g.conj_id, .BOOLEAN⟩)],
          .Or [.Var b, .Not (.Var ⟨g.next_id + 1, "conj" ++ toString g.conj_id, .BOOLEAN⟩)],
          .Or [.Var ⟨g.next_id + 1, "conj" ++ toString g.conj_id, .BOOLEAN⟩,
            .Not (.Var a), .Not (.Var b)],
          .Not (.Var ⟨g.next_id + 1, "conj" ++ toString g.conj_id, .BOOLEAN⟩)],
        ⟨[(⟨g.next_id + 1, "conj" ++ toString g.conj_id, .BOOLEAN⟩, .And [.Var a, .Var b]),
          (⟨g.next_id, "neg", .BOOLEAN⟩,
            .Not (.Var ⟨g.next_id + 1, "conj" ++ toString g.conj_id, .BOOLEAN⟩))]⟩,
        { g with next_id := g.next_id + 1 + 1, conj_id := g.conj_id + 1 }) := by
  obtain ⟨h1, h2⟩ := Variable.compare_of_id_lt h
  have h3 : Ord.compare (2 : Nat) 11 = .lt := rfl
  simp [h3, Cnfizer.Convert, Cnfizer.Visit, Cnfizer.VisitOperands, is_atomic,
    Globals.new_variable, FormulaSet.ofList, FormulaSet.insert, Formula.compare, h1, h2,
    make_conjunction, DefinitionMap.emplace, Variable.equal_to, Formula.lnot,
    Cnfizer.ConvertFrom, Cnfizer.ConvertLoop, get_variable, Cnfize, Formula.get_kind,
    CnfizeConjunction, get_operands, FormulaSet.map, Add, Formula.lor, is_true, is_false,
    make_disjunction, FormulaKind.idx, is_conjunction]

theorem Convert_S2_of_gt (c : Cnfizer) (a b : Variable) (g : Globals) (h : b.id < a.id) :
    Cnfizer.Convert c (.Not (.And [.Var a, .Var b])) g =
      .ok ([.Or [.Var b, .Not (.Var ⟨g.next_id + 1, "conj" ++ toString g.conj_id, .BOOLEAN⟩)],
          .Or [.Var a, .Not (.Var ⟨g.next_id + 1, "conj" ++ toString g.conj_id, .BOOLEAN⟩)],
          .Or [.Var ⟨g.next_id + 1, "conj" ++ toString g.conj_id, .BOOLEAN⟩,
            .Not (.Var b), .Not (.Var a)],
          .Not (.Var ⟨g.next_id + 1, "conj" ++ toString g.conj_id, .BOOLEAN⟩)],
        ⟨[(⟨g.next_id + 1, "conj" ++ toString g.conj_id, .BOOLEAN⟩, .And [.Var b, .Var a]),
          (⟨g.next_id, "neg", .BOOLEAN⟩,
            .Not (.Var ⟨g.next_id + 1, "conj" ++ toString g.conj_id, .BOOLEAN⟩))]⟩,
        { g with next_id := g.next_id + 1 + 1, conj_id := g.conj_id + 1 }) := by
  obtain ⟨h1, h2⟩ := Variable.compare_of_id_lt h
  have h3 : Ord.compare (2 : Nat) 11 = .lt := rfl
  simp [h3, Cnfizer.Convert, Cnfizer.Visit, Cnfizer.VisitOperands, is_atomic,
    Globals.new_variable, FormulaSet.ofList, FormulaSet.insert, Formula.compare, h1, h2,
    make_conjunction, DefinitionMap.emplace, Variable.equal_to, Formula.lnot,
    Cnfizer.ConvertFrom, Cnfizer.ConvertLoop, get_variable, Cnfize, Formula.get_kind,
    CnfizeConjunction, get_operands, FormulaSet.map, Add, Formula.lor, is_true, is_false,
    make_disjunction, FormulaKind.idx, is_conjunction]

/-- C9 (amended). Scenario S2: for Boolean variables `a` and `b` with different
identities, `Convert(¬(a ∧ b))` returns exactly 4 clauses: with `p` the proxy of
`a ∧ b`, the clauses `¬p ∨ a`, `¬p ∨ b`, `¬a ∨ ¬b ∨ p` of `p ⇔ a ∧ b` and, for the
head proxy `q`, its definition `¬p` itself; every assignment with `p = 0`,
`a = 0`, `b = 1` (whatever the value of `q`) satisfies all of them. -/
theorem Convert_S2 (c : Cnfizer) (a b : Variable) (g : Globals) (hab : a.id ≠ b.id) :
    ∃ L c' g', Cnfizer.Convert c (.Not (.And [.Var a, .Var b])) g = .ok (L, c', g') ∧
      L.length = 4 ∧
      Formula.Not (.Var ⟨g.next_id + 1, "conj" ++ toString g.conj_id, .BOOLEAN⟩) ∈ L ∧
      Formula.Or [.Var a,
        .Not (.Var ⟨g.next_id + 1, "conj" ++ toString g.conj_id, .BOOLEAN⟩)] ∈ L ∧
      Formula.Or [.Var b,
        .Not (.Var ⟨g.next_id + 1, "conj" ++ toString g.conj_id, .BOOLEAN⟩)] ∈ L ∧
      (Formula.Or [.Var ⟨g.next_id + 1, "conj" ++ toString g.conj_id, .BOOLEAN⟩,
          .Not (.Var a), .Not (.Var b)] ∈ L ∨
        Formula.Or [.Var ⟨g.next_id + 1, "conj" ++ toString g.conj_id, .BOOLEAN⟩,
          .Not (.Var b), .Not (.Var a)] ∈ L) ∧
      ∀ {R : Type} (T : Theory R) (M : Assignment R),
        M.b (g.next_id + 1) = false → M.b a.id = false → M.b b.id = true →
        ∀ cl ∈ L, cl.holds T M := by
  rcases Nat.lt_or_gt_of_ne hab with h | h
  · refine ⟨_, _, _, Convert_S2_of_lt c a b g h, rfl, ?_, ?_, ?_, ?_, ?_⟩
    · simp
    · simp
    · simp
    · simp
    · intro R T M hp ha hb
      simp [holds_Or, holds_Not, holds_Var, hp, ha, hb]
  · refine ⟨_, _, _, Convert_S2_of_gt c a b g h, rfl, ?_, ?_, ?_, ?_, ?_⟩
    · simp
    · simp
    · simp
    · simp
    · intro R T M hp ha hb
      simp [holds_Or, holds_Not, holds_Var, hp, ha, hb]

/-- C9, witness: the amended claim at the variables `a` and `b` of the
scenarios. -/
theorem Convert_S2_witness :
    Scenario.a.id ≠ Scenario.b.id ∧
    ∃ L c' g', Cnfizer.Convert ⟨[]⟩ (.Not (.And [.Var Scenario.a, .Var Scenario.b]))
        Scenario.start = .ok (L, c', g') ∧
      L.length = 4 ∧
      Formula.Not (.Var ⟨Scenario.start.next_id + 1,
        "conj" ++ toString Scenario.start.conj_id, .BOOLEAN⟩) ∈ L ∧
      Formula.Or [.Var Scenario.a,
        .Not (.Var ⟨Scenario.start.next_id + 1,
          "conj" ++ toString Scenario.start.conj_id, .BOOLEAN⟩)] ∈ L ∧
      Formula.Or [.Var Scenario.b,
        .Not (.Var ⟨Scenario.start.next_id + 1,
          "conj" ++ toString Scenario.start.conj_id, .BOOLEAN⟩)] ∈ L ∧
      (Formula.Or [.Var ⟨Scenario.start.next_id + 1,
            "conj" ++ toString Scenario.start.conj_id, .BOOLEAN⟩,
          .Not (.Var Scenario.a), .Not (.Var Scenario.b)] ∈ L ∨
        Formula.Or [.Var ⟨Scenario.start.next_id + 1,
            "conj" ++ toString Scenario.start.conj_id, .BOOLEAN⟩,
          .Not (.Var Scenario.b), .Not (.Var Scenario.a)] ∈ L) ∧
      ∀ {R : Type} (T : Theory R) (M : Assignment R),
        M.b (Scenario.start.next_id + 1) = false → M.b Scenario.a.id = false →
        M.b Scenario.b.id = true → ∀ cl ∈ L, cl.holds T M :=
  ⟨by decide, Convert_S2 ⟨[]⟩ Scenario.a Scenario.b Scenario.start (by decide)⟩

/-- C9, counterexample: at the variables `a` and `b` of the scenarios,
`Convert(¬(a ∧ b))` returns the four clauses `a ∨ ¬p`, `b ∨ ¬p`, `p ∨ ¬a ∨ ¬b`,
`¬p`, and not five: the definition `q ⇔ ¬p` of the head proxy `q` is not
turned into the clauses `¬q ∨ ¬p` and `p ∨ q`. -/
theorem Convert_S2_counterexample :
    Cnfizer.Convert ⟨[]⟩ Scenario.S2 Scenario.start =
      .ok ([.Or [.Var Scenario.a, .Not (.Var ⟨8, "conj0", .BOOLEAN⟩)],
          .Or [.Var Scenario.b, .Not (.Var ⟨8, "conj0", .BOOLEAN⟩)],
          .Or [.Var ⟨8, "conj0", .BOOLEAN⟩, .Not (.Var Scenario.a), .Not (.Var Scenario.b)],
          .Not (.Var ⟨8, "conj0", .BOOLEAN⟩)],
        ⟨[(⟨8, "conj0", .BOOLEAN⟩, .And [.Var Scenario.a, .Var Scenario.b]),
          (⟨7, "neg", .BOOLEAN⟩, .Not (.Var ⟨8, "conj0", .BOOLEAN⟩))]⟩,
        { next_id := 9, conj_id := 1, disj_id := 0, forall_id := 0 }) ∧
    List.length [Formula.Or [.Var Scenario.a, .Not (.Var ⟨8, "conj0", .BOOLEAN⟩)],
          .Or [.Var Scenario.b, .Not (.Var ⟨8, "conj0", .BOOLEAN⟩)],
          .Or [.Var ⟨8, "conj0", .BOOLEAN⟩, .Not (.Var Scenario.a), .Not (.Var Scenario.b)],
          .Not (.Var ⟨8, "conj0", .BOOLEAN⟩)] ≠ 5 :=
  ⟨rfl, by decide⟩

/-! ## Quantified input -/

/-- In `Visit`, the `Forall` case runs `Convert` on a new instance. -/
theorem Visit_Forall (quantified_variables : List Variable) (quantified_formula : Formula)
    (c : Cnfizer) (g : Globals) :
    Cnfizer.Visit (.Forall quantified_variables quantified_formula) c g =
      match Cnfizer.Convert ⟨[]⟩ quantified_formula g with
      | .error e => .error e
      | .ok (cnf, _, g1) =>
        match cnf.map (hoist quantified_variables) with
        | [clause] => .ok (clause, c, g1)
        | quantified_formula_in_cnf =>
          .ok (.Var ⟨g1.next_id, "forall" ++ toString g1.forall_id, .BOOLEAN⟩,
            ⟨c.map_.emplace ⟨g1.next_id, "forall" ++ toString g1.forall_id, .BOOLEAN⟩
              (make_conjunction_of_vector quantified_formula_in_cnf)⟩,
            { g1 with next_id := g1.next_id + 1, forall_id := g1.forall_id + 1 }) := by
  simp only [Cnfizer.Visit, Cnfizer.Convert, Globals.new_variable]
  cases Cnfizer.Visit quantified_formula ⟨[]⟩ g with
  | error e => rfl
  | ok r =>
    obtain ⟨head, cnfizer, g1⟩ := r
    simp only
    cases Cnfizer.ConvertFrom head cnfizer.map_ with
    | error e => rfl
    | ok cnf =>
      simp only
      split <;> simp_all

theorem hoist_eq (vars : List Variable) (clause : Formula) :
    hoist vars clause =
      if (intersect clause.GetFreeVariables vars).isEmpty then clause
      else .Forall vars clause := by
  unfold hoist mk_forall
  cases (intersect clause.GetFreeVariables vars).isEmpty <;> simp

/-- The result of `Convert` on `∀vars. body`, from the result `L` of `Convert`
on the body: the hoisted clause when `L` has one element, the set of the
hoisted clauses otherwise. -/
theorem Convert_Forall_of_Convert (c : Cnfizer) (vars : List Variable) (body : Formula)
    (g : Globals) (L : List Formula) (c1 : Cnfizer) (g1 : Globals)
    (h : Cnfizer.Convert ⟨[]⟩ body g = .ok (L, c1, g1)) :
    (∀ ψ, L = [ψ] →
      Cnfizer.Convert c (.Forall vars body) g = .ok ([hoist vars ψ], ⟨[]⟩, g1)) ∧
    (L.length ≠ 1 →
      Cnfizer.Convert c (.Forall vars body) g =
        .ok (FormulaSet.ofList (L.map (hoist vars)),
          ⟨[(⟨g1.next_id, "forall" ++ toString g1.forall_id, .BOOLEAN⟩,
            .And (FormulaSet.ofList (L.map (hoist vars))))]⟩,
          { g1 with next_id := g1.next_id + 1, forall_id := g1.forall_id + 1 })) := by
  constructor
  · rintro ψ rfl
    have hv : Cnfizer.Visit (.Forall vars body) ⟨[]⟩ g = .ok (hoist vars ψ, ⟨[]⟩, g1) := by
      rw [Visit_Forall, h]
      rfl
    unfold Cnfizer.Convert
    rw [hv]
    rfl
  · intro hlen
    have hm : ∀ x, L.map (hoist vars) ≠ [x] := by
      intro x e
      apply hlen
      have := congrArg List.length e
      simpa using this
    have hv : Cnfizer.Visit (.Forall vars body) ⟨[]⟩ g =
        .ok (.Var ⟨g1.next_id, "forall" ++ toString g1.forall_id, .BOOLEAN⟩,
          ⟨[(⟨g1.next_id, "forall" ++ toString g1.forall_id, .BOOLEAN⟩,
            .And (FormulaSet.ofList (L.map (hoist vars))))]⟩,
          { g1 with next_id := g1.next_id + 1, forall_id := g1.forall_id + 1 }) := by
      rw [Visit_Forall, h]
      simp only
      simp [DefinitionMap.emplace, make_conjunction_of_vector]
    unfold Cnfizer.Convert
    rw [hv]
    simp [Cnfizer.ConvertFrom, Cnfizer.ConvertLoop, get_variable, Variable.equal_to,
      is_conjunction, get_operands]

/-- C8. Quantifier hoisting: when `Convert` of the body returns `L`, `Convert`
of `∀vars. body` returns a list whose elements are exactly the clauses of `L`,
each replaced by `∀vars. c` when it has a free variable among `vars` and left
unchanged otherwise. When `L` has one clause the result is that one hoisted
clause and no proxy is made; otherwise the result is the set of the hoisted
clauses, each an element of its own. -/
theorem Convert_Forall (c : Cnfizer) (vars : List Variable) (body : Formula)
    (g : Globals) (L : List Formula) (c1 : Cnfizer) (g1 : Globals)
    (h : Cnfizer.Convert ⟨[]⟩ body g = .ok (L, c1, g1)) :
    ∃ L' c' g', Cnfizer.Convert c (.Forall vars body) g = .ok (L', c', g') ∧
      (∀ cl, cl ∈ L' ↔ ∃ x ∈ L, cl =
        if (intersect x.GetFreeVariables vars).isEmpty then x else .Forall vars x) ∧
      (∀ ψ, L = [ψ] →
        L' = [if (intersect ψ.GetFreeVariables vars).isEmpty then ψ else .Forall vars ψ] ∧
        c'.map_ = [] ∧ g' = g1) ∧
      (L.length ≠ 1 →
        L' = FormulaSet.ofList (L.map (fun x =>
          if (intersect x.GetFreeVariables vars).isEmpty then x else .Forall vars x))) := by
  have hh : hoist vars = fun x =>
      if (intersect x.GetFreeVariables vars).isEmpty then x else .Forall vars x :=
    funext (hoist_eq vars)
  obtain ⟨h1, h2⟩ := Convert_Forall_of_Convert c vars body g L c1 g1 h
  by_cases hlen : L.length = 1
  · obtain ⟨ψ, rfl⟩ := List.length_eq_one.1 hlen
    refine ⟨_, _, _, h1 ψ rfl, ?_, ?_, ?_⟩
    · intro cl
      simp [hoist_eq]
    · intro ψ' hψ
      cases hψ
      exact ⟨by rw [hoist_eq], rfl, rfl⟩
    · intro hne
      exact absurd hlen hne
  · refine ⟨_, _, _, h2 hlen, ?_, ?_, ?_⟩
    · intro cl
      rw [FormulaSet.mem_ofList, List.mem_map, hh]
      constructor
      · rintro ⟨x, hx, rfl⟩
        exact ⟨x, hx, rfl⟩
      · rintro ⟨x, hx, rfl⟩
        exact ⟨x, hx, rfl⟩
    · rintro ψ rfl
      simp at hlen
    · intro _
      rw [hh]

/-- C8, witness (scenario S6): for `∀z. (x > z ∧ x > 0)` the body gives the two
clauses `x > z` and `x > 0`, and the result is `x > 0` and `∀z. x > z`. -/
theorem Convert_Forall_witness :
    (∃ L' c' g', Cnfizer.Convert ⟨[]⟩ Scenario.S6 Scenario.start = .ok (L', c', g') ∧
      (∀ cl, cl ∈ L' ↔
        ∃ x ∈ [Formula.Gt (.var Scenario.x) (.var Scenario.z),
            Formula.Gt (.var Scenario.x) (.const 0)],
          cl = if (intersect x.GetFreeVariables [Scenario.z]).isEmpty then x
            else .Forall [Scenario.z] x) ∧
      (∀ ψ, [Formula.Gt (.var Scenario.x) (.var Scenario.z),
            Formula.Gt (.var Scenario.x) (.const 0)] = [ψ] →
        L' = [if (intersect ψ.GetFreeVariables [Scenario.z]).isEmpty then ψ
          else .Forall [Scenario.z] ψ] ∧
        c'.map_ = [] ∧ g' = { next_id := 8, conj_id := 1, disj_id := 0, forall_id := 0 }) ∧
      (List.length [Formula.Gt (.var Scenario.x) (.var Scenario.z),
            Formula.Gt (.var Scenario.x) (.const 0)] ≠ 1 →
        L' = FormulaSet.ofList
          ([Formula.Gt (.var Scenario.x) (.var Scenario.z),
            Formula.Gt (.var Scenario.x) (.const 0)].map (fun x =>
          if (intersect x.GetFreeVariables [Scenario.z]).isEmpty then x
          else .Forall [Scenario.z] x)))) ∧
    Cnfizer.Convert ⟨[]⟩ Scenario.S6 Scenario.start =
      .ok ([.Gt (.var Scenario.x) (.const 0),
          .Forall [Scenario.z] (.Gt (.var Scenario.x) (.var Scenario.z))],
        ⟨[(⟨8, "forall0", .BOOLEAN⟩,
          .And [.Gt (.var Scenario.x) (.const 0),
            .Forall [Scenario.z] (.Gt (.var Scenario.x) (.var Scenario.z))])]⟩,
        { next_id := 9, conj_id := 1, disj_id := 0, forall_id := 1 }) :=
  ⟨Convert_Forall ⟨[]⟩ [Scenario.z]
      (.And [.Gt (.var Scenario.x) (.var Scenario.z), .Gt (.var Scenario.x) (.const 0)])
      Scenario.start
      [.Gt (.var Scenario.x) (.var Scenario.z), .Gt (.var Scenario.x) (.const 0)]
      ⟨[(⟨7, "conj0", .BOOLEAN⟩,
        .And [.Gt (.var Scenario.x) (.var Scenario.z), .Gt (.var Scenario.x) (.const 0)])]⟩
      { next_id := 8, conj_id := 1, disj_id := 0, forall_id := 0 } rfl,
    rfl⟩

theorem in_quantified_clausal_form_hoist (vars : List Variable) (x : Formula)
    (h : in_clausal_form x = true) : in_quantified_clausal_form (hoist vars x) = true := by
  rw [hoist_eq]
  split
  · cases x <;> simp_all [in_quantified_clausal_form, in_clausal_form, is_constant, is_true,
      is_false, is_literal, is_variable_or_atom]
  · simpa [in_quantified_clausal_form] using h

/-- C6 (amended). Clausal form for a universal quantifier at the root: for
`∀vars. body` with a well-formed quantifier-free body in which `True` and
`False` are not operands of an `And`, an `Or` or a `Not`, every element of the
result of `Convert` is a constant, a literal, a disjunction of literals, or a universal quantifier over
one of these; in such a result no universal stands under a negation. -/
theorem Convert_quantified_clausal_form (c : Cnfizer) (vars : List Variable)
    (body : Formula) (g : Globals) (hq : body.quantifier_free = true)
    (hw : body.well_formed = true) (hn : body.no_constant_operand = true) :
    ∃ L c' g', Cnfizer.Convert c (.Forall vars body) g = .ok (L, c', g') ∧
      ∀ cl ∈ L, in_quantified_clausal_form cl = true := by
  obtain ⟨L0, c1, g1, h0, hcl⟩ := clausal_form_of_quantifier_free ⟨[]⟩ body g hq hw hn
  obtain ⟨h1, h2⟩ := Convert_Forall_of_Convert c vars body g L0 c1 g1 h0
  by_cases hlen : L0.length = 1
  · obtain ⟨ψ, rfl⟩ := List.length_eq_one.1 hlen
    refine ⟨_, _, _, h1 ψ rfl, ?_⟩
    intro cl hm
    simp only [List.mem_singleton] at hm
    subst hm
    exact in_quantified_clausal_form_hoist vars ψ (hcl ψ (by simp))
  · refine ⟨_, _, _, h2 hlen, ?_⟩
    intro cl hm
    obtain ⟨x, hx, rfl⟩ := List.mem_map.1 (FormulaSet.mem_ofList.1 hm)
    exact in_quantified_clausal_form_hoist vars x (hcl x hx)

/-- C6, witness: the amended claim at `∀y. (a ∧ y) ∨ (b ∧ ¬y)`. -/
theorem Convert_quantified_clausal_form_witness :
    ∃ L c' g', Cnfizer.Convert ⟨[]⟩ Scenario.choice Scenario.start = .ok (L, c', g') ∧
      ∀ cl ∈ L, in_quantified_clausal_form cl = true :=
  Convert_quantified_clausal_form ⟨[]⟩ [Scenario.y]
    (.Or [.And [.Var Scenario.a, .Var Scenario.y],
      .And [.Var Scenario.b, .Not (.Var Scenario.y)]])
    Scenario.start rfl rfl rfl

/-- C6, counterexample: for `¬(∀y. a ∨ y)` the result of `Convert` is the one
element `¬(∀y. a ∨ y)`, a universal under a negation, which is none of a
literal, a disjunction of literals, or a universal over one. -/
theorem Convert_quantified_clausal_form_counterexample :
    Cnfizer.Convert ⟨[]⟩ Scenario.negated_forall Scenario.start =
      .ok ([.Not (.Forall [Scenario.y] (.Or [.Var Scenario.a, .Var Scenario.y]))],
        ⟨[(⟨7, "neg", .BOOLEAN⟩,
          .Not (.Forall [Scenario.y] (.Or [.Var Scenario.a, .Var Scenario.y])))]⟩,
        { next_id := 9, conj_id := 0, disj_id := 1, forall_id := 0 }) ∧
    in_quantified_clausal_form
      (.Not (.Forall [Scenario.y] (.Or [.Var Scenario.a, .Var Scenario.y]))) = false :=
  ⟨rfl, rfl⟩

/-- C7, the failing input: on `b ∨ ¬(∀y. ¬a)`, `VisitForall` returns the clause
`¬a` of the body as it is, `VisitNegation` stores `!(¬a) = a` under its proxy,
and `Convert` reaches `DREAL_UNREACHABLE()` in `Cnfize` on that value of kind
`Var`. -/
theorem Convert_unreachable :
    Cnfizer.Visit Scenario.negated_vacuous_forall ⟨[]⟩ Scenario.start =
      .ok (.Var ⟨8, "disj0", .BOOLEAN⟩,
        ⟨[(⟨7, "neg", .BOOLEAN⟩, .Var Scenario.a),
          (⟨8, "disj0", .BOOLEAN⟩, .Or [.Var Scenario.b, .Var ⟨7, "neg", .BOOLEAN⟩])]⟩,
        { next_id := 9, conj_id := 0, disj_id := 1, forall_id := 0 }) ∧
    Cnfizer.Convert ⟨[]⟩ Scenario.negated_vacuous_forall Scenario.start =
      .error .UnreachableState :=
  ⟨rfl, rfl⟩

theorem holds_Forall {R : Type} (T : Theory R) (M : Assignment R) (vars : List Variable)
    (body : Formula) :
    (Formula.Forall vars body).holds T M ↔
      ∀ M' : Assignment R, M'.agrees_outside vars M → body.holds T M' := by
  simp [Formula.holds]

theorem agrees_outside_set {R : Type} (M : Assignment R) (v : Variable) (value : Bool) :
    (M.set v.id value).agrees_outside [v] M := by
  intro i hi
  have hne : i ≠ v.id := fun e => hi v (List.mem_singleton.2 rfl) e.symm
  exact ⟨by simp [Assignment.set_b, hne], rfl⟩

/-- C2, the failing input: `∀y. (a ∧ y) ∨ (b ∧ ¬y)` is true under every
assignment with `a` and `b` true, but no assignment satisfies the clauses that
`Convert` returns for it: the proxies `conj0` of `a ∧ y` and `conj1` of `b ∧ ¬y`
are made by the nested `Convert`, and the clauses `y ∨ ¬conj0` and
`¬y ∨ ¬conj1` of their definitions come back under `∀y`, which forces both
proxies to be false, against the clause `conj0 ∨ conj1`. -/
theorem Convert_Forall_not_equisatisfiable :
    Cnfizer.Convert ⟨[]⟩ Scenario.choice Scenario.start =
      .ok (Scenario.choice_cnf,
        ⟨[(⟨10, "forall0", .BOOLEAN⟩, .And Scenario.choice_cnf)]⟩,
        { next_id := 11, conj_id := 2, disj_id := 1, forall_id := 1 }) ∧
    (∀ M : Assignment Unit, M.b Scenario.a.id = true → M.b Scenario.b.id = true →
      Scenario.choice.holds Scenario.theory M) ∧
    (∀ M : Assignment Unit, ¬ ∀ cl ∈ Scenario.choice_cnf, cl.holds Scenario.theory M) := by
  refine ⟨rfl, ?_, ?_⟩
  · intro M ha hb
    unfold Scenario.choice
    rw [holds_Forall]
    intro M' hag
    have ha' : M'.b Scenario.a.id = true := by
      rw [(hag Scenario.a.id (by decide)).1]
      exact ha
    have hb' : M'.b Scenario.b.id = true := by
      rw [(hag Scenario.b.id (by decide)).1]
      exact hb
    simp only [holds_Or, holds_And, holds_Not, holds_Var, List.mem_cons, List.mem_singleton,
      List.not_mem_nil, or_false, exists_eq_or_imp, exists_eq_left, forall_eq_or_imp,
      forall_eq, ha', hb', true_and]
    cases M'.b Scenario.y.id <;> simp
  · intro M hall
    have h0 : M.b 7 = false := by
      have h := hall (.Forall [Scenario.y]
        (.Or [.Var Scenario.y, .Not (.Var ⟨7, "conj0", .BOOLEAN⟩)]))
        (by simp [Scenario.choice_cnf])
      rw [holds_Forall] at h
      have h' := h (M.set Scenario.y.id false) (agrees_outside_set M Scenario.y false)
      simpa [holds_Or, holds_Not, holds_Var, Assignment.set_b, Scenario.y] using h'
    have h1 : M.b 8 = false := by
      have h := hall (.Forall [Scenario.y]
        (.Or [.Not (.Var Scenario.y), .Not (.Var ⟨8, "conj1", .BOOLEAN⟩)]))
        (by simp [Scenario.choice_cnf])
      rw [holds_Forall] at h
      have h' := h (M.set Scenario.y.id true) (agrees_outside_set M Scenario.y true)
      simpa [holds_Or, holds_Not, holds_Var, Assignment.set_b, Scenario.y] using h'
    have h2 := hall (.Or [.Var ⟨7, "conj0", .BOOLEAN⟩, .Var ⟨8, "conj1", .BOOLEAN⟩])
      (by simp [Scenario.choice_cnf])
    simp [holds_Or, holds_Var, h0, h1] at h2

/-! ## The clauses of the three emitters -/

theorem is_literal_not_constant {b : Formula} (h : is_literal b = true) :
    is_true b = false ∧ is_false b = false ∧ is_disjunction b = false ∧
      is_conjunction b = false := by
  cases b <;> simp_all [is_literal, is_variable_or_atom, is_true, is_false, is_disjunction,
    is_conjunction]

theorem lor_Not_Var_literal (p : Variable) {b : Formula} (h : is_literal b = true) :
    (Formula.Not (.Var p)).lor b = .Or (FormulaSet.ofList [.Not (.Var p), b]) := by
  cases b <;> simp_all [is_literal, is_variable_or_atom, Formula.lor, is_true, is_false,
    FormulaSet.ofList]

theorem lor_literal_Var (p : Variable) {b : Formula} (h : is_literal b = true) :
    b.lor (.Var p) = .Or (FormulaSet.ofList [b, .Var p]) := by
  cases b <;> simp_all [is_literal, is_variable_or_atom, Formula.lor, is_true, is_false,
    FormulaSet.ofList]

theorem foldl_Add_map (F : Formula → Formula) :
    ∀ (l clauses : List Formula), (∀ x ∈ l, is_true (F x) = false) →
      l.foldl (fun acc x => Add (F x) acc) clauses = clauses ++ l.map F
  | [], clauses, _ => by simp
  | x :: xs, clauses, h => by
    have hx : is_true (F x) = false := h x (List.mem_cons_self _ _)
    simp only [List.foldl_cons, List.map_cons]
    rw [foldl_Add_map F xs _ (fun y hy => h y (List.mem_cons_of_mem _ hy))]
    simp [Add, hx]

theorem FormulaSet.length_insert {x : Formula} :
    ∀ {l : List Formula}, x ∉ l → (FormulaSet.insert x l).length = l.length + 1
  | [], _ => by simp [FormulaSet.insert]
  | y :: ys, h => by
    unfold FormulaSet.insert
    split
    · simp
    · next hc =>
      exact absurd ((Formula_compare_eq x y).1 hc) (fun he => h (he ▸ List.mem_cons_self _ _))
    · simp [FormulaSet.length_insert (l := ys) (fun hm => h (List.mem_cons_of_mem _ hm))]

theorem FormulaSet.length_foldl_insert :
    ∀ {xs acc : List Formula}, xs.Nodup → (∀ x ∈ xs, x ∉ acc) →
      (xs.foldl (fun acc x => FormulaSet.insert x acc) acc).length = acc.length + xs.length
  | [], acc, _, _ => by simp
  | x :: xs, acc, hn, hd => by
    simp only [List.foldl_cons, List.length_cons]
    rw [FormulaSet.length_foldl_insert (List.nodup_cons.1 hn).2
      (fun y hy hm => by
        rcases FormulaSet.mem_insert.1 hm with rfl | hm
        · exact (List.nodup_cons.1 hn).1 hy
        · exact hd y (List.mem_cons_of_mem _ hy) hm),
      FormulaSet.length_insert (hd x (List.mem_cons_self _ _))]
    omega

theorem FormulaSet.length_ofList {xs : List Formula} (h : xs.Nodup) :
    (FormulaSet.ofList xs).length = xs.length := by
  unfold FormulaSet.ofList
  rw [FormulaSet.length_foldl_insert h (by simp)]
  simp

theorem lnot_injective_of_literal {x y : Formula} (hx : is_literal x = true)
    (hy : is_literal y = true) (h : x.lnot = y.lnot) : x = y := by
  cases x <;> cases y <;> simp_all [is_literal, is_variable_or_atom, Formula.lnot]
  all_goals (try (subst h; simp_all [is_variable_or_atom]))

theorem length_map_lnot {ops : List Formula} (hl : ∀ b ∈ ops, is_literal b = true)
    (hn : ops.Nodup) : (FormulaSet.map ops (fun b => b.lnot)).length = ops.length := by
  unfold FormulaSet.map
  rw [FormulaSet.length_ofList, List.length_map]
  exact (List.nodup_map_iff_inj_on hn).2
    (fun x hx y hy h => lnot_injective_of_literal (hl x hx) (hl y hy) h)

/-- C16. Conjunction emission: for a proxy `p` and a body `And(b₁, …, bₙ)` whose
operands are literals, `CnfizeConjunction` leaves the clauses it is given as
they are and appends exactly `n + 1` clauses: for each operand `bᵢ`, in the
order of the operand set, the clause `¬p ∨ bᵢ`, and last the clause that is the
disjunction of `p` and of the negations `!bᵢ` of all the operands. -/
theorem CnfizeConjunction_clauses (p : Variable) (ops clauses : List Formula)
    (h : ∀ b ∈ ops, is_literal b = true) :
    CnfizeConjunction p (.And ops) clauses =
      clauses ++ ops.map (fun b_i => Formula.Or (FormulaSet.ofList [.Not (.Var p), b_i])) ++
        [.Or (FormulaSet.insert (.Var p) (FormulaSet.map ops (fun b_i => b_i.lnot)))] ∧
    (CnfizeConjunction p (.And ops) clauses).length = clauses.length + (ops.length + 1) ∧
    (∀ z, z ∈ FormulaSet.insert (.Var p) (FormulaSet.map ops (fun b_i => b_i.lnot)) ↔
      z = .Var p ∨ ∃ b_i ∈ ops, b_i.lnot = z) := by
  have h1 : CnfizeConjunction p (.And ops) clauses =
      clauses ++ ops.map (fun b_i => Formula.Or (FormulaSet.ofList [.Not (.Var p), b_i])) ++
        [.Or (FormulaSet.insert (.Var p) (FormulaSet.map ops (fun b_i => b_i.lnot)))] := by
    simp only [CnfizeConjunction, get_operands, make_disjunction]
    rw [foldl_Add_map (fun b_i => ((Formula.Var p).lnot).lor b_i) ops clauses]
    · have hm : ops.map (fun b_i => ((Formula.Var p).lnot).lor b_i) =
          ops.map (fun b_i => Formula.Or (FormulaSet.ofList [.Not (.Var p), b_i])) := by
        apply List.map_congr_left
        intro b hb
        simp only [Formula.lnot]
        exact lor_Not_Var_literal p (h b hb)
      rw [hm]
      simp [Add, Formula.lor, is_true, is_false]
    · intro b hb
      simp only [Formula.lnot]
      rw [lor_Not_Var_literal p (h b hb)]
      rfl
  refine ⟨h1, ?_, ?_⟩
  · rw [h1]
    simp
  · intro z
    rw [FormulaSet.mem_insert, FormulaSet.mem_map]

/-- C16, witness: the definition `p ⇔ (a ∧ ¬b)` appended to one clause. -/
theorem CnfizeConjunction_clauses_witness :
    CnfizeConjunction Scenario.c (.And [.Var Scenario.a, .Not (.Var Scenario.b)])
        [.Var Scenario.d] =
      [.Var Scenario.d,
        .Or [.Var Scenario.a, .Not (.Var Scenario.c)],
        .Or [.Not (.Var Scenario.b), .Not (.Var Scenario.c)],
        .Or [.Var Scenario.b, .Var Scenario.c, .Not (.Var Scenario.a)]] :=
  ((CnfizeConjunction_clauses Scenario.c [.Var Scenario.a, .Not (.Var Scenario.b)]
    [.Var Scenario.d] (by simp [is_literal, is_variable_or_atom])).1).trans rfl

/-- C17. Disjunction emission: for a proxy `p` and a body `Or(b₁, …, bₙ)` whose
operands are literals, `CnfizeDisjunction` appends first the aggregate clause
`¬p ∨ b₁ ∨ … ∨ bₙ` and then one clause `!bᵢ ∨ p` for each negated operand;
these are `n + 1` clauses when the operands are pairwise different, and the
appended clauses are true together exactly when `p ⇔ (b₁ ∨ … ∨ bₙ)` is. -/
theorem CnfizeDisjunction_clauses (p : Variable) (ops clauses : List Formula)
    (h : ∀ b ∈ ops, is_literal b = true) :
    CnfizeDisjunction p (.Or ops) clauses =
      clauses ++ [Formula.Or (FormulaSet.insert (.Not (.Var p)) ops)] ++
        (FormulaSet.map ops (fun b_i => b_i.lnot)).map
          (fun neg_b_i => Formula.Or (FormulaSet.ofList [neg_b_i, .Var p])) ∧
    (ops.Nodup →
      (CnfizeDisjunction p (.Or ops) clauses).length = clauses.length + (ops.length + 1)) ∧
    (∀ {R : Type} (T : Theory R) (M : Assignment R),
      (∀ cl ∈ CnfizeDisjunction p (.Or ops) [], cl.holds T M) ↔
        (M.b p.id = true ↔ ∃ b_i ∈ ops, b_i.holds T M)) := by
  have hneg : ∀ x ∈ FormulaSet.map ops (fun b_i => b_i.lnot), is_literal x = true := by
    intro x hx
    obtain ⟨b, hb, rfl⟩ := FormulaSet.mem_map.1 hx
    exact is_literal_lnot (h b hb)
  have h1 : CnfizeDisjunction p (.Or ops) clauses =
      clauses ++ [Formula.Or (FormulaSet.insert (.Not (.Var p)) ops)] ++
        (FormulaSet.map ops (fun b_i => b_i.lnot)).map
          (fun neg_b_i => Formula.Or (FormulaSet.ofList [neg_b_i, .Var p])) := by
    simp only [CnfizeDisjunction, get_operands]
    rw [foldl_Add_map (fun neg_b_i => neg_b_i.lor (.Var p))]
    · have hm : (FormulaSet.map ops (fun b_i => b_i.lnot)).map
            (fun neg_b_i => neg_b_i.lor (.Var p)) =
          (FormulaSet.map ops (fun b_i => b_i.lnot)).map
            (fun neg_b_i => Formula.Or (FormulaSet.ofList [neg_b_i, .Var p])) := by
        apply List.map_congr_left
        intro b hb
        exact lor_literal_Var p (hneg b hb)
      rw [hm]
      simp [Add, Formula.lor, Formula.lnot, is_true, is_false]
    · intro b hb
      rw [lor_literal_Var p (hneg b hb)]
      rfl
  refine ⟨h1, ?_, ?_⟩
  · intro hn
    rw [h1]
    simp [length_map_lnot h hn]
  · intro R T M
    rw [holds_CnfizeDisjunction]
    simp [definition_holds, holds_Or]

/-- C17, witness: the definition `p ⇔ (a ∨ ¬b)`. -/
theorem CnfizeDisjunction_clauses_witness :
    CnfizeDisjunction Scenario.c (.Or [.Var Scenario.a, .Not (.Var Scenario.b)]) [] =
      [.Or [.Var Scenario.a, .Not (.Var Scenario.b), .Not (.Var Scenario.c)],
        .Or [.Var Scenario.b, .Var Scenario.c],
        .Or [.Var Scenario.c, .Not (.Var Scenario.a)]] :=
  ((CnfizeDisjunction_clauses Scenario.c [.Var Scenario.a, .Not (.Var Scenario.b)] []
    (by simp [is_literal, is_variable_or_atom])).1).trans rfl

/-- C18. Negation emission: for a proxy `p` and a body `Not(b₁)` with `b₁` a
variable, `CnfizeNegation` appends exactly two clauses, in this order:
`¬p ∨ ¬b₁` and `b₁ ∨ p`; the second one holds `b₁` itself, not `¬¬b₁`; and the
two clauses are true together exactly when `p ⇔ ¬b₁` is. -/
theorem CnfizeNegation_clauses (p b_1 : Variable) (clauses : List Formula) :
    CnfizeNegation p (.Not (.Var b_1)) clauses =
      clauses ++ [Formula.Or (FormulaSet.ofList [.Not (.Var p), .Not (.Var b_1)]),
        Formula.Or (FormulaSet.ofList [.Var b_1, .Var p])] ∧
    (∀ z, z ∈ FormulaSet.ofList [Formula.Var b_1, .Var p] ↔ z = .Var b_1 ∨ z = .Var p) ∧
    (∀ {R : Type} (T : Theory R) (M : Assignment R),
      (∀ cl ∈ [Formula.Or (FormulaSet.ofList [.Not (.Var p), .Not (.Var b_1)]),
          Formula.Or (FormulaSet.ofList [.Var b_1, .Var p])], cl.holds T M) ↔
        (M.b p.id = true ↔ ¬ M.b b_1.id = true)) := by
  have h1 : ∀ cls : List Formula, CnfizeNegation p (.Not (.Var b_1)) cls =
      cls ++ [Formula.Or (FormulaSet.ofList [.Not (.Var p), .Not (.Var b_1)]),
        Formula.Or (FormulaSet.ofList [.Var b_1, .Var p])] := by
    intro cls
    simp [CnfizeNegation, AddIff, Add, imply, Formula.lnot, Formula.lor, is_true, is_false,
      FormulaSet.ofList]
  refine ⟨h1 clauses, ?_, ?_⟩
  · intro z
    rw [FormulaSet.mem_ofList]
    simp
  · intro R T M
    have h2 := holds_CnfizeNegation T M p (.Not (.Var b_1)) []
    rw [h1 []] at h2
    simp only [List.nil_append] at h2
    rw [h2]
    simp [definition_holds, holds_Not, holds_Var]

/-! ## Scenario S4 and clauses as input -/

theorem Visit_returned_unchanged {f : Formula} (h : returned_unchanged f = true)
    (c : Cnfizer) (g : Globals) : Cnfizer.Visit f c g = .ok (f, c, g) := by
  cases f <;> simp_all [returned_unchanged, is_atomic, Cnfizer.Visit]

theorem returned_unchanged_of_literal {f : Formula} (h : is_literal f = true) :
    returned_unchanged f = true := by
  cases f with
  | Not g => cases g <;> simp_all [is_literal, is_variable_or_atom, returned_unchanged, is_atomic]
  | _ => simp_all [is_literal, is_variable_or_atom, returned_unchanged, is_atomic]

theorem VisitOperands_returned_unchanged :
    ∀ (ops : List Formula) (c : Cnfizer) (g : Globals),
      (∀ b ∈ ops, returned_unchanged b = true) →
      Cnfizer.VisitOperands ops c g = .ok (ops, c, g)
  | [], c, g, _ => by simp [Cnfizer.VisitOperands]
  | f :: fs, c, g, h => by
    simp [Cnfizer.VisitOperands, Visit_returned_unchanged (h f (List.mem_cons_self _ _)),
      VisitOperands_returned_unchanged fs c g (fun b hb => h b (List.mem_cons_of_mem _ hb))]

theorem Convert_Or_of_unchanged (c : Cnfizer) (ops : List Formula) (g : Globals)
    (h : ∀ b ∈ ops, returned_unchanged b = true) :
    Cnfizer.Convert c (.Or ops) g =
      .ok ([.Or (FormulaSet.ofList ops)],
        ⟨[(⟨g.next_id, "disj" ++ toString g.disj_id, .BOOLEAN⟩,
          .Or (FormulaSet.ofList ops))]⟩,
        { g with next_id := g.next_id + 1, disj_id := g.disj_id + 1 }) := by
  simp [Cnfizer.Convert, Cnfizer.Visit, VisitOperands_returned_unchanged ops _ g h,
    Globals.new_variable, make_disjunction, DefinitionMap.emplace, Cnfizer.ConvertFrom,
    Cnfizer.ConvertLoop, get_variable, Variable.equal_to, is_conjunction]

theorem Convert_And_of_unchanged (c : Cnfizer) (ops : List Formula) (g : Globals)
    (h : ∀ b ∈ ops, returned_unchanged b = true) :
    Cnfizer.Convert c (.And ops) g =
      .ok (FormulaSet.ofList ops,
        ⟨[(⟨g.next_id, "conj" ++ toString g.conj_id, .BOOLEAN⟩,
          .And (FormulaSet.ofList ops))]⟩,
        { g with next_id := g.next_id + 1, conj_id := g.conj_id + 1 }) := by
  simp [Cnfizer.Convert, Cnfizer.Visit, VisitOperands_returned_unchanged ops _ g h,
    Globals.new_variable, make_conjunction, DefinitionMap.emplace, Cnfizer.ConvertFrom,
    Cnfizer.ConvertLoop, get_variable, Variable.equal_to, is_conjunction, get_operands]

/-- C11 (amended). Scenario S4: for every variable `x`, `Convert` applied to the
conjunction with the operands `True` and `x` returns exactly `[True, x]`: the
operands of the head conjunction are copied into the result as they are, the
constant `True` among them. -/
theorem Convert_S4 (c : Cnfizer) (x : Variable) (g : Globals) :
    Cnfizer.Convert c (.And [.True, .Var x]) g =
      .ok ([.True, .Var x],
        ⟨[(⟨g.next_id, "conj" ++ toString g.conj_id, .BOOLEAN⟩, .And [.True, .Var x])]⟩,
        { g with next_id := g.next_id + 1, conj_id := g.conj_id + 1 }) := by
  rw [Convert_And_of_unchanged c [.True, .Var x] g
    (by simp [returned_unchanged, is_atomic])]
  rfl

/-- C11, counterexample: for the Boolean variable `a` of the scenarios,
`Convert(True ∧ a)` returns the two elements `True` and `a`, not `[a]`. -/
theorem Convert_S4_counterexample :
    Cnfizer.Convert ⟨[]⟩ (.And [.True, .Var Scenario.a]) Scenario.start =
      .ok ([.True, .Var Scenario.a],
        ⟨[(⟨7, "conj0", .BOOLEAN⟩, .And [.True, .Var Scenario.a])]⟩,
        { next_id := 8, conj_id := 1, disj_id := 0, forall_id := 0 }) ∧
    [Formula.True, .Var Scenario.a] ≠ [.Var Scenario.a] ∧
    Formula.True ∈ [Formula.True, .Var Scenario.a] :=
  ⟨rfl, by simp, by simp⟩

/-- C20. Clause pass-through: for a disjunction `Or ops` whose operand set
holds literals only (`ops` is in the canonical order of a set) and whose
variables the allocator has handed out, `Convert` returns exactly `[Or ops]`;
the one proxy that is allocated is the key of the only definition and occurs
nowhere in the result, and no clause of a biconditional is emitted. -/
theorem Convert_clause (c : Cnfizer) (ops : List Formula) (g : Globals)
    (hl : ∀ b ∈ ops, is_literal b = true) (hs : FormulaSet.ofList ops = ops)
    (hv : (Formula.Or ops).vars_below g.next_id) :
    Cnfizer.Convert c (.Or ops) g =
      .ok ([.Or ops],
        ⟨[(⟨g.next_id, "disj" ++ toString g.disj_id, .BOOLEAN⟩, .Or ops)]⟩,
        { g with next_id := g.next_id + 1, disj_id := g.disj_id + 1 }) ∧
    (∀ cl ∈ [Formula.Or ops], ∀ v ∈ cl.GetFreeVariables, v.id ≠ g.next_id) := by
  refine ⟨?_, ?_⟩
  · rw [Convert_Or_of_unchanged c ops g (fun b hb => returned_unchanged_of_literal (hl b hb)),
      hs]
  · intro cl hcl v hvm
    simp only [List.mem_singleton] at hcl
    subst hcl
    have := hv v hvm
    omega

/-- C20, witness: the clause `a ∨ ¬b ∨ x > 0`, in the canonical order of its
operand set. -/
theorem Convert_clause_witness :
    Cnfizer.Convert ⟨[]⟩
        (.Or [.Var Scenario.a, .Gt (.var Scenario.x) (.const 0), .Not (.Var Scenario.b)])
        Scenario.start =
      .ok ([.Or [.Var Scenario.a, .Gt (.var Scenario.x) (.const 0), .Not (.Var Scenario.b)]],
        ⟨[(⟨7, "disj0", .BOOLEAN⟩,
          .Or [.Var Scenario.a, .Gt (.var Scenario.x) (.const 0), .Not (.Var Scenario.b)])]⟩,
        { next_id := 8, conj_id := 0, disj_id := 1, forall_id := 0 }) :=
  (Convert_clause ⟨[]⟩
    [.Var Scenario.a, .Gt (.var Scenario.x) (.const 0), .Not (.Var Scenario.b)]
    Scenario.start (by simp [is_literal, is_variable_or_atom]) rfl
    (by unfold Formula.vars_below; decide)).1

/-! ## What a successful visit has done -/

theorem Visit_And_ok {ops : List Formula} {c c' : Cnfizer} {g g' : Globals} {r : Formula}
    (h : Cnfizer.Visit (.And ops) c g = .ok (r, c', g')) :
    ∃ visited c1 g1, Cnfizer.VisitOperands ops c g = .ok (visited, c1, g1) ∧
      r = .Var ⟨g1.next_id, "conj" ++ toString g1.conj_id, .BOOLEAN⟩ ∧
      c' = ⟨c1.map_.emplace ⟨g1.next_id, "conj" ++ toString g1.conj_id, .BOOLEAN⟩
        (.And (FormulaSet.ofList visited))⟩ ∧
      g' = { g1 with next_id := g1.next_id + 1, conj_id := g1.conj_id + 1 } := by
  cases hv : Cnfizer.VisitOperands ops c g with
  | error e => simp [Cnfizer.Visit, hv] at h
  | ok res =>
    obtain ⟨visited, c1, g1⟩ := res
    simp only [Cnfizer.Visit, hv, Globals.new_variable, make_conjunction, Except.ok.injEq,
      Prod.mk.injEq] at h
    exact ⟨visited, c1, g1, rfl, h.1.symm, h.2.1.symm, h.2.2.symm⟩

theorem Visit_Or_ok {ops : List Formula} {c c' : Cnfizer} {g g' : Globals} {r : Formula}
    (h : Cnfizer.Visit (.Or ops) c g = .ok (r, c', g')) :
    ∃ visited c1 g1, Cnfizer.VisitOperands ops c g = .ok (visited, c1, g1) ∧
      r = .Var ⟨g1.next_id, "disj" ++ toString g1.disj_id, .BOOLEAN⟩ ∧
      c' = ⟨c1.map_.emplace ⟨g1.next_id, "disj" ++ toString g1.disj_id, .BOOLEAN⟩
        (.Or (FormulaSet.ofList visited))⟩ ∧
      g' = { g1 with next_id := g1.next_id + 1, disj_id := g1.disj_id + 1 } := by
  cases hv : Cnfizer.VisitOperands ops c g with
  | error e => simp [Cnfizer.Visit, hv] at h
  | ok res =>
    obtain ⟨visited, c1, g1⟩ := res
    simp only [Cnfizer.Visit, hv, Globals.new_variable, make_disjunction, Except.ok.injEq,
      Prod.mk.injEq] at h
    exact ⟨visited, c1, g1, rfl, h.1.symm, h.2.1.symm, h.2.2.symm⟩

theorem Visit_Not_ok {operand : Formula} {c c' : Cnfizer} {g g' : Globals} {r : Formula}
    (ha : is_atomic operand = false)
    (h : Cnfizer.Visit (.Not operand) c g = .ok (r, c', g')) :
    ∃ transformed_operand c1,
      Cnfizer.Visit operand c { g with next_id := g.next_id + 1 } =
        .ok (transformed_operand, c1, g') ∧
      r = .Var ⟨g.next_id, "neg", .BOOLEAN⟩ ∧
      c' = ⟨c1.map_.emplace ⟨g.next_id, "neg", .BOOLEAN⟩ transformed_operand.lnot⟩ := by
  cases hv : Cnfizer.Visit operand c { g with next_id := g.next_id + 1 } with
  | error e => simp [Cnfizer.Visit, ha, hv, Globals.new_variable] at h
  | ok res =>
    obtain ⟨t, c1, g1⟩ := res
    simp only [Cnfizer.Visit, ha, hv, Globals.new_variable, Except.ok.injEq,
      Prod.mk.injEq, Bool.false_eq_true, if_false] at h
    obtain ⟨h1, h2, h3⟩ := h
    subst h3
    exact ⟨t, c1, rfl, h1.symm, h2.symm⟩

theorem Visit_Forall_ok {vars : List Variable} {body : Formula} {c c' : Cnfizer}
    {g g' : Globals} {r : Formula}
    (h : Cnfizer.Visit (.Forall vars body) c g = .ok (r, c', g')) :
    ∃ cnf c1 g1, Cnfizer.Convert ⟨[]⟩ body g = .ok (cnf, c1, g1) ∧
      ((∃ x, cnf = [x] ∧ r = hoist vars x ∧ c' = c ∧ g' = g1) ∨
        (cnf.length ≠ 1 ∧
          r = .Var ⟨g1.next_id, "forall" ++ toString g1.forall_id, .BOOLEAN⟩ ∧
          c' = ⟨c.map_.emplace ⟨g1.next_id, "forall" ++ toString g1.forall_id, .BOOLEAN⟩
            (.And (FormulaSet.ofList (cnf.map (hoist vars))))⟩ ∧
          g' = { g1 with next_id := g1.next_id + 1, forall_id := g1.forall_id + 1 })) := by
  rw [Visit_Forall] at h
  cases hv : Cnfizer.Convert ⟨[]⟩ body g with
  | error e => simp [hv] at h
  | ok res =>
    obtain ⟨cnf, c1, g1⟩ := res
    refine ⟨cnf, c1, g1, rfl, ?_⟩
    simp only [hv] at h
    match cnf, h with
    | [], h =>
      simp only [List.map_nil, make_conjunction_of_vector, Except.ok.injEq,
        Prod.mk.injEq] at h
      exact Or.inr ⟨by simp, h.1.symm, h.2.1.symm, h.2.2.symm⟩
    | [x], h =>
      simp only [List.map_cons, List.map_nil, Except.ok.injEq, Prod.mk.injEq] at h
      exact Or.inl ⟨x, rfl, h.1.symm, h.2.1.symm, h.2.2.symm⟩
    | x :: y :: rest, h =>
      simp only [List.map_cons, make_conjunction_of_vector, Except.ok.injEq,
        Prod.mk.injEq] at h
      exact Or.inr ⟨by simp, h.1.symm, h.2.1.symm, h.2.2.symm⟩

theorem VisitOperands_cons_ok {f : Formula} {fs vis : List Formula} {c c' : Cnfizer}
    {g g' : Globals} (h : Cnfizer.VisitOperands (f :: fs) c g = .ok (vis, c', g')) :
    ∃ r1 c1 g1 visited, Cnfizer.Visit f c g = .ok (r1, c1, g1) ∧
      Cnfizer.VisitOperands fs c1 g1 = .ok (visited, c', g') ∧ vis = r1 :: visited := by
  cases hv : Cnfizer.Visit f c g with
  | error e => simp [Cnfizer.VisitOperands, hv] at h
  | ok res =>
    obtain ⟨r1, c1, g1⟩ := res
    cases hv2 : Cnfizer.VisitOperands fs c1 g1 with
    | error e => simp [Cnfizer.VisitOperands, hv, hv2] at h
    | ok res2 =>
      obtain ⟨visited, c2, g2⟩ := res2
      simp only [Cnfizer.VisitOperands, hv, hv2, Except.ok.injEq, Prod.mk.injEq] at h
      obtain ⟨h1, h2, h3⟩ := h
      subst h2 h3
      exact ⟨r1, c1, g1, visited, rfl, hv2, h1.symm⟩

theorem Convert_ok {c c' : Cnfizer} {f : Formula} {g g' : Globals} {L : List Formula}
    (h : Cnfizer.Convert c f g = .ok (L, c', g')) :
    ∃ head, Cnfizer.Visit f ⟨[]⟩ g = .ok (head, c', g') ∧
      Cnfizer.ConvertFrom head c'.map_ = .ok L := by
  unfold Cnfizer.Convert at h
  cases hv : Cnfizer.Visit f ⟨[]⟩ g with
  | error e => simp [hv] at h
  | ok res =>
    obtain ⟨head, c1, g1⟩ := res
    cases hc : Cnfizer.ConvertFrom head c1.map_ with
    | error e => simp [hv, hc] at h
    | ok ret =>
      simp only [hv, hc, Except.ok.injEq, Prod.mk.injEq] at h
      obtain ⟨h1, h2, h3⟩ := h
      subst h1 h2 h3
      exact ⟨head, rfl, hc⟩

/-! ## Sizes of operand sets, and the formulas that `Visit` and `Cnfize` never return -/

theorem FormulaSet.length_insert_le (x : Formula) :
    ∀ (l : List Formula), (FormulaSet.insert x l).length ≤ l.length + 1
  | [] => by simp [FormulaSet.insert]
  | y :: ys => by
    unfold FormulaSet.insert
    split
    · simp
    · simp
    · have := FormulaSet.length_insert_le x ys
      simp only [List.length_cons]
      omega

theorem FormulaSet.length_foldl_insert_le :
    ∀ (xs acc : List Formula),
      (xs.foldl (fun acc x => FormulaSet.insert x acc) acc).length ≤ acc.length + xs.length
  | [], acc => by simp
  | x :: xs, acc => by
    have h1 := FormulaSet.length_foldl_insert_le xs (FormulaSet.insert x acc)
    have h2 := FormulaSet.length_insert_le x acc
    simp only [List.foldl_cons, List.length_cons]
    omega

theorem FormulaSet.length_ofList_le (xs : List Formula) :
    (FormulaSet.ofList xs).length ≤ xs.length := by
  have := FormulaSet.length_foldl_insert_le xs []
  simpa [FormulaSet.ofList] using this

theorem FormulaSet.length_map_le (xs : List Formula) (func : Formula → Formula) :
    (FormulaSet.map xs func).length ≤ xs.length := by
  have := FormulaSet.length_ofList_le (xs.map func)
  simpa [FormulaSet.map] using this

theorem FormulaSet.ofList_ne_nil {xs : List Formula} (h : xs ≠ []) :
    FormulaSet.ofList xs ≠ [] := by
  obtain ⟨x, hx⟩ := List.exists_mem_of_ne_nil xs h
  exact List.ne_nil_of_mem (FormulaSet.mem_ofList.2 hx)

theorem lor_cases (x y : Formula) :
    x.lor y = .True ∨ (is_false x = true ∧ x.lor y = y) ∨ (is_false y = true ∧ x.lor y = x) ∨
      ∃ l, x.lor y = .Or l := by
  unfold Formula.lor
  split
  · exact Or.inl rfl
  · split
    · next h => exact Or.inr (Or.inl ⟨h, rfl⟩)
    · split
      · next h => exact Or.inr (Or.inr (Or.inl ⟨h, rfl⟩))
      · right; right; right
        split <;> exact ⟨_, rfl⟩

theorem is_negated_conjunction_lnot {t : Formula} (h : is_negated_conjunction t = false) :
    is_negated_conjunction t.lnot = false := by
  cases t <;> simp_all [Formula.lnot, is_negated_conjunction]

theorem head_clauses_lnot {t : Formula} (h : is_negated_conjunction t = false) :
    head_clauses t.lnot = [t.lnot] := by
  have h1 := is_negated_conjunction_lnot h
  have h2 : is_conjunction t.lnot = false := by
    cases ht : t.lnot <;> simp_all [is_conjunction, is_negated_conjunction]
  simp [head_clauses, h2]

theorem is_negated_conjunction_hoist (vars : List Variable) {x : Formula}
    (h : is_negated_conjunction x = false) : is_negated_conjunction (hoist vars x) = false := by
  rw [hoist_eq]
  split
  · exact h
  · rfl

theorem is_negated_conjunction_of_unchanged {f : Formula} (h : returned_unchanged f = true) :
    is_negated_conjunction f = false := by
  cases f with
  | Not g => cases g <;> simp_all [returned_unchanged, is_atomic, is_negated_conjunction]
  | _ => simp_all [returned_unchanged, is_atomic, is_negated_conjunction]

theorem Cnfize_plain {b : Variable} {f cl : Formula} {clauses : List Formula}
    (h : Cnfize b f [] = .ok clauses) (hcl : cl ∈ clauses) :
    is_negated_conjunction cl = false := by
  rcases mem_Cnfize h hcl with ⟨x, _, _, _, h1 | h1⟩ | ⟨_, h1⟩ | ⟨_, h1⟩ | ⟨hn, h1 | h1⟩
  · subst h1
    rcases lor_cases ((Formula.Var b).lnot) x with h | ⟨hf, _⟩ | ⟨_, h⟩ | ⟨l, h⟩
    · rw [h]; rfl
    · simp [Formula.lnot, is_false] at hf
    · rw [h]; rfl
    · rw [h]; rfl
  · subst h1
    rcases lor_cases (x.lnot) (.Var b) with h | ⟨_, h⟩ | ⟨hf, _⟩ | ⟨l, h⟩
    · rw [h]; rfl
    · rw [h]; rfl
    · simp [is_false] at hf
    · rw [h]; rfl
  · subst h1
    rcases lor_cases (make_disjunction (FormulaSet.map (get_operands f) (fun x => x.lnot)))
      (.Var b) with h | ⟨_, h⟩ | ⟨hf, _⟩ | ⟨l, h⟩
    · rw [h]; rfl
    · rw [h]; rfl
    · simp [is_false] at hf
    · rw [h]; rfl
  · subst h1
    rcases lor_cases ((Formula.Var b).lnot) f with h | ⟨hf, _⟩ | ⟨_, h⟩ | ⟨l, h⟩
    · rw [h]; rfl
    · simp [Formula.lnot, is_false] at hf
    · rw [h]; rfl
    · rw [h]; rfl
  · subst h1
    unfold imply
    rcases lor_cases ((Formula.Var b).lnot) f with h | ⟨hf, _⟩ | ⟨_, h⟩ | ⟨l, h⟩
    · rw [h]; rfl
    · simp [Formula.lnot, is_false] at hf
    · rw [h]; rfl
    · rw [h]; rfl
  · subst h1
    unfold imply
    rcases lor_cases (f.lnot) (.Var b) with h | ⟨_, h⟩ | ⟨hf, _⟩ | ⟨l, h⟩
    · rw [h]; rfl
    · rw [h]; rfl
    · simp [is_false] at hf
    · rw [h]; rfl

theorem node_count_pos (f : Formula) : 1 ≤ f.node_count := by
  cases f <;> simp [Formula.node_count]

theorem definitions_size_append (m1 m2 : DefinitionMap) :
    definitions_size (m1 ++ m2) = definitions_size m1 + definitions_size m2 := by
  simp [definitions_size]

theorem definition_size_lnot {t : Formula} (h : returned_unchanged t = true) :
    definition_size t.lnot = 2 := by
  cases t with
  | Not g => cases g <;> simp_all [returned_unchanged, is_atomic, Formula.lnot, definition_size]
  | _ => simp_all [returned_unchanged, is_atomic, Formula.lnot, definition_size]

theorem no_empty_conjunction_And {l : List Formula} :
    (Formula.And l).no_empty_conjunction = true ↔
      l ≠ [] ∧ ∀ x ∈ l, x.no_empty_conjunction = true := by
  simp [Formula.no_empty_conjunction, all_nodes_And]

theorem no_empty_conjunction_Or {l : List Formula} :
    (Formula.Or l).no_empty_conjunction = true ↔ ∀ x ∈ l, x.no_empty_conjunction = true := by
  simp [Formula.no_empty_conjunction, all_nodes_Or]

theorem no_empty_conjunction_Not {f : Formula} :
    (Formula.Not f).no_empty_conjunction = true ↔ f.no_empty_conjunction = true := by
  simp [Formula.no_empty_conjunction, all_nodes_Not]

theorem no_empty_conjunction_Forall {vars : List Variable} {f : Formula} :
    (Formula.Forall vars f).no_empty_conjunction = true ↔ f.no_empty_conjunction = true := by
  simp [Formula.no_empty_conjunction, Formula.all_nodes]

theorem not_quantifier_free_Forall (vars : List Variable) (f : Formula) :
    (Formula.Forall vars f).quantifier_free = false := by
  simp [Formula.quantifier_free, Formula.all_nodes, is_forall]

/-! ## Building blocks of the facts about a visit -/

theorem proxy_count_of_unchanged {f : Formula} (h : returned_unchanged f = true) :
    f.proxy_count = 0 := by
  cases f <;> simp_all [returned_unchanged, is_atomic, Formula.proxy_count]

theorem VisitFacts_leaf {f : Formula} (n : Nat) (h : returned_unchanged f = true) :
    VisitFacts f f [] n n where
  le := Nat.le_refl n
  keys := by simp
  nodup := by simp
  head := Or.inl rfl
  plain := ⟨is_negated_conjunction_of_unchanged h, by simp⟩
  nonempty := by simp
  count := by
    intro _
    simp [proxy_count_of_unchanged h]
  unchanged := fun _ => h
  size := by
    intro _
    have := node_count_pos f
    simp only [definitions_size, List.map_nil, List.sum_nil]
    omega
  covers := fun _ v hv => Or.inl ⟨rfl, hv⟩
  exact := fun _ => ⟨fun v hv => Or.inl hv, by simp⟩

theorem VisitOperandsFacts_nil (n : Nat) : VisitOperandsFacts [] [] [] n n where
  le := Nat.le_refl n
  keys := by simp
  nodup := by simp
  length := rfl
  plain := by simp
  nonempty := by simp
  count := by simp [proxy_count_of_operands]
  unchanged := by simp
  size := by simp [definitions_size, node_count_of_operands]
  covers := by simp
  exact := by simp

theorem VisitOperandsFacts_cons {f r1 : Formula} {fs visited : List Formula}
    {Δ1 Δ2 : DefinitionMap} {n n1 n2 : Nat}
    (h1 : VisitFacts f r1 Δ1 n n1) (h2 : VisitOperandsFacts fs visited Δ2 n1 n2) :
    VisitOperandsFacts (f :: fs) (r1 :: visited) (Δ1 ++ Δ2) n n2 where
  le := Nat.le_trans h1.le h2.le
  keys := by
    intro p hp
    have hle1 := h1.le
    have hle2 := h2.le
    rcases List.mem_append.1 hp with hp | hp
    · have := h1.keys p hp
      exact ⟨this.1, by omega, this.2.2⟩
    · have := h2.keys p hp
      exact ⟨by omega, this.2.1, this.2.2⟩
  nodup := by
    rw [List.map_append, List.nodup_append]
    refine ⟨h1.nodup, h2.nodup, ?_⟩
    intro i hi1 hi2
    obtain ⟨p, hp, rfl⟩ := List.mem_map.1 hi1
    obtain ⟨q, hq, he⟩ := List.mem_map.1 hi2
    have := h1.keys p hp
    have := h2.keys q hq
    omega
  length := by simp [h2.length]
  plain := by
    refine ⟨?_, ?_⟩
    · intro x hx
      rcases List.mem_cons.1 hx with rfl | hx
      · exact h1.plain.1
      · exact h2.plain.1 x hx
    · intro p hp
      rcases List.mem_append.1 hp with hp | hp
      · exact h1.plain.2 p hp
      · exact h2.plain.2 p hp
  nonempty := by
    intro hn p hp
    rcases List.mem_append.1 hp with hp | hp
    · exact h1.nonempty (hn f (List.mem_cons_self _ _)) p hp
    · exact h2.nonempty (fun o ho => hn o (List.mem_cons_of_mem _ ho)) p hp
  count := by
    intro hq
    have c1 := h1.count (hq f (List.mem_cons_self _ _))
    have c2 := h2.count (fun o ho => hq o (List.mem_cons_of_mem _ ho))
    simp only [List.length_append, proxy_count_of_operands]
    omega
  unchanged := by
    intro hq x hx
    rcases List.mem_cons.1 hx with rfl | hx
    · exact h1.unchanged (hq f (List.mem_cons_self _ _))
    · exact h2.unchanged (fun o ho => hq o (List.mem_cons_of_mem _ ho)) x hx
  size := by
    intro hq
    have c1 := h1.size (hq f (List.mem_cons_self _ _))
    have c2 := h2.size (fun o ho => hq o (List.mem_cons_of_mem _ ho))
    simp only [definitions_size_append, List.length_cons, node_count_of_operands]
    omega
  covers := by
    intro hq o ho v hv
    rcases List.mem_cons.1 ho with rfl | ho
    · rcases h1.covers (hq o (List.mem_cons_self _ _)) v hv with ⟨_, h⟩ | ⟨p, hp, h⟩
      · exact Or.inl ⟨r1, List.mem_cons_self _ _, h⟩
      · exact Or.inr ⟨p, List.mem_append_left _ hp, h⟩
    · rcases h2.covers (fun o ho => hq o (List.mem_cons_of_mem _ ho)) o ho v hv with
        ⟨x, hx, h⟩ | ⟨p, hp, h⟩
      · exact Or.inl ⟨x, List.mem_cons_of_mem _ hx, h⟩
      · exact Or.inr ⟨p, List.mem_append_right _ hp, h⟩
  exact := by
    intro hq
    have e1 := h1.exact (hq f (List.mem_cons_self _ _))
    have e2 := h2.exact (fun o ho => hq o (List.mem_cons_of_mem _ ho))
    have l1 : ∀ v, (v ∈ f.GetFreeVariables ∨ ∃ p ∈ Δ1, v = p.1) →
        (∃ o ∈ f :: fs, v ∈ o.GetFreeVariables) ∨ ∃ p ∈ Δ1 ++ Δ2, v = p.1 := by
      rintro v (h | ⟨p, hp, h⟩)
      · exact Or.inl ⟨f, List.mem_cons_self _ _, h⟩
      · exact Or.inr ⟨p, List.mem_append_left _ hp, h⟩
    have l2 : ∀ v, ((∃ o ∈ fs, v ∈ o.GetFreeVariables) ∨ ∃ p ∈ Δ2, v = p.1) →
        (∃ o ∈ f :: fs, v ∈ o.GetFreeVariables) ∨ ∃ p ∈ Δ1 ++ Δ2, v = p.1 := by
      rintro v (⟨o, ho, h⟩ | ⟨p, hp, h⟩)
      · exact Or.inl ⟨o, List.mem_cons_of_mem _ ho, h⟩
      · exact Or.inr ⟨p, List.mem_append_right _ hp, h⟩
    refine ⟨?_, ?_⟩
    · intro x hx v hv
      rcases List.mem_cons.1 hx with rfl | hx
      · exact l1 v (e1.1 v hv)
      · exact l2 v (e2.1 x hx v hv)
    · intro q hq' v hv
      rcases List.mem_append.1 hq' with hq' | hq'
      · exact l1 v (e1.2 q hq' v hv)
      · exact l2 v (e2.2 q hq' v hv)

theorem VisitFacts_of_And {ops visited : List Formula} {Δ : DefinitionMap} {n n1 : Nat}
    (h : VisitOperandsFacts ops visited Δ n n1) (bvar : Variable) (hb : bvar.id = n1)
    (ht : bvar.type = .BOOLEAN) :
    VisitFacts (.And ops) (.Var bvar)
      (Δ ++ [(bvar, .And (FormulaSet.ofList visited))]) n (n1 + 1) where
  le := by
    have := h.le
    omega
  keys := by
    intro p hp
    have hle := h.le
    rcases List.mem_append.1 hp with hp | hp
    · have := h.keys p hp
      exact ⟨this.1, by omega, this.2.2⟩
    · simp only [List.mem_singleton] at hp
      subst hp
      exact ⟨by simp only; omega, by simp only; omega, ht⟩
  nodup := by
    rw [List.map_append, List.nodup_append]
    refine ⟨h.nodup, by simp, ?_⟩
    intro i hi1 hi2
    obtain ⟨p, hp, rfl⟩ := List.mem_map.1 hi1
    simp only [List.map_cons, List.map_nil, List.mem_singleton] at hi2
    have := h.keys p hp
    omega
  head := Or.inr ⟨bvar, _, Δ, rfl, rfl⟩
  plain := by
    refine ⟨rfl, ?_⟩
    intro p hp
    rcases List.mem_append.1 hp with hp | hp
    · exact h.plain.2 p hp
    · simp only [List.mem_singleton] at hp
      subst hp
      intro x hx
      simp only [head_clauses, is_conjunction, if_true, get_operands] at hx
      exact h.plain.1 x (FormulaSet.mem_ofList.1 hx)
  nonempty := by
    intro hn p hp
    have hn' := no_empty_conjunction_And.1 hn
    rcases List.mem_append.1 hp with hp | hp
    · exact h.nonempty hn'.2 p hp
    · simp only [List.mem_singleton] at hp
      subst hp
      simp only [head_clauses, is_conjunction, if_true, get_operands]
      apply FormulaSet.ofList_ne_nil
      intro he
      have := h.length
      rw [he] at this
      exact hn'.1 (List.length_eq_zero.1 this.symm)
  count := by
    intro hq
    have := h.count (quantifier_free_And.1 hq)
    simp only [List.length_append, List.length_singleton, Formula.proxy_count]
    omega
  unchanged := fun _ => rfl
  size := by
    intro hq
    have h1 := h.size (quantifier_free_And.1 hq)
    have h2 := FormulaSet.length_ofList_le visited
    have h3 := h.length
    have h4 : definitions_size [(bvar, Formula.And (FormulaSet.ofList visited))] =
        (FormulaSet.ofList visited).length + 1 := by
      simp [definitions_size, definition_size]
    rw [definitions_size_append, h4]
    simp only [Formula.node_count]
    omega
  covers := by
    intro hq v hv
    obtain ⟨o, ho, hvo⟩ := mem_GetFreeVariables_And.1 hv
    rcases h.covers (quantifier_free_And.1 hq) o ho v hvo with ⟨x, hx, hvx⟩ | ⟨p, hp, hvp⟩
    · refine Or.inr ⟨(bvar, .And (FormulaSet.ofList visited)), by simp, ?_⟩
      exact mem_GetFreeVariables_And.2 ⟨x, FormulaSet.mem_ofList.2 hx, hvx⟩
    · exact Or.inr ⟨p, List.mem_append_left _ hp, hvp⟩
  exact := by
    intro hq
    have e := h.exact (quantifier_free_And.1 hq)
    have l : ∀ v, ((∃ o ∈ ops, v ∈ o.GetFreeVariables) ∨ ∃ p ∈ Δ, v = p.1) →
        v ∈ (Formula.And ops).GetFreeVariables ∨
          ∃ p ∈ Δ ++ [(bvar, Formula.And (FormulaSet.ofList visited))], v = p.1 := by
      rintro v (⟨o, ho, hvo⟩ | ⟨p, hp, hvp⟩)
      · exact Or.inl (mem_GetFreeVariables_And.2 ⟨o, ho, hvo⟩)
      · exact Or.inr ⟨p, List.mem_append_left _ hp, hvp⟩
    refine ⟨?_, ?_⟩
    · intro v hv
      simp only [Formula.GetFreeVariables, List.mem_singleton] at hv
      exact Or.inr ⟨(bvar, .And (FormulaSet.ofList visited)), by simp, hv⟩
    · intro q hq' v hv
      rcases List.mem_append.1 hq' with hq' | hq'
      · exact l v (e.2 q hq' v hv)
      · simp only [List.mem_singleton] at hq'
        subst hq'
        obtain ⟨x, hx, hvx⟩ := mem_GetFreeVariables_And.1 hv
        exact l v (e.1 x (FormulaSet.mem_ofList.1 hx) v hvx)

theorem VisitFacts_of_Or {ops visited : List Formula} {Δ : DefinitionMap} {n n1 : Nat}
    (h : VisitOperandsFacts ops visited Δ n n1) (bvar : Variable) (hb : bvar.id = n1)
    (ht : bvar.type = .BOOLEAN) :
    VisitFacts (.Or ops) (.Var bvar)
      (Δ ++ [(bvar, .Or (FormulaSet.ofList visited))]) n (n1 + 1) where
  le := by
    have := h.le
    omega
  keys := by
    intro p hp
    have hle := h.le
    rcases List.mem_append.1 hp with hp | hp
    · have := h.keys p hp
      exact ⟨this.1, by omega, this.2.2⟩
    · simp only [List.mem_singleton] at hp
      subst hp
      exact ⟨by simp only; omega, by simp only; omega, ht⟩
  nodup := by
    rw [List.map_append, List.nodup_append]
    refine ⟨h.nodup, by simp, ?_⟩
    intro i hi1 hi2
    obtain ⟨p, hp, rfl⟩ := List.mem_map.1 hi1
    simp only [List.map_cons, List.map_nil, List.mem_singleton] at hi2
    have := h.keys p hp
    omega
  head := Or.inr ⟨bvar, _, Δ, rfl, rfl⟩
  plain := by
    refine ⟨rfl, ?_⟩
    intro p hp
    rcases List.mem_append.1 hp with hp | hp
    · exact h.plain.2 p hp
    · simp only [List.mem_singleton] at hp
      subst hp
      intro x hx
      simp only [head_clauses, is_conjunction, Bool.false_eq_true, if_false,
        List.mem_singleton] at hx
      subst hx
      rfl
  nonempty := by
    intro hn p hp
    rcases List.mem_append.1 hp with hp | hp
    · exact h.nonempty (no_empty_conjunction_Or.1 hn) p hp
    · simp only [List.mem_singleton] at hp
      subst hp
      simp [head_clauses, is_conjunction]
  count := by
    intro hq
    have := h.count (quantifier_free_Or.1 hq)
    simp only [List.length_append, List.length_singleton, Formula.proxy_count]
    omega
  unchanged := fun _ => rfl
  size := by
    intro hq
    have h1 := h.size (quantifier_free_Or.1 hq)
    have h2 := FormulaSet.length_ofList_le visited
    have h3 := h.length
    have h4 : definitions_size [(bvar, Formula.Or (FormulaSet.ofList visited))] =
        (FormulaSet.ofList visited).length + 1 := by
      simp [definitions_size, definition_size]
    rw [definitions_size_append, h4]
    simp only [Formula.node_count]
    omega
  covers := by
    intro hq v hv
    obtain ⟨o, ho, hvo⟩ := mem_GetFreeVariables_Or.1 hv
    rcases h.covers (quantifier_free_Or.1 hq) o ho v hvo with ⟨x, hx, hvx⟩ | ⟨p, hp, hvp⟩
    · refine Or.inr ⟨(bvar, .Or (FormulaSet.ofList visited)), by simp, ?_⟩
      exact mem_GetFreeVariables_Or.2 ⟨x, FormulaSet.mem_ofList.2 hx, hvx⟩
    · exact Or.inr ⟨p, List.mem_append_left _ hp, hvp⟩
  exact := by
    intro hq
    have e := h.exact (quantifier_free_Or.1 hq)
    have l : ∀ v, ((∃ o ∈ ops, v ∈ o.GetFreeVariables) ∨ ∃ p ∈ Δ, v = p.1) →
        v ∈ (Formula.Or ops).GetFreeVariables ∨
          ∃ p ∈ Δ ++ [(bvar, Formula.Or (FormulaSet.ofList visited))], v = p.1 := by
      rintro v (⟨o, ho, hvo⟩ | ⟨p, hp, hvp⟩)
      · exact Or.inl (mem_GetFreeVariables_Or.2 ⟨o, ho, hvo⟩)
      · exact Or.inr ⟨p, List.mem_append_left _ hp, hvp⟩
    refine ⟨?_, ?_⟩
    · intro v hv
      simp only [Formula.GetFreeVariables, List.mem_singleton] at hv
      exact Or.inr ⟨(bvar, .Or (FormulaSet.ofList visited)), by simp, hv⟩
    · intro q hq' v hv
      rcases List.mem_append.1 hq' with hq' | hq'
      · exact l v (e.2 q hq' v hv)
      · simp only [List.mem_singleton] at hq'
        subst hq'
        obtain ⟨x, hx, hvx⟩ := mem_GetFreeVariables_Or.1 hv
        exact l v (e.1 x (FormulaSet.mem_ofList.1 hx) v hvx)

theorem VisitFacts_of_Not {g t : Formula} {Δ : DefinitionMap} {n n2 : Nat}
    (h : VisitFacts g t Δ (n + 1) n2) (bvar : Variable) (hb : bvar.id = n)
    (ht : bvar.type = .BOOLEAN) (hg : is_atomic g = false) :
    VisitFacts (.Not g) (.Var bvar) (Δ ++ [(bvar, t.lnot)]) n n2 where
  le := by
    have := h.le
    omega
  keys := by
    intro p hp
    have hle := h.le
    rcases List.mem_append.1 hp with hp | hp
    · have := h.keys p hp
      exact ⟨by omega, this.2.1, this.2.2⟩
    · simp only [List.mem_singleton] at hp
      subst hp
      exact ⟨by simp only; omega, by simp only; omega, ht⟩
  nodup := by
    rw [List.map_append, List.nodup_append]
    refine ⟨h.nodup, by simp, ?_⟩
    intro i hi1 hi2
    obtain ⟨p, hp, rfl⟩ := List.mem_map.1 hi1
    simp only [List.map_cons, List.map_nil, List.mem_singleton] at hi2
    have := h.keys p hp
    omega
  head := Or.inr ⟨bvar, _, Δ, rfl, rfl⟩
  plain := by
    refine ⟨rfl, ?_⟩
    intro p hp
    rcases List.mem_append.1 hp with hp | hp
    · exact h.plain.2 p hp
    · simp only [List.mem_singleton] at hp
      subst hp
      intro x hx
      simp only [head_clauses_lnot h.plain.1, List.mem_singleton] at hx
      subst hx
      exact is_negated_conjunction_lnot h.plain.1
  nonempty := by
    intro hn p hp
    rcases List.mem_append.1 hp with hp | hp
    · exact h.nonempty (no_empty_conjunction_Not.1 hn) p hp
    · simp only [List.mem_singleton] at hp
      subst hp
      simp [head_clauses_lnot h.plain.1]
  count := by
    intro hq
    have := h.count (quantifier_free_Not.1 hq)
    simp only [List.length_append, List.length_singleton, Formula.proxy_count, hg,
      Bool.false_eq_true, if_false]
    omega
  unchanged := fun _ => rfl
  size := by
    intro hq
    have h1 := h.size (quantifier_free_Not.1 hq)
    have h2 := definition_size_lnot (h.unchanged (quantifier_free_Not.1 hq))
    have h4 : definitions_size [(bvar, t.lnot)] = 2 := by
      simp [definitions_size, h2]
    rw [definitions_size_append, h4]
    simp only [Formula.node_count]
    omega
  covers := by
    intro hq v hv
    simp only [Formula.GetFreeVariables] at hv
    rcases h.covers (quantifier_free_Not.1 hq) v hv with ⟨_, hvt⟩ | ⟨p, hp, hvp⟩
    · refine Or.inr ⟨(bvar, t.lnot), by simp, ?_⟩
      simpa [GetFreeVariables_lnot] using hvt
    · exact Or.inr ⟨p, List.mem_append_left _ hp, hvp⟩
  exact := by
    intro hq
    have e := h.exact (quantifier_free_Not.1 hq)
    have l : ∀ v, (v ∈ g.GetFreeVariables ∨ ∃ p ∈ Δ, v = p.1) →
        v ∈ (Formula.Not g).GetFreeVariables ∨ ∃ p ∈ Δ ++ [(bvar, t.lnot)], v = p.1 := by
      rintro v (hvg | ⟨p, hp, hvp⟩)
      · exact Or.inl (by simpa [Formula.GetFreeVariables] using hvg)
      · exact Or.inr ⟨p, List.mem_append_left _ hp, hvp⟩
    refine ⟨?_, ?_⟩
    · intro v hv
      simp only [Formula.GetFreeVariables, List.mem_singleton] at hv
      exact Or.inr ⟨(bvar, t.lnot), by simp, hv⟩
    · intro q hq' v hv
      rcases List.mem_append.1 hq' with hq' | hq'
      · exact l v (e.2 q hq' v hv)
      · simp only [List.mem_singleton] at hq'
        subst hq'
        simp only [GetFreeVariables_lnot] at hv
        exact l v (e.1 v hv)

theorem VisitFacts_of_Forall_single (vars : List Variable) (body : Formula) {x : Formula}
    {n n1 : Nat} (hle : n ≤ n1) (hx : is_negated_conjunction x = false) :
    VisitFacts (.Forall vars body) (hoist vars x) [] n n1 where
  le := hle
  keys := by simp
  nodup := by simp
  head := Or.inl rfl
  plain := ⟨is_negated_conjunction_hoist vars hx, by simp⟩
  nonempty := by simp
  count := by simp [not_quantifier_free_Forall]
  unchanged := by simp [not_quantifier_free_Forall]
  size := by simp [not_quantifier_free_Forall]
  covers := by simp [not_quantifier_free_Forall]
  exact := by simp [not_quantifier_free_Forall]

theorem VisitFacts_of_Forall_proxy (vars : List Variable) (body : Formula)
    {cnf : List Formula} {n n1 : Nat} (bvar : Variable) (hle : n ≤ n1) (hb : bvar.id = n1)
    (ht : bvar.type = .BOOLEAN) (hp : ∀ x ∈ cnf, is_negated_conjunction x = false)
    (hne : body.no_empty_conjunction = true → cnf ≠ []) :
    VisitFacts (.Forall vars body) (.Var bvar)
      [(bvar, .And (FormulaSet.ofList (cnf.map (hoist vars))))] n (n1 + 1) where
  le := by omega
  keys := by
    intro p hp'
    simp only [List.mem_singleton] at hp'
    subst hp'
    exact ⟨by simp only; omega, by simp only; omega, ht⟩
  nodup := by simp
  head := Or.inr ⟨bvar, _, [], rfl, rfl⟩
  plain := by
    refine ⟨rfl, ?_⟩
    intro p hp'
    simp only [List.mem_singleton] at hp'
    subst hp'
    intro x hx
    simp only [head_clauses, is_conjunction, if_true, get_operands] at hx
    obtain ⟨y, hy, rfl⟩ := List.mem_map.1 (FormulaSet.mem_ofList.1 hx)
    exact is_negated_conjunction_hoist vars (hp y hy)
  nonempty := by
    intro hn p hp'
    simp only [List.mem_singleton] at hp'
    subst hp'
    simp only [head_clauses, is_conjunction, if_true, get_operands]
    apply FormulaSet.ofList_ne_nil
    simpa using hne (no_empty_conjunction_Forall.1 hn)
  count := by simp [not_quantifier_free_Forall]
  unchanged := by simp [not_quantifier_free_Forall]
  size := by simp [not_quantifier_free_Forall]
  covers := by simp [not_quantifier_free_Forall]
  exact := by simp [not_quantifier_free_Forall]

theorem ConvertFrom_of_facts {f head : Formula} {Δ : DefinitionMap} {n n' : Nat}
    {L : List Formula} (h : VisitFacts f head Δ n n')
    (hc : Cnfizer.ConvertFrom head Δ = .ok L) :
    (Δ = [] ∧ L = [head]) ∨
      ∃ p body Δ0 clauses, Δ = Δ0 ++ [(p, body)] ∧ head = .Var p ∧
        (∀ q ∈ Δ0, q.1.id ≠ p.id) ∧
        CnfizeAll Δ0 [] = .ok clauses ∧ L = clauses ++ head_clauses body := by
  rcases h.head with hΔ | ⟨p, body, Δ0, hΔ, hr⟩
  · subst hΔ
    simp only [Cnfizer.ConvertFrom, List.isEmpty_nil, if_true, Except.ok.injEq] at hc
    exact Or.inl ⟨rfl, hc.symm⟩
  · subst hΔ hr
    have hne : ∀ q ∈ Δ0, q.1.id ≠ p.id := by
      intro q hq he
      have := h.nodup
      rw [List.map_append, List.nodup_append] at this
      exact this.2.2 (List.mem_map.2 ⟨q, hq, rfl⟩) (by simp [he])
    have he : (Δ0 ++ [(p, body)]).isEmpty = false := by
      cases Δ0 <;> rfl
    simp only [Cnfizer.ConvertFrom, he, Bool.false_eq_true, if_false] at hc
    rw [ConvertLoop_head p body Δ0 [] hne] at hc
    cases hcl : CnfizeAll Δ0 [] with
    | error e => simp [hcl] at hc
    | ok clauses =>
      simp only [hcl, Except.ok.injEq] at hc
      exact Or.inr ⟨p, body, Δ0, clauses, rfl, rfl, hne, hcl, hc.symm⟩

theorem ConvertFrom_plain {f head : Formula} {Δ : DefinitionMap} {n n' : Nat}
    {L : List Formula} (h : VisitFacts f head Δ n n')
    (hc : Cnfizer.ConvertFrom head Δ = .ok L) :
    (∀ x ∈ L, is_negated_conjunction x = false) ∧
      (f.no_empty_conjunction = true → L ≠ []) := by
  rcases ConvertFrom_of_facts h hc with ⟨hΔ, hL⟩ | ⟨p, body, Δ0, clauses, hΔ, hr, _, hcl, hL⟩
  · subst hL
    exact ⟨by simpa using h.plain.1, by simp⟩
  · subst hL
    refine ⟨?_, ?_⟩
    · intro x hx
      rcases List.mem_append.1 hx with hx | hx
      · obtain ⟨q, _, c1, h1, h2⟩ := mem_CnfizeAll hcl hx
        exact Cnfize_plain h1 h2
      · exact h.plain.2 (p, body) (by rw [hΔ]; simp) x hx
    · intro hn he
      have := h.nonempty hn (p, body) (by rw [hΔ]; simp)
      simp only [List.append_eq_nil] at he
      exact this he.2

mutual
theorem Visit_facts : ∀ (f : Formula) (c : Cnfizer) (g : Globals) (r : Formula)
    (c' : Cnfizer) (g' : Globals), Cnfizer.Visit f c g = .ok (r, c', g') →
    (∀ p ∈ c.map_, p.1.id < g.next_id) →
    ∃ Δ, c'.map_ = c.map_ ++ Δ ∧ VisitFacts f r Δ g.next_id g'.next_id
  | .False, c, g, r, c', g', h, _ => by
    simp only [Cnfizer.Visit, Except.ok.injEq, Prod.mk.injEq] at h
    obtain ⟨rfl, rfl, rfl⟩ := h
    exact ⟨[], by simp, VisitFacts_leaf _ rfl⟩
  | .True, c, g, r, c', g', h, _ => by
    simp only [Cnfizer.Visit, Except.ok.injEq, Prod.mk.injEq] at h
    obtain ⟨rfl, rfl, rfl⟩ := h
    exact ⟨[], by simp, VisitFacts_leaf _ rfl⟩
  | .Var v, c, g, r, c', g', h, _ => by
    simp only [Cnfizer.Visit, Except.ok.injEq, Prod.mk.injEq] at h
    obtain ⟨rfl, rfl, rfl⟩ := h
    exact ⟨[], by simp, VisitFacts_leaf _ rfl⟩
  | .Eq a b, c, g, r, c', g', h, _ => by
    simp only [Cnfizer.Visit, Except.ok.injEq, Prod.mk.injEq] at h
    obtain ⟨rfl, rfl, rfl⟩ := h
    exact ⟨[], by simp, VisitFacts_leaf _ rfl⟩
  | .Neq a b, c, g, r, c', g', h, _ => by
    simp only [Cnfizer.Visit, Except.ok.injEq, Prod.mk.injEq] at h
    obtain ⟨rfl, rfl, rfl⟩ := h
    exact ⟨[], by simp, VisitFacts_leaf _ rfl⟩
  | .Gt a b, c, g, r, c', g', h, _ => by
    simp only [Cnfizer.Visit, Except.ok.injEq, Prod.mk.injEq] at h
    obtain ⟨rfl, rfl, rfl⟩ := h
    exact ⟨[], by simp, VisitFacts_leaf _ rfl⟩
  | .Geq a b, c, g, r, c', g', h, _ => by
    simp only [Cnfizer.Visit, Except.ok.injEq, Prod.mk.injEq] at h
    obtain ⟨rfl, rfl, rfl⟩ := h
    exact ⟨[], by simp, VisitFacts_leaf _ rfl⟩
  | .Lt a b, c, g, r, c', g', h, _ => by
    simp only [Cnfizer.Visit, Except.ok.injEq, Prod.mk.injEq] at h
    obtain ⟨rfl, rfl, rfl⟩ := h
    exact ⟨[], by simp, VisitFacts_leaf _ rfl⟩
  | .Leq a b, c, g, r, c', g', h, _ => by
    simp only [Cnfizer.Visit, Except.ok.injEq, Prod.mk.injEq] at h
    obtain ⟨rfl, rfl, rfl⟩ := h
    exact ⟨[], by simp, VisitFacts_leaf _ rfl⟩
  | .Forall vars body, c, g, r, c', g', h, hk => by
    obtain ⟨cnf, c1, g1, hconv, hcase⟩ := Visit_Forall_ok h
    obtain ⟨head, hv, hfrom⟩ := Convert_ok hconv
    obtain ⟨Δ1, hΔ1, hf1⟩ := Visit_facts body ⟨[]⟩ g head c1 g1 hv (by simp)
    simp only [List.nil_append] at hΔ1
    rw [hΔ1] at hfrom
    have hplain := ConvertFrom_plain hf1 hfrom
    rcases hcase with ⟨x, hx, rfl, rfl, rfl⟩ | ⟨hlen, rfl, rfl, rfl⟩
    · refine ⟨[], by simp, ?_⟩
      exact VisitFacts_of_Forall_single vars body hf1.le (hplain.1 x (by simp [hx]))
    · have hfresh : ∀ p ∈ c.map_, p.1.id ≠ g1.next_id := by
        intro p hp
        have := hk p hp
        have := hf1.le
        omega
      refine ⟨[(⟨g1.next_id, "forall" ++ toString g1.forall_id, .BOOLEAN⟩,
        .And (FormulaSet.ofList (cnf.map (hoist vars))))], ?_, ?_⟩
      · simp only
        rw [DefinitionMap.emplace_fresh _ _ _ hfresh]
      · exact VisitFacts_of_Forall_proxy vars body _ hf1.le rfl rfl hplain.1 hplain.2
  | .And ops, c, g, r, c', g', h, hk => by
    obtain ⟨visited, c1, g1, hv, rfl, rfl, rfl⟩ := Visit_And_ok h
    obtain ⟨Δ, hΔ, hf⟩ := VisitOperands_facts ops c g visited c1 g1 hv hk
    have hfresh : ∀ p ∈ c1.map_, p.1.id ≠ g1.next_id := by
      intro p hp
      rw [hΔ] at hp
      have hle := hf.le
      rcases List.mem_append.1 hp with hp | hp
      · have := hk p hp
        omega
      · have := hf.keys p hp
        omega
    refine ⟨Δ ++ [(⟨g1.next_id, "conj" ++ toString g1.conj_id, .BOOLEAN⟩,
      .And (FormulaSet.ofList visited))], ?_, ?_⟩
    · simp only
      rw [DefinitionMap.emplace_fresh _ _ _ hfresh, hΔ, List.append_assoc]
    · exact VisitFacts_of_And hf _ rfl rfl
  | .Or ops, c, g, r, c', g', h, hk => by
    obtain ⟨visited, c1, g1, hv, rfl, rfl, rfl⟩ := Visit_Or_ok h
    obtain ⟨Δ, hΔ, hf⟩ := VisitOperands_facts ops c g visited c1 g1 hv hk
    have hfresh : ∀ p ∈ c1.map_, p.1.id ≠ g1.next_id := by
      intro p hp
      rw [hΔ] at hp
      have hle := hf.le
      rcases List.mem_append.1 hp with hp | hp
      · have := hk p hp
        omega
      · have := hf.keys p hp
        omega
    refine ⟨Δ ++ [(⟨g1.next_id, "disj" ++ toString g1.disj_id, .BOOLEAN⟩,
      .Or (FormulaSet.ofList visited))], ?_, ?_⟩
    · simp only
      rw [DefinitionMap.emplace_fresh _ _ _ hfresh, hΔ, List.append_assoc]
    · exact VisitFacts_of_Or hf _ rfl rfl
  | .Not operand, c, g, r, c', g', h, hk => by
    by_cases ha : is_atomic operand = true
    · simp only [Cnfizer.Visit, ha, if_true, Except.ok.injEq, Prod.mk.injEq] at h
      obtain ⟨rfl, rfl, rfl⟩ := h
      exact ⟨[], by simp, VisitFacts_leaf _ ha⟩
    · have ha' : is_atomic operand = false := by simpa using ha
      obtain ⟨t, c1, hv, rfl, rfl⟩ := Visit_Not_ok ha' h
      obtain ⟨Δ, hΔ, hf⟩ := Visit_facts operand c { g with next_id := g.next_id + 1 } t c1 g'
        hv (fun p hp => Nat.lt_succ_of_lt (hk p hp))
      have hfresh : ∀ p ∈ c1.map_, p.1.id ≠ g.next_id := by
        intro p hp
        rw [hΔ] at hp
        rcases List.mem_append.1 hp with hp | hp
        · have := hk p hp
          omega
        · have := hf.keys p hp
          simp only at this
          omega
      refine ⟨Δ ++ [(⟨g.next_id, "neg", .BOOLEAN⟩, t.lnot)], ?_, ?_⟩
      · simp only
        rw [DefinitionMap.emplace_fresh _ _ _ hfresh, hΔ, List.append_assoc]
      · exact VisitFacts_of_Not hf _ rfl rfl ha'
theorem VisitOperands_facts : ∀ (ops : List Formula) (c : Cnfizer) (g : Globals)
    (visited : List Formula) (c' : Cnfizer) (g' : Globals),
    Cnfizer.VisitOperands ops c g = .ok (visited, c', g') →
    (∀ p ∈ c.map_, p.1.id < g.next_id) →
    ∃ Δ, c'.map_ = c.map_ ++ Δ ∧ VisitOperandsFacts ops visited Δ g.next_id g'.next_id
  | [], c, g, visited, c', g', h, _ => by
    simp only [Cnfizer.VisitOperands, Except.ok.injEq, Prod.mk.injEq] at h
    obtain ⟨rfl, rfl, rfl⟩ := h
    exact ⟨[], by simp, VisitOperandsFacts_nil _⟩
  | f :: fs, c, g, visited, c', g', h, hk => by
    obtain ⟨r1, c1, g1, vis, hv1, hv2, rfl⟩ := VisitOperands_cons_ok h
    obtain ⟨Δ1, hΔ1, hf1⟩ := Visit_facts f c g r1 c1 g1 hv1 hk
    have hk1 : ∀ p ∈ c1.map_, p.1.id < g1.next_id := by
      intro p hp
      rw [hΔ1] at hp
      have hle := hf1.le
      rcases List.mem_append.1 hp with hp | hp
      · have := hk p hp
        omega
      · exact (hf1.keys p hp).2.1
    obtain ⟨Δ2, hΔ2, hf2⟩ := VisitOperands_facts fs c1 g1 vis c' g' hv2 hk1
    refine ⟨Δ1 ++ Δ2, ?_, VisitOperandsFacts_cons hf1 hf2⟩
    rw [hΔ2, hΔ1, List.append_assoc]
end

/-! ## The size of the result -/

theorem clause_size_of_not_Or {y : Formula} (h : ∀ ops, y = Formula.Or ops → False) :
    clause_size y = 1 := by
  cases y <;> simp_all [clause_size]

theorem clause_size_lor (x y : Formula) :
    clause_size (x.lor y) ≤ clause_size x + clause_size y := by
  by_cases h1 : (is_true x || is_true y) = true
  · have he : x.lor y = .True := by simp [Formula.lor, h1]
    rw [he]
    rcases Bool.or_eq_true_iff.1 h1 with h | h
    · cases x <;> simp_all [is_true, clause_size]
    · cases y <;> simp_all [is_true, clause_size]
  · by_cases h2 : is_false x = true
    · have he : x.lor y = y := by simp [Formula.lor, h1, h2]
      rw [he]
      omega
    · by_cases h3 : is_false y = true
      · have he : x.lor y = x := by simp [Formula.lor, h1, h2, h3]
        rw [he]
        omega
      · simp only [Formula.lor, h1, h2, h3, Bool.false_eq_true, if_false]
        cases x <;> cases y <;> simp only [clause_size] <;>
          first
          | exact FormulaSet.length_foldl_insert_le _ _
          | exact FormulaSet.length_insert_le _ _
          | (rw [Nat.add_comm]; exact FormulaSet.length_insert_le _ _)

theorem clause_size_of_unchanged {x : Formula} (h : returned_unchanged x = true) :
    clause_size x = 1 := by
  cases x <;> simp_all [returned_unchanged, is_atomic, clause_size]

theorem clause_size_lnot_of_unchanged {x : Formula} (h : returned_unchanged x = true) :
    clause_size x.lnot = 1 := by
  cases x with
  | Not g => cases g <;> simp_all [returned_unchanged, is_atomic, Formula.lnot, clause_size]
  | _ => simp_all [returned_unchanged, is_atomic, Formula.lnot, clause_size]

theorem total_size_append (l1 l2 : List Formula) :
    total_size (l1 ++ l2) = total_size l1 + total_size l2 := by
  simp [total_size]

theorem length_Add_le (f : Formula) (clauses : List Formula) :
    (Add f clauses).length ≤ clauses.length + 1 := by
  rw [Add_eq]
  split <;> simp

theorem total_size_Add_le (f : Formula) (clauses : List Formula) :
    total_size (Add f clauses) ≤ total_size clauses + clause_size f := by
  rw [Add_eq, total_size_append]
  split <;> simp [total_size]

theorem length_foldl_Add_le (F : Formula → Formula) :
    ∀ (l clauses : List Formula),
      (l.foldl (fun acc x => Add (F x) acc) clauses).length ≤ clauses.length + l.length
  | [], clauses => by simp
  | x :: xs, clauses => by
    have h1 := length_foldl_Add_le F xs (Add (F x) clauses)
    have h2 := length_Add_le (F x) clauses
    simp only [List.foldl_cons, List.length_cons]
    omega

theorem total_size_foldl_Add_le (F : Formula → Formula) (k : Nat) :
    ∀ (l clauses : List Formula), (∀ x ∈ l, clause_size (F x) ≤ k) →
      total_size (l.foldl (fun acc x => Add (F x) acc) clauses) ≤
        total_size clauses + k * l.length
  | [], clauses, _ => by simp
  | x :: xs, clauses, h => by
    have h1 := total_size_foldl_Add_le F k xs (Add (F x) clauses)
      (fun y hy => h y (List.mem_cons_of_mem _ hy))
    have h2 := total_size_Add_le (F x) clauses
    have h3 := h x (List.mem_cons_self _ _)
    simp only [List.foldl_cons, List.length_cons, Nat.mul_add, Nat.mul_one]
    omega

theorem total_size_le_length :
    ∀ (l : List Formula), (∀ x ∈ l, clause_size x ≤ 1) → total_size l ≤ l.length
  | [], _ => by simp [total_size]
  | x :: xs, h => by
    have h1 := total_size_le_length xs (fun y hy => h y (List.mem_cons_of_mem _ hy))
    have h2 := h x (List.mem_cons_self _ _)
    simp only [total_size, List.map_cons, List.sum_cons, List.length_cons] at h1 ⊢
    omega

theorem length_Cnfize {b : Variable} {f : Formula} {clauses : List Formula}
    (h : Cnfize b f [] = .ok clauses) : clauses.length ≤ definition_size f := by
  cases f <;> simp only [Cnfize, Formula.get_kind, Except.ok.injEq] at h <;> try contradiction
  · next ops =>
    subst h
    simp only [CnfizeConjunction, get_operands, definition_size]
    have h1 := length_Add_le
      ((make_disjunction (FormulaSet.map ops (fun formula => formula.lnot))).lor (.Var b))
      (ops.foldl (fun acc b_i => Add (((Formula.Var b).lnot).lor b_i) acc) [])
    have h2 := length_foldl_Add_le (fun b_i => ((Formula.Var b).lnot).lor b_i) ops []
    simp only [List.length_nil] at h2
    omega
  · next ops =>
    subst h
    simp only [CnfizeDisjunction, get_operands, definition_size]
    have h1 := length_foldl_Add_le (fun neg_b_i => neg_b_i.lor (.Var b))
      (FormulaSet.map ops (fun formula => formula.lnot))
      (Add (((Formula.Var b).lnot).lor (.Or ops)) [])
    have h2 := length_Add_le (((Formula.Var b).lnot).lor (.Or ops)) []
    have h3 := FormulaSet.length_map_le ops (fun formula => formula.lnot)
    simp only [List.length_nil] at h2
    omega
  · next g =>
    subst h
    simp only [CnfizeNegation, AddIff, definition_size]
    have h1 := length_Add_le (imply (.Not g) (.Var b)) (Add (imply (.Var b) (.Not g)) [])
    have h2 := length_Add_le (imply (.Var b) (.Not g)) []
    simp only [List.length_nil] at h2
    omega

theorem total_size_Cnfize {b : Variable} {f : Formula} {clauses : List Formula}
    (hs : definition_shape f = true) (h : Cnfize b f [] = .ok clauses) :
    total_size clauses ≤ 3 * definition_size f := by
  cases f <;> simp only [Cnfize, Formula.get_kind, Except.ok.injEq] at h <;> try contradiction
  · next ops =>
    subst h
    simp only [definition_shape, List.all_eq_true] at hs
    simp only [CnfizeConjunction, get_operands, definition_size, make_disjunction]
    have h1 := total_size_Add_le
      ((Formula.Or (FormulaSet.map ops (fun formula => formula.lnot))).lor (.Var b))
      (ops.foldl (fun acc b_i => Add (((Formula.Var b).lnot).lor b_i) acc) [])
    have h2 := total_size_foldl_Add_le (fun b_i => ((Formula.Var b).lnot).lor b_i) 2 ops []
      (by
        intro x hx
        have := clause_size_lor ((Formula.Var b).lnot) x
        have := clause_size_of_unchanged (hs x hx)
        simp only [Formula.lnot, clause_size] at *
        omega)
    have h3 := clause_size_lor
      (Formula.Or (FormulaSet.map ops (fun formula => formula.lnot))) (.Var b)
    have h4 := FormulaSet.length_map_le ops (fun formula => formula.lnot)
    simp only [clause_size, total_size, List.map_nil, List.sum_nil] at h1 h2 h3 ⊢
    omega
  · next ops =>
    subst h
    simp only [definition_shape, List.all_eq_true] at hs
    simp only [CnfizeDisjunction, get_operands, definition_size]
    have h1 := total_size_foldl_Add_le (fun neg_b_i => neg_b_i.lor (.Var b)) 2
      (FormulaSet.map ops (fun formula => formula.lnot))
      (Add (((Formula.Var b).lnot).lor (.Or ops)) [])
      (by
        intro x hx
        obtain ⟨y, hy, rfl⟩ := FormulaSet.mem_map.1 hx
        have := clause_size_lor y.lnot (.Var b)
        have := clause_size_lnot_of_unchanged (hs y hy)
        simp only [clause_size] at *
        omega)
    have h2 := total_size_Add_le (((Formula.Var b).lnot).lor (.Or ops)) []
    have h3 := clause_size_lor ((Formula.Var b).lnot) (.Or ops)
    have h4 := FormulaSet.length_map_le ops (fun formula => formula.lnot)
    have h5 : clause_size ((Formula.Var b).lnot) = 1 := rfl
    have h6 : clause_size (Formula.Or ops) = ops.length := rfl
    rw [h5, h6] at h3
    simp only [total_size, List.map_nil, List.sum_nil] at h1 h2 ⊢
    omega
  · next g =>
    subst h
    simp only [CnfizeNegation, AddIff, definition_size]
    cases g <;> simp only [definition_shape, Bool.false_eq_true] at hs
    next q =>
    have h1 := total_size_Add_le (imply (.Not (.Var q)) (.Var b))
      (Add (imply (.Var b) (.Not (.Var q))) [])
    have h2 := total_size_Add_le (imply (.Var b) (.Not (.Var q))) []
    have h3 := clause_size_lor ((Formula.Var b).lnot) (.Not (.Var q))
    have h4 := clause_size_lor ((Formula.Not (.Var q)).lnot) (.Var b)
    simp only [clause_size, total_size, List.map_nil, List.sum_nil, Formula.lnot, imply]
      at h1 h2 h3 h4 ⊢
    omega

theorem size_CnfizeAll :
    ∀ (m : DefinitionMap) (clauses : List Formula), CnfizeAll m [] = .ok clauses →
      clauses.length ≤ definitions_size m ∧
        ((∀ p ∈ m, definition_shape p.2 = true) → total_size clauses ≤ 3 * definitions_size m)
  | [], clauses, h => by
    simp only [CnfizeAll, Except.ok.injEq] at h
    subst h
    simp [definitions_size, total_size]
  | p :: rest, clauses, h => by
    simp only [CnfizeAll] at h
    cases h1 : Cnfize p.1 p.2 [] with
    | error e => simp [h1] at h
    | ok c1 =>
      simp only [h1] at h
      rw [CnfizeAll_append] at h
      cases h2 : CnfizeAll rest [] with
      | error e => simp [h2] at h
      | ok c2 =>
        simp only [h2, Except.ok.injEq] at h
        subst h
        have ih := size_CnfizeAll rest c2 h2
        have l1 := length_Cnfize h1
        have hd : definitions_size (p :: rest) = definition_size p.2 + definitions_size rest := by
          simp [definitions_size]
        refine ⟨?_, ?_⟩
        · rw [hd, List.length_append]
          omega
        · intro hs
          have t1 := total_size_Cnfize (hs p (List.mem_cons_self _ _)) h1
          have t2 := ih.2 (fun q hq => hs q (List.mem_cons_of_mem _ hq))
          rw [hd, total_size_append]
          omega

theorem size_head_clauses (body : Formula) :
    (head_clauses body).length ≤ definition_size body ∧
      (definition_shape body = true →
        total_size (head_clauses body) ≤ 3 * definition_size body) := by
  cases body with
  | And ops =>
    simp only [head_clauses, is_conjunction, if_true, get_operands, definition_size,
      definition_shape, List.all_eq_true]
    refine ⟨by omega, ?_⟩
    intro hs
    have := total_size_le_length ops
      (fun x hx => Nat.le_of_eq (clause_size_of_unchanged (hs x hx)))
    omega
  | Or ops =>
    simp only [head_clauses, is_conjunction, Bool.false_eq_true, if_false, definition_size,
      total_size, List.map_cons, List.map_nil, List.sum_cons, List.sum_nil, clause_size,
      List.length_singleton]
    exact ⟨by omega, fun _ => by omega⟩
  | _ =>
    simp [head_clauses, is_conjunction, definition_size, total_size, clause_size]

/-! ## The variables of the result -/

theorem mem_GetFreeVariables_lor_iff {v : Variable} {f1 f2 : Formula}
    (h1 : is_true f1 = false) (h2 : is_true f2 = false) :
    v ∈ (f1.lor f2).GetFreeVariables ↔ v ∈ f1.GetFreeVariables ∨ v ∈ f2.GetFreeVariables := by
  unfold Formula.lor
  by_cases h3 : is_false f1 = true
  · cases f1 <;> simp_all [is_false, is_true, Formula.GetFreeVariables]
  by_cases h4 : is_false f2 = true
  · cases f2 <;> simp_all [is_false, is_true, Formula.GetFreeVariables]
  simp only [h1, h2, h3, h4, Bool.or_self, Bool.false_eq_true, if_false]
  split
  · simp only [mem_GetFreeVariables_Or, FormulaSet.mem_foldl_insert]
    constructor
    · rintro ⟨x, hx | hx, hh⟩
      · exact Or.inl ⟨x, hx, hh⟩
      · exact Or.inr ⟨x, hx, hh⟩
    · rintro (⟨x, hx, hh⟩ | ⟨x, hx, hh⟩)
      · exact ⟨x, Or.inl hx, hh⟩
      · exact ⟨x, Or.inr hx, hh⟩
  · simp only [mem_GetFreeVariables_Or, FormulaSet.mem_insert]
    constructor
    · rintro ⟨x, rfl | hx, hh⟩
      · exact Or.inr hh
      · exact Or.inl ⟨x, hx, hh⟩
    · rintro (⟨x, hx, hh⟩ | hh)
      · exact ⟨x, Or.inr hx, hh⟩
      · exact ⟨_, Or.inl rfl, hh⟩
  · simp only [mem_GetFreeVariables_Or, FormulaSet.mem_insert]
    constructor
    · rintro ⟨x, rfl | hx, hh⟩
      · exact Or.inl hh
      · exact Or.inr ⟨x, hx, hh⟩
    · rintro (hh | ⟨x, hx, hh⟩)
      · exact ⟨_, Or.inl rfl, hh⟩
      · exact ⟨x, Or.inr hx, hh⟩
  · simp only [mem_GetFreeVariables_Or, FormulaSet.mem_insert, List.not_mem_nil, or_false]
    constructor
    · rintro ⟨x, rfl | rfl, hh⟩
      · exact Or.inr hh
      · exact Or.inl hh
    · rintro (hh | hh)
      · exact ⟨_, Or.inr rfl, hh⟩
      · exact ⟨_, Or.inl rfl, hh⟩

theorem is_true_lor {f1 f2 : Formula} (h1 : is_true f1 = false) (h2 : is_true f2 = false)
    (h : is_false f1 = false ∨ is_false f2 = false) : is_true (f1.lor f2) = false := by
  rcases lor_cases f1 f2 with he | ⟨_, he⟩ | ⟨_, he⟩ | ⟨l, he⟩
  · exfalso
    unfold Formula.lor at he
    simp only [h1, h2, Bool.or_self, Bool.false_eq_true, if_false] at he
    split at he
    · next hf =>
      rcases h with h | h
      · simp [h] at hf
      · subst he
        simp [is_true] at h2
    · split at he
      · next hf =>
        subst he
        simp [is_true] at h1
      · split at he <;> simp at he
  · rw [he]; exact h2
  · rw [he]; exact h1
  · rw [he]; rfl

theorem mem_foldl_Add_of_mem {cl : Formula} (F : Formula → Formula) :
    ∀ {l clauses : List Formula}, cl ∈ clauses →
      cl ∈ l.foldl (fun acc x => Add (F x) acc) clauses
  | [], clauses, h => by simpa using h
  | y :: ys, clauses, h => by
    simp only [List.foldl_cons]
    apply mem_foldl_Add_of_mem F
    rw [Add_eq]
    exact List.mem_append_left _ h

theorem mem_Add_self {f : Formula} {clauses : List Formula} (h : is_true f = false) :
    f ∈ Add f clauses := by
  simp [Add_eq, h]

/-- Every variable of `f` occurs in a clause that `Cnfize` emits for the
definition `b ⇔ f`. -/
theorem Cnfize_covers {b : Variable} {f : Formula} {clauses : List Formula}
    (h : Cnfize b f [] = .ok clauses) :
    ∀ v ∈ f.GetFreeVariables, ∃ cl ∈ clauses, v ∈ cl.GetFreeVariables := by
  intro v hv
  cases f <;> simp only [Cnfize, Formula.get_kind, Except.ok.injEq] at h <;> try contradiction
  · next ops =>
    subst h
    refine ⟨(make_disjunction (FormulaSet.map ops (fun formula => formula.lnot))).lor (.Var b),
      ?_, ?_⟩
    · simp only [CnfizeConjunction, get_operands]
      exact mem_Add_self (is_true_lor rfl rfl (Or.inr rfl))
    · refine (mem_GetFreeVariables_lor_iff (by rfl) (by rfl)).2 (Or.inl ?_)
      obtain ⟨x, hx, hvx⟩ := mem_GetFreeVariables_And.1 hv
      simp only [make_disjunction]
      refine mem_GetFreeVariables_Or.2 ⟨x.lnot, FormulaSet.mem_map.2 ⟨x, hx, rfl⟩, ?_⟩
      rw [GetFreeVariables_lnot]
      exact hvx
  · next ops =>
    subst h
    refine ⟨((Formula.Var b).lnot).lor (.Or ops), ?_, ?_⟩
    · simp only [CnfizeDisjunction, get_operands]
      apply mem_foldl_Add_of_mem
      exact mem_Add_self (is_true_lor rfl rfl (Or.inr rfl))
    · exact (mem_GetFreeVariables_lor_iff (by rfl) (by rfl)).2 (Or.inr hv)
  · next g =>
    subst h
    refine ⟨imply (.Var b) (.Not g), ?_, ?_⟩
    · simp only [CnfizeNegation, AddIff]
      rw [Add_eq]
      exact List.mem_append_left _ (mem_Add_self (is_true_lor rfl rfl (Or.inr rfl)))
    · unfold imply
      exact (mem_GetFreeVariables_lor_iff (by rfl) (by rfl)).2 (Or.inr hv)

theorem CnfizeAll_subset {cl : Formula} :
    ∀ {m : DefinitionMap} {clauses : List Formula}, CnfizeAll m [] = .ok clauses →
      ∀ p ∈ m, ∀ new_clauses, Cnfize p.1 p.2 [] = .ok new_clauses → cl ∈ new_clauses →
        cl ∈ clauses
  | [], clauses, _, p, hp, _, _, _ => by simp at hp
  | q :: rest, clauses, h, p, hp, new_clauses, hn, hcl => by
    simp only [CnfizeAll] at h
    cases h1 : Cnfize q.1 q.2 [] with
    | error e => simp [h1] at h
    | ok c1 =>
      simp only [h1] at h
      rw [CnfizeAll_append] at h
      cases h2 : CnfizeAll rest [] with
      | error e => simp [h2] at h
      | ok c2 =>
        simp only [h2, Except.ok.injEq] at h
        subst h
        rcases List.mem_cons.1 hp with rfl | hp
        · rw [h1] at hn
          simp only [Except.ok.injEq] at hn
          subst hn
          exact List.mem_append_left _ hcl
        · exact List.mem_append_right _ (CnfizeAll_subset h2 p hp new_clauses hn hcl)

theorem mem_head_clauses_vars {v : Variable} (body : Formula) :
    (∃ cl ∈ head_clauses body, v ∈ cl.GetFreeVariables) ↔ v ∈ body.GetFreeVariables := by
  by_cases hc : is_conjunction body = true
  · cases body <;> simp [is_conjunction] at hc
    simp [head_clauses, is_conjunction, get_operands, mem_GetFreeVariables_And]
  · simp [head_clauses, hc]

/-! ## Proxies, size and variables of the result of `Convert` -/

theorem Convert_facts {c c' : Cnfizer} {f : Formula} {g g' : Globals} {L : List Formula}
    (h : Cnfizer.Convert c f g = .ok (L, c', g')) :
    ∃ head, VisitFacts f head c'.map_ g.next_id g'.next_id ∧
      Cnfizer.ConvertFrom head c'.map_ = .ok L := by
  obtain ⟨head, hv, hfrom⟩ := Convert_ok h
  obtain ⟨Δ, hΔ, hf⟩ := Visit_facts f ⟨[]⟩ g head c' g' hv (by simp)
  simp only [List.nil_append] at hΔ
  rw [← hΔ] at hf
  exact ⟨head, hf, hfrom⟩

theorem Convert_ok_of_quantifier_free (c : Cnfizer) (f : Formula) (g : Globals)
    (hq : f.quantifier_free = true) (hw : f.well_formed = true) :
    ∃ L c' g', Cnfizer.Convert c f g = .ok (L, c', g') ∧
      ∀ p ∈ c'.map_, definition_shape p.2 = true := by
  obtain ⟨r, Δ, g', _, hinv, hc⟩ := Convert_quantifier_free c f g hq hw
  rcases hc with ⟨_, _, hconv⟩ | ⟨_, _, _, clauses, _, _, _, hconv⟩
  · exact ⟨_, _, _, hconv, by simp⟩
  · exact ⟨_, _, _, hconv, hinv.shape⟩

/-- C14 (amended). Linear size in the number of nodes: for a well-formed
quantifier-free formula `f` with `N` nodes (constants, variables and atoms
included), `Convert` returns a list with at most `2·N` elements and at most
`6·N` literal occurrences over all its elements. -/
theorem Convert_linear_size (c : Cnfizer) (f : Formula) (g : Globals)
    (hq : f.quantifier_free = true) (hw : f.well_formed = true) :
    ∃ L c' g', Cnfizer.Convert c f g = .ok (L, c', g') ∧
      L.length ≤ 2 * f.node_count ∧ total_size L ≤ 6 * f.node_count := by
  obtain ⟨L, c', g', h, hshape⟩ := Convert_ok_of_quantifier_free c f g hq hw
  obtain ⟨head, hf, hfrom⟩ := Convert_facts h
  refine ⟨L, c', g', h, ?_⟩
  have hN := node_count_pos f
  rcases ConvertFrom_of_facts hf hfrom with
    ⟨_, hL⟩ | ⟨p, body, Δ0, clauses, hΔ, _, _, hcl, hL⟩
  · subst hL
    have := clause_size_of_unchanged (hf.unchanged hq)
    simp only [List.length_singleton, total_size, List.map_cons, List.map_nil,
      List.sum_cons, List.sum_nil]
    omega
  · subst hL
    have h1 := size_CnfizeAll Δ0 clauses hcl
    have h2 := h1.2 (fun q hq' => hshape q (by rw [hΔ]; exact List.mem_append_left _ hq'))
    have h3 := size_head_clauses body
    have h4 := h3.2 (hshape (p, body) (by rw [hΔ]; simp))
    have h5 := hf.size hq
    have h6 : definitions_size c'.map_ = definitions_size Δ0 + definition_size body := by
      rw [hΔ, definitions_size_append]
      simp [definitions_size]
    rw [List.length_append, total_size_append]
    omega

/-- C14, witness: the amended claim at `¬(a ∧ b)`. -/
theorem Convert_linear_size_witness :
    ∃ L c' g', Cnfizer.Convert ⟨[]⟩ Scenario.S2 Scenario.start = .ok (L, c', g') ∧
      L.length ≤ 2 * Scenario.S2.node_count ∧ total_size L ≤ 6 * Scenario.S2.node_count :=
  Convert_linear_size ⟨[]⟩ Scenario.S2 Scenario.start rfl rfl

theorem compound_count_of_variables (F : Nat → Variable) :
    ∀ l : List Nat, compound_count_of_operands (l.map (fun i => Formula.Var (F i))) = 0
  | [] => rfl
  | i :: l => by
    simp [compound_count_of_operands, Formula.compound_count, compound_count_of_variables F l]

theorem Convert_wide (n : Nat) :
    (Scenario.wide n).quantifier_free = true ∧ (Scenario.wide n).well_formed = true ∧
    (Scenario.wide n).vars_below n ∧ (Scenario.wide n).compound_count = 1 ∧
    ∃ L c' g', Cnfizer.Convert ⟨[]⟩ (Scenario.wide n) ⟨n, 0, 0, 0⟩ = .ok (L, c', g') ∧
      L.length = 1 ∧ total_size L = n := by
  refine ⟨?_, ?_, ?_, ?_, ?_⟩
  · rw [Scenario.wide, quantifier_free_Or]
    intro x hx
    obtain ⟨i, _, rfl⟩ := List.mem_map.1 hx
    rfl
  · rw [Scenario.wide, well_formed_Or]
    intro x hx
    obtain ⟨i, _, rfl⟩ := List.mem_map.1 hx
    rfl
  · rw [Scenario.wide, vars_below_Or]
    intro x hx v hv
    obtain ⟨i, hi, rfl⟩ := List.mem_map.1 hx
    simp only [Formula.GetFreeVariables, List.mem_singleton] at hv
    subst hv
    simpa using hi
  · simp only [Scenario.wide, Formula.compound_count]
    rw [compound_count_of_variables (fun i => { id := i, name := "x", type := .BOOLEAN })]
  · refine ⟨_, _, _, Convert_Or_of_unchanged ⟨[]⟩ _ _ ?_, rfl, ?_⟩
    · intro x hx
      obtain ⟨i, _, rfl⟩ := List.mem_map.1 hx
      rfl
    · simp only [total_size, List.map_cons, List.map_nil, List.sum_cons, List.sum_nil,
        clause_size, Nat.add_zero]
      rw [FormulaSet.length_ofList]
      · simp
      · refine (List.nodup_range n).map ?_
        intro i j hij
        simpa using hij

/-- C14, counterexample: the disjunction of `n` Boolean variables has one
compound node, and `Convert` returns it as one element with `n` literal
occurrences; so no constant `k` bounds the number of literal occurrences of the
result by `k·(n + 1)` with `n` the number of compound nodes. -/
theorem Convert_linear_size_counterexample :
    (∀ n, (Scenario.wide n).compound_count = 1 ∧
      ∃ L c' g', Cnfizer.Convert ⟨[]⟩ (Scenario.wide n) ⟨n, 0, 0, 0⟩ = .ok (L, c', g') ∧
        total_size L = n) ∧
    ¬ ∃ k : Nat, ∀ (f : Formula) (g : Globals) (L : List Formula) (c' : Cnfizer)
        (g' : Globals), f.quantifier_free = true → f.well_formed = true →
        f.vars_below g.next_id → Cnfizer.Convert ⟨[]⟩ f g = .ok (L, c', g') →
        L.length ≤ k * (f.compound_count + 1) ∧ total_size L ≤ k * (f.compound_count + 1) := by
  refine ⟨?_, ?_⟩
  · intro n
    obtain ⟨_, _, _, h4, L, c', g', h5, _, h7⟩ := Convert_wide n
    exact ⟨h4, L, c', g', h5, h7⟩
  · rintro ⟨k, hk⟩
    obtain ⟨h1, h2, h3, h4, L, c', g', h5, _, h7⟩ := Convert_wide (2 * k + 1)
    have := (hk (Scenario.wide (2 * k + 1)) ⟨2 * k + 1, 0, 0, 0⟩ L c' g' h1 h2 h3 h5).2
    rw [h4, h7] at this
    omega

/-- C15. Free-variable preservation: for a well-formed quantifier-free formula
`f`, `Convert` returns a list in which every free variable of `f` occurs in at
least one element, and every variable that occurs in an element is a free
variable of `f` or a key of the definition map of this call. -/
theorem Convert_free_variables (c : Cnfizer) (f : Formula) (g : Globals)
    (hq : f.quantifier_free = true) (hw : f.well_formed = true) :
    ∃ L c' g', Cnfizer.Convert c f g = .ok (L, c', g') ∧
      (∀ v ∈ f.GetFreeVariables, ∃ cl ∈ L, v ∈ cl.GetFreeVariables) ∧
      (∀ cl ∈ L, ∀ v ∈ cl.GetFreeVariables,
        v ∈ f.GetFreeVariables ∨ ∃ p ∈ c'.map_, v = p.1) := by
  obtain ⟨L, c', g', h, hshape⟩ := Convert_ok_of_quantifier_free c f g hq hw
  obtain ⟨head, hf, hfrom⟩ := Convert_facts h
  refine ⟨L, c', g', h, ?_⟩
  rcases ConvertFrom_of_facts hf hfrom with
    ⟨hΔ, hL⟩ | ⟨p, body, Δ0, clauses, hΔ, _, _, hcl, hL⟩
  · subst hL
    refine ⟨?_, ?_⟩
    · intro v hv
      rcases hf.covers hq v hv with ⟨_, h1⟩ | ⟨q, hq', _⟩
      · exact ⟨head, by simp, h1⟩
      · rw [hΔ] at hq'
        simp at hq'
    · intro cl hcl' v hv
      simp only [List.mem_singleton] at hcl'
      subst hcl'
      exact (hf.exact hq).1 v hv
  · subst hL
    refine ⟨?_, ?_⟩
    · intro v hv
      rcases hf.covers hq v hv with ⟨h0, _⟩ | ⟨q, hq', hvq⟩
      · rw [hΔ] at h0
        simp at h0
      · rw [hΔ] at hq'
        rcases List.mem_append.1 hq' with hq' | hq'
        · obtain ⟨c1, hc1⟩ := Cnfize_ok_of_compound q.1 q.2
            (is_compound_of_shape (hshape q (by rw [hΔ]; exact List.mem_append_left _ hq')))
          obtain ⟨cl, hcl', hvc⟩ := Cnfize_covers hc1 v hvq
          exact ⟨cl, List.mem_append_left _ (CnfizeAll_subset hcl q hq' c1 hc1 hcl'), hvc⟩
        · simp only [List.mem_singleton] at hq'
          subst hq'
          obtain ⟨cl, hcl', hvc⟩ := (mem_head_clauses_vars body).2 hvq
          exact ⟨cl, List.mem_append_right _ hcl', hvc⟩
    · intro cl hcl' v hv
      rcases List.mem_append.1 hcl' with hcl' | hcl'
      · obtain ⟨q, hq', c1, h1, h2⟩ := mem_CnfizeAll hcl hcl'
        have hqm : q ∈ c'.map_ := by rw [hΔ]; exact List.mem_append_left _ hq'
        rcases vars_Cnfize h1 h2 v hv with rfl | hvq
        · exact Or.inr ⟨q, hqm, rfl⟩
        · exact (hf.exact hq).2 q hqm v hvq
      · have hvb : v ∈ body.GetFreeVariables := (mem_head_clauses_vars body).1 ⟨cl, hcl', hv⟩
        exact (hf.exact hq).2 (p, body) (by rw [hΔ]; simp) v hvb

/-- C15, witness: `(a ∨ b) ∧ (c ∨ d)` (scenario S3). -/
theorem Convert_free_variables_witness :
    ∃ L c' g', Cnfizer.Convert ⟨[]⟩
        (.And [.Or [.Var Scenario.a, .Var Scenario.b], .Or [.Var Scenario.c, .Var Scenario.d]])
        Scenario.start = .ok (L, c', g') ∧
      (∀ v ∈ (Formula.And [.Or [.Var Scenario.a, .Var Scenario.b],
          .Or [.Var Scenario.c, .Var Scenario.d]]).GetFreeVariables,
        ∃ cl ∈ L, v ∈ cl.GetFreeVariables) ∧
      (∀ cl ∈ L, ∀ v ∈ cl.GetFreeVariables,
        v ∈ (Formula.And [.Or [.Var Scenario.a, .Var Scenario.b],
          .Or [.Var Scenario.c, .Var Scenario.d]]).GetFreeVariables ∨
        ∃ p ∈ c'.map_, v = p.1) :=
  Convert_free_variables ⟨[]⟩
    (.And [.Or [.Var Scenario.a, .Var Scenario.b], .Or [.Var Scenario.c, .Var Scenario.d]])
    Scenario.start rfl rfl

/-! ## Renaming and the canonical order -/

theorem renameOperands_eq_map (ρ : Variable → Variable) :
    ∀ l : List Formula, renameOperands ρ l = l.map (Formula.rename ρ)
  | [] => rfl
  | f :: fs => by simp [renameOperands, renameOperands_eq_map ρ fs]

theorem mem_GetVariablesOfOperands {v : Variable} :
    ∀ {l : List Formula}, v ∈ GetVariablesOfOperands l ↔ ∃ x ∈ l, v ∈ x.GetVariables
  | [] => by simp [GetVariablesOfOperands]
  | f :: fs => by
    simp [GetVariablesOfOperands, mem_GetVariablesOfOperands (l := fs)]

theorem mem_GetVariables_And {v : Variable} {l : List Formula} :
    v ∈ (Formula.And l).GetVariables ↔ ∃ x ∈ l, v ∈ x.GetVariables := by
  simp [Formula.GetVariables, mem_GetVariablesOfOperands]

theorem mem_GetVariables_Or {v : Variable} {l : List Formula} :
    v ∈ (Formula.Or l).GetVariables ↔ ∃ x ∈ l, v ∈ x.GetVariables := by
  simp [Formula.GetVariables, mem_GetVariablesOfOperands]

theorem Expression_compare_rename {ρ : Variable → Variable} {P : Variable → Prop}
    (h : Renaming ρ P) :
    ∀ (a b : Expression), (∀ v ∈ a.GetVariables, P v) → (∀ v ∈ b.GetVariables, P v) →
      (a.rename ρ).compare (b.rename ρ) = a.compare b
  | .var v, b, ha, hb => by
    cases b <;> simp [Expression.rename, Expression.compare, Expression.idx]
    next w =>
    exact h.compare v w (ha v (by simp [Expression.GetVariables]))
      (hb w (by simp [Expression.GetVariables]))
  | .const c, b, _, _ => by
    cases b <;> simp [Expression.rename, Expression.compare, Expression.idx]
  | .add a1 a2, b, ha, hb => by
    cases b <;> simp [Expression.rename, Expression.compare, Expression.idx]
    next b1 b2 =>
    simp only [Expression.GetVariables, List.mem_append] at ha hb
    rw [Expression_compare_rename h a1 b1 (fun v hv => ha v (Or.inl hv))
        (fun v hv => hb v (Or.inl hv)),
      Expression_compare_rename h a2 b2 (fun v hv => ha v (Or.inr hv))
        (fun v hv => hb v (Or.inr hv))]
  | .mul a1 a2, b, ha, hb => by
    cases b <;> simp [Expression.rename, Expression.compare, Expression.idx]
    next b1 b2 =>
    simp only [Expression.GetVariables, List.mem_append] at ha hb
    rw [Expression_compare_rename h a1 b1 (fun v hv => ha v (Or.inl hv))
        (fun v hv => hb v (Or.inl hv)),
      Expression_compare_rename h a2 b2 (fun v hv => ha v (Or.inr hv))
        (fun v hv => hb v (Or.inr hv))]

theorem compareVariables_rename {ρ : Variable → Variable} {P : Variable → Prop}
    (h : Renaming ρ P) :
    ∀ (vs ws : List Variable), (∀ v ∈ vs, P v) → (∀ v ∈ ws, P v) →
      compareVariables (vs.map ρ) (ws.map ρ) = compareVariables vs ws
  | [], [], _, _ => rfl
  | [], _ :: _, _, _ => rfl
  | _ :: _, [], _, _ => rfl
  | v :: vs, w :: ws, hv, hw => by
    simp only [List.map_cons, compareVariables]
    rw [h.compare v w (hv v (List.mem_cons_self _ _)) (hw w (List.mem_cons_self _ _)),
      compareVariables_rename h vs ws (fun x hx => hv x (List.mem_cons_of_mem _ hx))
        (fun x hx => hw x (List.mem_cons_of_mem _ hx))]

theorem get_kind_rename (ρ : Variable → Variable) (x : Formula) :
    (x.rename ρ).get_kind = x.get_kind := by
  cases x <;> simp [Formula.rename, Formula.get_kind]

mutual
theorem Formula_compare_rename {ρ : Variable → Variable} {P : Variable → Prop}
    (h : Renaming ρ P) :
    ∀ (x y : Formula), (∀ v ∈ x.GetVariables, P v) → (∀ v ∈ y.GetVariables, P v) →
      (x.rename ρ).compare (y.rename ρ) = x.compare y
  | .False, y, _, _ => by
    cases y <;> simp [Formula.rename, Formula.compare, Formula.get_kind]
  | .True, y, _, _ => by
    cases y <;> simp [Formula.rename, Formula.compare, Formula.get_kind]
  | .Var v, y, hx, hy => by
    cases y <;> simp [Formula.rename, Formula.compare, Formula.get_kind]
    next w =>
    exact h.compare v w (hx v (by simp [Formula.GetVariables]))
      (hy w (by simp [Formula.GetVariables]))
  | .Eq a b, y, hx, hy => by
    cases y <;> simp [Formula.rename, Formula.compare, Formula.get_kind]
    next c d =>
    simp only [Formula.GetVariables, List.mem_append] at hx hy
    rw [Expression_compare_rename h a c (fun v hv => hx v (Or.inl hv))
        (fun v hv => hy v (Or.inl hv)),
      Expression_compare_rename h b d (fun v hv => hx v (Or.inr hv))
        (fun v hv => hy v (Or.inr hv))]
  | .Neq a b, y, hx, hy => by
    cases y <;> simp [Formula.rename, Formula.compare, Formula.get_kind]
    next c d =>
    simp only [Formula.GetVariables, List.mem_append] at hx hy
    rw [Expression_compare_rename h a c (fun v hv => hx v (Or.inl hv))
        (fun v hv => hy v (Or.inl hv)),
      Expression_compare_rename h b d (fun v hv => hx v (Or.inr hv))
        (fun v hv => hy v (Or.inr hv))]
  | .Gt a b, y, hx, hy => by
    cases y <;> simp [Formula.rename, Formula.compare, Formula.get_kind]
    next c d =>
    simp only [Formula.GetVariables, List.mem_append] at hx hy
    rw [Expression_compare_rename h a c (fun v hv => hx v (Or.inl hv))
        (fun v hv => hy v (Or.inl hv)),
      Expression_compare_rename h b d (fun v hv => hx v (Or.inr hv))
        (fun v hv => hy v (Or.inr hv))]
  | .Geq a b, y, hx, hy => by
    cases y <;> simp [Formula.rename, Formula.compare, Formula.get_kind]
    next c d =>
    simp only [Formula.GetVariables, List.mem_append] at hx hy
    rw [Expression_compare_rename h a c (fun v hv => hx v (Or.inl hv))
        (fun v hv => hy v (Or.inl hv)),
      Expression_compare_rename h b d (fun v hv => hx v (Or.inr hv))
        (fun v hv => hy v (Or.inr hv))]
  | .Lt a b, y, hx, hy => by
    cases y <;> simp [Formula.rename, Formula.compare, Formula.get_kind]
    next c d =>
    simp only [Formula.GetVariables, List.mem_append] at hx hy
    rw [Expression_compare_rename h a c (fun v hv => hx v (Or.inl hv))
        (fun v hv => hy v (Or.inl hv)),
      Expression_compare_rename h b d (fun v hv => hx v (Or.inr hv))
        (fun v hv => hy v (Or.inr hv))]
  | .Leq a b, y, hx, hy => by
    cases y <;> simp [Formula.rename, Formula.compare, Formula.get_kind]
    next c d =>
    simp only [Formula.GetVariables, List.mem_append] at hx hy
    rw [Expression_compare_rename h a c (fun v hv => hx v (Or.inl hv))
        (fun v hv => hy v (Or.inl hv)),
      Expression_compare_rename h b d (fun v hv => hx v (Or.inr hv))
        (fun v hv => hy v (Or.inr hv))]
  | .And l, y, hx, hy => by
    cases y <;> simp [Formula.rename, Formula.compare, Formula.get_kind]
    next r =>
    exact compareOperands_rename h l r hx hy
  | .Or l, y, hx, hy => by
    cases y <;> simp [Formula.rename, Formula.compare, Formula.get_kind]
    next r =>
    exact compareOperands_rename h l r hx hy
  | .Not f, y, hx, hy => by
    cases y <;> simp [Formula.rename, Formula.compare, Formula.get_kind]
    next g =>
    exact Formula_compare_rename h f g hx hy
  | .Forall vs f, y, hx, hy => by
    cases y <;> simp [Formula.rename, Formula.compare, Formula.get_kind]
    next ws g =>
    simp only [Formula.GetVariables, List.mem_append] at hx hy
    rw [compareVariables_rename h vs ws (fun v hv => hx v (Or.inl hv))
        (fun v hv => hy v (Or.inl hv)),
      Formula_compare_rename h f g (fun v hv => hx v (Or.inr hv))
        (fun v hv => hy v (Or.inr hv))]
theorem compareOperands_rename {ρ : Variable → Variable} {P : Variable → Prop}
    (h : Renaming ρ P) :
    ∀ (l r : List Formula), (∀ v ∈ GetVariablesOfOperands l, P v) →
      (∀ v ∈ GetVariablesOfOperands r, P v) →
      compareOperands (renameOperands ρ l) (renameOperands ρ r) = compareOperands l r
  | [], [], _, _ => by simp [renameOperands, compareOperands]
  | [], _ :: _, _, _ => by simp [renameOperands, compareOperands]
  | _ :: _, [], _, _ => by simp [renameOperands, compareOperands]
  | f :: fs, g :: gs, hl, hr => by
    simp only [GetVariablesOfOperands, List.mem_append] at hl hr
    simp only [renameOperands, compareOperands]
    rw [Formula_compare_rename h f g (fun v hv => hl v (Or.inl hv))
        (fun v hv => hr v (Or.inl hv)),
      compareOperands_rename h fs gs (fun v hv => hl v (Or.inr hv))
        (fun v hv => hr v (Or.inr hv))]
end

theorem insert_rename {ρ : Variable → Variable} {P : Variable → Prop} (h : Renaming ρ P)
    (x : Formula) (hx : ∀ v ∈ x.GetVariables, P v) :
    ∀ (l : List Formula), (∀ y ∈ l, ∀ v ∈ y.GetVariables, P v) →
      FormulaSet.insert (x.rename ρ) (l.map (Formula.rename ρ)) =
        (FormulaSet.insert x l).map (Formula.rename ρ)
  | [], _ => by simp [FormulaSet.insert]
  | y :: ys, hl => by
    have hc := Formula_compare_rename h x y hx (hl y (List.mem_cons_self _ _))
    have ih := insert_rename h x hx ys (fun z hz => hl z (List.mem_cons_of_mem _ hz))
    simp only [List.map_cons, FormulaSet.insert, hc]
    cases x.compare y <;> simp [ih]

theorem mem_vars_insert {P : Variable → Prop} {x : Formula} {l : List Formula}
    (hx : ∀ v ∈ x.GetVariables, P v) (hl : ∀ y ∈ l, ∀ v ∈ y.GetVariables, P v) :
    ∀ y ∈ FormulaSet.insert x l, ∀ v ∈ y.GetVariables, P v := by
  intro y hy
  rcases FormulaSet.mem_insert.1 hy with rfl | hy
  · exact hx
  · exact hl y hy

theorem foldl_insert_rename {ρ : Variable → Variable} {P : Variable → Prop}
    (h : Renaming ρ P) :
    ∀ (xs acc : List Formula), (∀ y ∈ xs, ∀ v ∈ y.GetVariables, P v) →
      (∀ y ∈ acc, ∀ v ∈ y.GetVariables, P v) →
      (xs.map (Formula.rename ρ)).foldl (fun acc x => FormulaSet.insert x acc)
          (acc.map (Formula.rename ρ)) =
        (xs.foldl (fun acc x => FormulaSet.insert x acc) acc).map (Formula.rename ρ)
  | [], acc, _, _ => by simp
  | x :: xs, acc, hxs, hacc => by
    simp only [List.map_cons, List.foldl_cons]
    rw [insert_rename h x (hxs x (List.mem_cons_self _ _)) acc hacc]
    exact foldl_insert_rename h xs _ (fun y hy => hxs y (List.mem_cons_of_mem _ hy))
      (mem_vars_insert (hxs x (List.mem_cons_self _ _)) hacc)

theorem ofList_rename {ρ : Variable → Variable} {P : Variable → Prop} (h : Renaming ρ P)
    (xs : List Formula) (hxs : ∀ y ∈ xs, ∀ v ∈ y.GetVariables, P v) :
    FormulaSet.ofList (xs.map (Formula.rename ρ)) =
      (FormulaSet.ofList xs).map (Formula.rename ρ) := by
  have := foldl_insert_rename h xs [] hxs (by simp)
  simpa [FormulaSet.ofList] using this

theorem lnot_rename (ρ : Variable → Variable) (x : Formula) :
    (x.lnot).rename ρ = (x.rename ρ).lnot := by
  cases x <;> simp [Formula.lnot, Formula.rename]

theorem GetVariables_lnot (x : Formula) : (x.lnot).GetVariables = x.GetVariables := by
  cases x <;> simp [Formula.lnot, Formula.GetVariables]

theorem is_true_rename (ρ : Variable → Variable) (x : Formula) :
    is_true (x.rename ρ) = is_true x := by
  cases x <;> simp [Formula.rename, is_true]

theorem is_false_rename (ρ : Variable → Variable) (x : Formula) :
    is_false (x.rename ρ) = is_false x := by
  cases x <;> simp [Formula.rename, is_false]

theorem is_conjunction_rename (ρ : Variable → Variable) (x : Formula) :
    is_conjunction (x.rename ρ) = is_conjunction x := by
  cases x <;> simp [Formula.rename, is_conjunction]

theorem get_operands_rename (ρ : Variable → Variable) (x : Formula) :
    get_operands (x.rename ρ) = (get_operands x).map (Formula.rename ρ) := by
  cases x <;> simp [Formula.rename, get_operands, renameOperands_eq_map]

theorem rename_And (ρ : Variable → Variable) (l : List Formula) :
    (Formula.And l).rename ρ = .And (l.map (Formula.rename ρ)) := by
  simp [Formula.rename, renameOperands_eq_map]

theorem rename_Or (ρ : Variable → Variable) (l : List Formula) :
    (Formula.Or l).rename ρ = .Or (l.map (Formula.rename ρ)) := by
  simp [Formula.rename, renameOperands_eq_map]

theorem insert_insert_rename {ρ : Variable → Variable} {P : Variable → Prop}
    (h : Renaming ρ P) (x y : Formula) (hx : ∀ v ∈ x.GetVariables, P v)
    (hy : ∀ v ∈ y.GetVariables, P v) :
    FormulaSet.insert (y.rename ρ) (FormulaSet.insert (x.rename ρ) []) =
      (FormulaSet.insert y (FormulaSet.insert x [])).map (Formula.rename ρ) := by
  have h1 : FormulaSet.insert (x.rename ρ) [] =
      (FormulaSet.insert x []).map (Formula.rename ρ) := insert_rename h x hx [] (by simp)
  have h2 := insert_rename h y hy (FormulaSet.insert x []) (mem_vars_insert hx (by simp))
  rw [← h2, ← h1]

theorem is_disjunction_rename (ρ : Variable → Variable) (x : Formula) :
    is_disjunction (x.rename ρ) = is_disjunction x := by
  cases x <;> simp [Formula.rename, is_disjunction]

theorem is_disjunction_cases (x : Formula) :
    (∃ l, x = Formula.Or l) ∨ is_disjunction x = false := by
  cases x <;> simp [is_disjunction]

theorem lor_Or_Or (l1 l2 : List Formula) :
    (Formula.Or l1).lor (.Or l2) =
      .Or (l2.foldl (fun acc x => FormulaSet.insert x acc) l1) := by
  simp [Formula.lor, is_true, is_false]

theorem lor_Or_left (l1 : List Formula) {y : Formula} (ht : is_true y = false)
    (hf : is_false y = false) (hd : is_disjunction y = false) :
    (Formula.Or l1).lor y = .Or (FormulaSet.insert y l1) := by
  cases y <;> simp_all [Formula.lor, is_true, is_false, is_disjunction]

theorem lor_Or_right (l2 : List Formula) {x : Formula} (ht : is_true x = false)
    (hf : is_false x = false) (hd : is_disjunction x = false) :
    x.lor (.Or l2) = .Or (FormulaSet.insert x l2) := by
  cases x <;> simp_all [Formula.lor, is_true, is_false, is_disjunction]

theorem lor_plain {x y : Formula} (htx : is_true x = false) (hfx : is_false x = false)
    (hdx : is_disjunction x = false) (hty : is_true y = false) (hfy : is_false y = false)
    (hdy : is_disjunction y = false) :
    x.lor y = .Or (FormulaSet.insert y (FormulaSet.insert x [])) := by
  cases x <;> simp_all [is_true, is_false, is_disjunction] <;>
    cases y <;> simp_all [Formula.lor, is_true, is_false, is_disjunction]

theorem lor_rename {ρ : Variable → Variable} {P : Variable → Prop} (h : Renaming ρ P)
    (x y : Formula) (hx : ∀ v ∈ x.GetVariables, P v) (hy : ∀ v ∈ y.GetVariables, P v) :
    (x.lor y).rename ρ = (x.rename ρ).lor (y.rename ρ) := by
  by_cases h1 : (is_true x || is_true y) = true
  · have e1 : x.lor y = .True := by simp [Formula.lor, h1]
    have e2 : (x.rename ρ).lor (y.rename ρ) = .True := by
      simp [Formula.lor, is_true_rename, h1]
    rw [e1, e2]
    rfl
  have htx : is_true x = false := by
    cases hh : is_true x <;> simp_all
  have hty : is_true y = false := by
    cases hh : is_true y <;> simp_all
  by_cases h2 : is_false x = true
  · have e1 : x.lor y = y := by simp [Formula.lor, h1, h2]
    have e2 : (x.rename ρ).lor (y.rename ρ) = y.rename ρ := by
      simp [Formula.lor, is_true_rename, is_false_rename, h1, h2]
    rw [e1, e2]
  have hfx : is_false x = false := by simpa using h2
  by_cases h3 : is_false y = true
  · have e1 : x.lor y = x := by simp [Formula.lor, h1, h2, h3]
    have e2 : (x.rename ρ).lor (y.rename ρ) = x.rename ρ := by
      simp [Formula.lor, is_true_rename, is_false_rename, h1, h2, h3]
    rw [e1, e2]
  have hfy : is_false y = false := by simpa using h3
  rcases is_disjunction_cases x with ⟨l1, rfl⟩ | hdx
  · rcases is_disjunction_cases y with ⟨l2, rfl⟩ | hdy
    · rw [rename_Or, rename_Or, lor_Or_Or, lor_Or_Or, rename_Or]
      rw [foldl_insert_rename h l2 l1
        (fun z hz v hv => hy v (mem_GetVariables_Or.2 ⟨z, hz, hv⟩))
        (fun z hz v hv => hx v (mem_GetVariables_Or.2 ⟨z, hz, hv⟩))]
    · rw [rename_Or, lor_Or_left l1 hty hfy hdy,
        lor_Or_left _ (by rw [is_true_rename]; exact hty)
          (by rw [is_false_rename]; exact hfy) (by rw [is_disjunction_rename]; exact hdy),
        rename_Or]
      rw [insert_rename h y hy l1
        (fun z hz v hv => hx v (mem_GetVariables_Or.2 ⟨z, hz, hv⟩))]
  · rcases is_disjunction_cases y with ⟨l2, rfl⟩ | hdy
    · rw [rename_Or, lor_Or_right l2 htx hfx hdx,
        lor_Or_right _ (by rw [is_true_rename]; exact htx)
          (by rw [is_false_rename]; exact hfx) (by rw [is_disjunction_rename]; exact hdx),
        rename_Or]
      rw [insert_rename h x hx l2
        (fun z hz v hv => hy v (mem_GetVariables_Or.2 ⟨z, hz, hv⟩))]
    · rw [lor_plain htx hfx hdx hty hfy hdy,
        lor_plain (by rw [is_true_rename]; exact htx) (by rw [is_false_rename]; exact hfx)
          (by rw [is_disjunction_rename]; exact hdx) (by rw [is_true_rename]; exact hty)
          (by rw [is_false_rename]; exact hfy) (by rw [is_disjunction_rename]; exact hdy),
        rename_Or, insert_insert_rename h x y hx hy]

theorem mem_GetVariables_lor {v : Variable} {f1 f2 : Formula}
    (h : v ∈ (f1.lor f2).GetVariables) : v ∈ f1.GetVariables ∨ v ∈ f2.GetVariables := by
  unfold Formula.lor at h
  split at h
  · simp [Formula.GetVariables] at h
  split at h
  · exact Or.inr h
  split at h
  · exact Or.inl h
  split at h
  · simp only [mem_GetVariables_Or, FormulaSet.mem_foldl_insert] at h ⊢
    obtain ⟨x, hx | hx, hv⟩ := h
    · exact Or.inl ⟨x, hx, hv⟩
    · exact Or.inr ⟨x, hx, hv⟩
  · simp only [mem_GetVariables_Or, FormulaSet.mem_insert] at h ⊢
    obtain ⟨x, rfl | hx, hv⟩ := h
    · exact Or.inr hv
    · exact Or.inl ⟨x, hx, hv⟩
  · simp only [mem_GetVariables_Or, FormulaSet.mem_insert] at h ⊢
    obtain ⟨x, rfl | hx, hv⟩ := h
    · exact Or.inl hv
    · exact Or.inr ⟨x, hx, hv⟩
  · simp only [mem_GetVariables_Or, FormulaSet.mem_insert, List.not_mem_nil, or_false] at h
    obtain ⟨x, rfl | rfl, hv⟩ := h
    · exact Or.inr hv
    · exact Or.inl hv

/-! ## Renaming and the emitters -/

theorem Add_rename (ρ : Variable → Variable) (f : Formula) (clauses : List Formula) :
    (Add f clauses).map (Formula.rename ρ) =
      Add (f.rename ρ) (clauses.map (Formula.rename ρ)) := by
  unfold Add
  rw [is_true_rename]
  split <;> simp

theorem foldl_Add_rename (ρ : Variable → Variable) (F F' : Formula → Formula) :
    ∀ (l clauses : List Formula), (∀ x ∈ l, (F x).rename ρ = F' (x.rename ρ)) →
      (l.foldl (fun acc x => Add (F x) acc) clauses).map (Formula.rename ρ) =
        (l.map (Formula.rename ρ)).foldl (fun acc x => Add (F' x) acc)
          (clauses.map (Formula.rename ρ))
  | [], clauses, _ => by simp
  | x :: xs, clauses, h => by
    simp only [List.foldl_cons, List.map_cons]
    rw [foldl_Add_rename ρ F F' xs _ (fun y hy => h y (List.mem_cons_of_mem _ hy)),
      Add_rename, h x (List.mem_cons_self _ _)]

theorem imply_rename {ρ : Variable → Variable} {P : Variable → Prop} (h : Renaming ρ P)
    (x y : Formula) (hx : ∀ v ∈ x.GetVariables, P v) (hy : ∀ v ∈ y.GetVariables, P v) :
    (imply x y).rename ρ = imply (x.rename ρ) (y.rename ρ) := by
  unfold imply
  rw [lor_rename h _ _ (by rw [GetVariables_lnot]; exact hx) hy, lnot_rename]

theorem map_lnot_rename {ρ : Variable → Variable} {P : Variable → Prop} (h : Renaming ρ P)
    (ops : List Formula) (hops : ∀ y ∈ ops, ∀ v ∈ y.GetVariables, P v) :
    FormulaSet.map (ops.map (Formula.rename ρ)) (fun x => x.lnot) =
      (FormulaSet.map ops (fun x => x.lnot)).map (Formula.rename ρ) := by
  unfold FormulaSet.map
  rw [← ofList_rename h (ops.map (fun x => x.lnot))
    (by
      intro y hy
      obtain ⟨x, hx, rfl⟩ := List.mem_map.1 hy
      rw [GetVariables_lnot]
      exact hops x hx)]
  congr 1
  simp only [List.map_map]
  apply List.map_congr_left
  intro x _
  simp [lnot_rename]

theorem mem_vars_get_operands {P : Variable → Prop} {f : Formula}
    (hf : ∀ v ∈ f.GetVariables, P v) : ∀ y ∈ get_operands f, ∀ v ∈ y.GetVariables, P v := by
  intro y hy v hv
  cases f <;> simp only [get_operands, List.not_mem_nil] at hy
  · exact hf v (mem_GetVariables_And.2 ⟨y, hy, hv⟩)
  · exact hf v (mem_GetVariables_Or.2 ⟨y, hy, hv⟩)

theorem mem_vars_map_lnot {P : Variable → Prop} {ops : List Formula}
    (hops : ∀ y ∈ ops, ∀ v ∈ y.GetVariables, P v) :
    ∀ y ∈ FormulaSet.map ops (fun x => x.lnot), ∀ v ∈ y.GetVariables, P v := by
  intro y hy v hv
  obtain ⟨x, hx, rfl⟩ := FormulaSet.mem_map.1 hy
  rw [GetVariables_lnot] at hv
  exact hops x hx v hv

theorem CnfizeConjunction_rename {ρ : Variable → Variable} {P : Variable → Prop}
    (h : Renaming ρ P) (b : Variable) (f : Formula) (clauses : List Formula) (hb : P b)
    (hf : ∀ v ∈ f.GetVariables, P v) :
    (CnfizeConjunction b f clauses).map (Formula.rename ρ) =
      CnfizeConjunction (ρ b) (f.rename ρ) (clauses.map (Formula.rename ρ)) := by
  have hops := mem_vars_get_operands hf
  have hvb : ∀ v ∈ (Formula.Var b).GetVariables, P v := by
    intro v hv
    simp only [Formula.GetVariables, List.mem_singleton] at hv
    exact hv ▸ hb
  have hnb : ∀ v ∈ ((Formula.Var b).lnot).GetVariables, P v := by
    rw [GetVariables_lnot]
    exact hvb
  simp only [CnfizeConjunction, make_disjunction]
  rw [Add_rename, get_operands_rename, map_lnot_rename h _ hops,
    foldl_Add_rename ρ (fun b_i => ((Formula.Var b).lnot).lor b_i)
      (fun b_i => ((Formula.Var (ρ b)).lnot).lor b_i) _ _
      (fun x hx => by
        rw [lor_rename h _ _ hnb (hops x hx), lnot_rename]
        rfl),
    lor_rename h _ _
      (fun v hv => by
        obtain ⟨y, hy, hvy⟩ := mem_GetVariables_Or.1 hv
        exact mem_vars_map_lnot hops y hy v hvy) hvb,
    rename_Or]
  rfl

theorem CnfizeDisjunction_rename {ρ : Variable → Variable} {P : Variable → Prop}
    (h : Renaming ρ P) (b : Variable) (f : Formula) (clauses : List Formula) (hb : P b)
    (hf : ∀ v ∈ f.GetVariables, P v) :
    (CnfizeDisjunction b f clauses).map (Formula.rename ρ) =
      CnfizeDisjunction (ρ b) (f.rename ρ) (clauses.map (Formula.rename ρ)) := by
  have hops := mem_vars_get_operands hf
  have hvb : ∀ v ∈ (Formula.Var b).GetVariables, P v := by
    intro v hv
    simp only [Formula.GetVariables, List.mem_singleton] at hv
    exact hv ▸ hb
  have hnb : ∀ v ∈ ((Formula.Var b).lnot).GetVariables, P v := by
    rw [GetVariables_lnot]
    exact hvb
  simp only [CnfizeDisjunction]
  rw [foldl_Add_rename ρ (fun neg_b_i => neg_b_i.lor (.Var b))
      (fun neg_b_i => neg_b_i.lor (.Var (ρ b))) _ _
      (fun x hx => by
        rw [lor_rename h _ _ (mem_vars_map_lnot hops x hx) hvb]
        rfl),
    Add_rename, lor_rename h _ _ hnb hf, lnot_rename, get_operands_rename,
    map_lnot_rename h _ hops]
  rfl

theorem CnfizeNegation_rename {ρ : Variable → Variable} {P : Variable → Prop}
    (h : Renaming ρ P) (b : Variable) (f : Formula) (clauses : List Formula) (hb : P b)
    (hf : ∀ v ∈ f.GetVariables, P v) :
    (CnfizeNegation b f clauses).map (Formula.rename ρ) =
      CnfizeNegation (ρ b) (f.rename ρ) (clauses.map (Formula.rename ρ)) := by
  have hvb : ∀ v ∈ (Formula.Var b).GetVariables, P v := by
    intro v hv
    simp only [Formula.GetVariables, List.mem_singleton] at hv
    exact hv ▸ hb
  simp only [CnfizeNegation, AddIff]
  rw [Add_rename, Add_rename, imply_rename h _ _ hf hvb, imply_rename h _ _ hvb hf]
  rfl

theorem Cnfize_rename {ρ : Variable → Variable} {P : Variable → Prop}
    (h : Renaming ρ P) (b : Variable) (f : Formula) (clauses : List Formula) (hb : P b)
    (hf : ∀ v ∈ f.GetVariables, P v) :
    Cnfize (ρ b) (f.rename ρ) (clauses.map (Formula.rename ρ)) =
      match Cnfize b f clauses with
      | .ok new_clauses => .ok (new_clauses.map (Formula.rename ρ))
      | .error e => .error e := by
  unfold Cnfize
  rw [get_kind_rename]
  cases hk : f.get_kind <;> simp only
  · rw [CnfizeConjunction_rename h b f clauses hb hf]
  · rw [CnfizeDisjunction_rename h b f clauses hb hf]
  · rw [CnfizeNegation_rename h b f clauses hb hf]

theorem vars_of_Cnfize {b : Variable} {f cl : Formula} {clauses : List Formula}
    (h : Cnfize b f [] = .ok clauses) (hcl : cl ∈ clauses) :
    ∀ v ∈ cl.GetVariables, v = b ∨ v ∈ f.GetVariables := by
  intro v hv
  have hb : ∀ v ∈ ((Formula.Var b).lnot).GetVariables, v = b := by
    intro v hv
    simpa [Formula.lnot, Formula.GetVariables] using hv
  have hb' : ∀ v ∈ (Formula.Var b).GetVariables, v = b := by
    intro v hv
    simpa [Formula.GetVariables] using hv
  have hop : ∀ x ∈ get_operands f, ∀ v ∈ x.GetVariables, v ∈ f.GetVariables :=
    mem_vars_get_operands (P := fun v => v ∈ f.GetVariables) (fun v hv => hv)
  rcases mem_Cnfize h hcl with ⟨x, hx, _, _, h1 | h1⟩ | ⟨_, h1⟩ | ⟨_, h1⟩ | ⟨hn, h1 | h1⟩
  · subst h1
    rcases mem_GetVariables_lor hv with h2 | h2
    · exact Or.inl (hb v h2)
    · exact Or.inr (hop x hx v h2)
  · subst h1
    rcases mem_GetVariables_lor hv with h2 | h2
    · rw [GetVariables_lnot] at h2
      exact Or.inr (hop x hx v h2)
    · exact Or.inl (hb' v h2)
  · subst h1
    rcases mem_GetVariables_lor hv with h2 | h2
    · obtain ⟨y, hy, hvy⟩ := mem_GetVariables_Or.1 h2
      exact Or.inr (mem_vars_map_lnot hop y hy v hvy)
    · exact Or.inl (hb' v h2)
  · subst h1
    rcases mem_GetVariables_lor hv with h2 | h2
    · exact Or.inl (hb v h2)
    · exact Or.inr h2
  · subst h1
    unfold imply at hv
    rcases mem_GetVariables_lor hv with h2 | h2
    · exact Or.inl (hb v h2)
    · exact Or.inr h2
  · subst h1
    unfold imply at hv
    rcases mem_GetVariables_lor hv with h2 | h2
    · rw [GetVariables_lnot] at h2
      exact Or.inr h2
    · exact Or.inl (hb' v h2)

/-! ## Renaming and the loop of `Convert` -/

theorem ConvertLoop_rename {ρ : Variable → Variable} {P : Variable → Prop}
    (h : Renaming ρ P) (head_var : Variable) (hh : P head_var) :
    ∀ (m : DefinitionMap) (ret : List Formula),
      (∀ p ∈ m, P p.1 ∧ ∀ v ∈ p.2.GetVariables, P v) →
      Cnfizer.ConvertLoop (.Var (ρ head_var)) (m.rename ρ) (ret.map (Formula.rename ρ)) =
        match Cnfizer.ConvertLoop (.Var head_var) m ret with
        | .ok clauses => .ok (clauses.map (Formula.rename ρ))
        | .error e => .error e
  | [], ret, _ => by simp [DefinitionMap.rename, Cnfizer.ConvertLoop]
  | p :: rest, ret, hm => by
    have hp := hm p (List.mem_cons_self _ _)
    have hrest : ∀ q ∈ rest, P q.1 ∧ ∀ v ∈ q.2.GetVariables, P v :=
      fun q hq => hm q (List.mem_cons_of_mem _ hq)
    have he := h.ident head_var p.1 hh hp.1
    have ih := ConvertLoop_rename h head_var hh rest
    simp only [DefinitionMap.rename] at ih
    simp only [DefinitionMap.rename, List.map_cons, Cnfizer.ConvertLoop, get_variable, he,
      is_conjunction_rename, get_operands_rename]
    by_cases heq : head_var.equal_to p.1 = true
    · simp only [heq, if_true]
      by_cases hc : is_conjunction p.2 = true
      · simp only [hc, if_true]
        rw [← List.map_append]
        exact ih _ hrest
      · simp only [hc, Bool.false_eq_true, if_false]
        have : ret.map (Formula.rename ρ) ++ [p.2.rename ρ] =
            (ret ++ [p.2]).map (Formula.rename ρ) := by simp
        rw [this]
        exact ih _ hrest
    · simp only [heq, Bool.false_eq_true, if_false]
      rw [Cnfize_rename h p.1 p.2 ret hp.1 hp.2]
      cases hcz : Cnfize p.1 p.2 ret with
      | error e => simp
      | ok ret1 =>
        simp only
        exact ih _ hrest

theorem ConvertFrom_rename {ρ : Variable → Variable} {P : Variable → Prop}
    (h : Renaming ρ P) (head : Formula) (m : DefinitionMap)
    (hh : m ≠ [] → ∃ p, head = .Var p ∧ P p)
    (hm : ∀ p ∈ m, P p.1 ∧ ∀ v ∈ p.2.GetVariables, P v) :
    Cnfizer.ConvertFrom (head.rename ρ) (m.rename ρ) =
      match Cnfizer.ConvertFrom head m with
      | .ok clauses => .ok (clauses.map (Formula.rename ρ))
      | .error e => .error e := by
  cases m with
  | nil => simp [Cnfizer.ConvertFrom, DefinitionMap.rename]
  | cons q rest =>
    obtain ⟨p, rfl, hp⟩ := hh (by simp)
    have := ConvertLoop_rename h p hp (q :: rest) [] hm
    simpa [Cnfizer.ConvertFrom, DefinitionMap.rename, Formula.rename] using this

/-! ## Renaming and free variables -/

theorem Expression_GetVariables_rename (ρ : Variable → Variable) :
    ∀ e : Expression, (e.rename ρ).GetVariables = e.GetVariables.map ρ
  | .var v => rfl
  | .const c => rfl
  | .add a b => by
    simp [Expression.rename, Expression.GetVariables, Expression_GetVariables_rename ρ a,
      Expression_GetVariables_rename ρ b]
  | .mul a b => by
    simp [Expression.rename, Expression.GetVariables, Expression_GetVariables_rename ρ a,
      Expression_GetVariables_rename ρ b]

mutual
theorem mem_GetVariables_of_free {v : Variable} :
    ∀ (x : Formula), v ∈ x.GetFreeVariables → v ∈ x.GetVariables
  | .False, h => by simp [Formula.GetFreeVariables] at h
  | .True, h => by simp [Formula.GetFreeVariables] at h
  | .Var w, h => by simpa [Formula.GetFreeVariables, Formula.GetVariables] using h
  | .Eq a b, h => by simpa [Formula.GetFreeVariables, Formula.GetVariables] using h
  | .Neq a b, h => by simpa [Formula.GetFreeVariables, Formula.GetVariables] using h
  | .Gt a b, h => by simpa [Formula.GetFreeVariables, Formula.GetVariables] using h
  | .Geq a b, h => by simpa [Formula.GetFreeVariables, Formula.GetVariables] using h
  | .Lt a b, h => by simpa [Formula.GetFreeVariables, Formula.GetVariables] using h
  | .Leq a b, h => by simpa [Formula.GetFreeVariables, Formula.GetVariables] using h
  | .And l, h => by
    simp only [Formula.GetFreeVariables, Formula.GetVariables] at h ⊢
    exact mem_GetVariablesOfOperands_of_free l h
  | .Or l, h => by
    simp only [Formula.GetFreeVariables, Formula.GetVariables] at h ⊢
    exact mem_GetVariablesOfOperands_of_free l h
  | .Not f, h => by
    simp only [Formula.GetFreeVariables, Formula.GetVariables] at h ⊢
    exact mem_GetVariables_of_free f h
  | .Forall vs f, h => by
    simp only [Formula.GetFreeVariables, Formula.GetVariables, List.mem_filter,
      List.mem_append] at h ⊢
    exact Or.inr (mem_GetVariables_of_free f h.1)
theorem mem_GetVariablesOfOperands_of_free {v : Variable} :
    ∀ (l : List Formula), v ∈ GetFreeVariablesOfOperands l → v ∈ GetVariablesOfOperands l
  | [], h => by simp [GetFreeVariablesOfOperands] at h
  | f :: fs, h => by
    simp only [GetFreeVariablesOfOperands, GetVariablesOfOperands, List.mem_append] at h ⊢
    rcases h with h | h
    · exact Or.inl (mem_GetVariables_of_free f h)
    · exact Or.inr (mem_GetVariablesOfOperands_of_free fs h)
end

theorem any_equal_to_rename {ρ : Variable → Variable} {P : Variable → Prop}
    (h : Renaming ρ P) (v : Variable) (hv : P v) :
    ∀ (vs : List Variable), (∀ w ∈ vs, P w) →
      (vs.map ρ).any (fun w => w.equal_to (ρ v)) = vs.any (fun w => w.equal_to v)
  | [], _ => rfl
  | w :: ws, hw => by
    simp only [List.map_cons, List.any_cons]
    rw [h.ident w v (hw w (List.mem_cons_self _ _)) hv,
      any_equal_to_rename h v hv ws (fun x hx => hw x (List.mem_cons_of_mem _ hx))]

theorem filter_map_rename (ρ : Variable → Variable) (p q : Variable → Bool) :
    ∀ (l : List Variable), (∀ v ∈ l, p (ρ v) = q v) →
      (l.map ρ).filter p = (l.filter q).map ρ
  | [], _ => rfl
  | v :: vs, h => by
    have hv := h v (List.mem_cons_self _ _)
    have ih := filter_map_rename ρ p q vs (fun x hx => h x (List.mem_cons_of_mem _ hx))
    simp only [List.map_cons, List.filter_cons, hv]
    cases q v <;> simp [ih]

mutual
theorem GetFreeVariables_rename {ρ : Variable → Variable} {P : Variable → Prop}
    (h : Renaming ρ P) :
    ∀ (x : Formula), (∀ v ∈ x.GetVariables, P v) →
      (x.rename ρ).GetFreeVariables = x.GetFreeVariables.map ρ
  | .False, _ => rfl
  | .True, _ => rfl
  | .Var w, _ => rfl
  | .Eq a b, _ => by
    simp [Formula.rename, Formula.GetFreeVariables, Expression_GetVariables_rename]
  | .Neq a b, _ => by
    simp [Formula.rename, Formula.GetFreeVariables, Expression_GetVariables_rename]
  | .Gt a b, _ => by
    simp [Formula.rename, Formula.GetFreeVariables, Expression_GetVariables_rename]
  | .Geq a b, _ => by
    simp [Formula.rename, Formula.GetFreeVariables, Expression_GetVariables_rename]
  | .Lt a b, _ => by
    simp [Formula.rename, Formula.GetFreeVariables, Expression_GetVariables_rename]
  | .Leq a b, _ => by
    simp [Formula.rename, Formula.GetFreeVariables, Expression_GetVariables_rename]
  | .And l, hx => by
    simp only [Formula.rename, Formula.GetFreeVariables]
    exact GetFreeVariablesOfOperands_rename h l hx
  | .Or l, hx => by
    simp only [Formula.rename, Formula.GetFreeVariables]
    exact GetFreeVariablesOfOperands_rename h l hx
  | .Not f, hx => by
    simp only [Formula.rename, Formula.GetFreeVariables]
    exact GetFreeVariables_rename h f hx
  | .Forall vs f, hx => by
    simp only [Formula.GetVariables, List.mem_append] at hx
    simp only [Formula.rename, Formula.GetFreeVariables]
    rw [GetFreeVariables_rename h f (fun v hv => hx v (Or.inr hv))]
    apply filter_map_rename
    intro v hv
    rw [any_equal_to_rename h v (hx v (Or.inr (mem_GetVariables_of_free f hv))) vs
      (fun w hw => hx w (Or.inl hw))]
theorem GetFreeVariablesOfOperands_rename {ρ : Variable → Variable} {P : Variable → Prop}
    (h : Renaming ρ P) :
    ∀ (l : List Formula), (∀ v ∈ GetVariablesOfOperands l, P v) →
      GetFreeVariablesOfOperands (renameOperands ρ l) = (GetFreeVariablesOfOperands l).map ρ
  | [], _ => rfl
  | f :: fs, hl => by
    simp only [GetVariablesOfOperands, List.mem_append] at hl
    simp only [renameOperands, GetFreeVariablesOfOperands, List.map_append]
    rw [GetFreeVariables_rename h f (fun v hv => hl v (Or.inl hv)),
      GetFreeVariablesOfOperands_rename h fs (fun v hv => hl v (Or.inr hv))]
end

theorem hoist_rename {ρ : Variable → Variable} {P : Variable → Prop} (h : Renaming ρ P)
    (vars : List Variable) (x : Formula) (hvars : ∀ w ∈ vars, P w ∧ ρ w = w)
    (hx : ∀ v ∈ x.GetVariables, P v) :
    hoist vars (x.rename ρ) = (hoist vars x).rename ρ := by
  have hmap : vars.map ρ = vars := by
    conv_rhs => rw [← List.map_id vars]
    apply List.map_congr_left
    intro w hw
    simpa using (hvars w hw).2
  have hcond : (intersect (x.rename ρ).GetFreeVariables vars).isEmpty =
      (intersect x.GetFreeVariables vars).isEmpty := by
    unfold intersect
    rw [GetFreeVariables_rename h x hx,
      filter_map_rename ρ _ (fun v => vars.any (fun w => w.equal_to v))]
    · cases List.filter (fun v => vars.any (fun w => w.equal_to v)) x.GetFreeVariables <;> rfl
    · intro v hv
      have := any_equal_to_rename h v (hx v (mem_GetVariables_of_free x hv)) vars
        (fun w hw => (hvars w hw).1)
      rw [hmap] at this
      exact this
  rw [hoist_eq, hoist_eq, hcond]
  split
  · rfl
  · simp [Formula.rename, hmap]

theorem GetVariables_hoist {v : Variable} {vars : List Variable} {x : Formula}
    (h : v ∈ (hoist vars x).GetVariables) : v ∈ vars ∨ v ∈ x.GetVariables := by
  rw [hoist_eq] at h
  split at h
  · exact Or.inr h
  · simpa [Formula.GetVariables] using h

/-! ## Two calls of `Visit` -/

theorem Expression_rename_id (ρ : Variable → Variable) :
    ∀ e : Expression, (∀ v ∈ e.GetVariables, ρ v = v) → e.rename ρ = e
  | .var v, h => by
    simp [Expression.rename, h v (by simp [Expression.GetVariables])]
  | .const c, _ => rfl
  | .add a b, h => by
    simp only [Expression.GetVariables, List.mem_append] at h
    simp [Expression.rename, Expression_rename_id ρ a (fun v hv => h v (Or.inl hv)),
      Expression_rename_id ρ b (fun v hv => h v (Or.inr hv))]
  | .mul a b, h => by
    simp only [Expression.GetVariables, List.mem_append] at h
    simp [Expression.rename, Expression_rename_id ρ a (fun v hv => h v (Or.inl hv)),
      Expression_rename_id ρ b (fun v hv => h v (Or.inr hv))]

theorem map_rename_id (ρ : Variable → Variable) (vs : List Variable)
    (h : ∀ v ∈ vs, ρ v = v) : vs.map ρ = vs := by
  conv_rhs => rw [← List.map_id vs]
  apply List.map_congr_left
  intro w hw
  simpa using h w hw

mutual
theorem Formula_rename_id (ρ : Variable → Variable) :
    ∀ x : Formula, (∀ v ∈ x.GetVariables, ρ v = v) → x.rename ρ = x
  | .False, _ => rfl
  | .True, _ => rfl
  | .Var w, h => by simp [Formula.rename, h w (by simp [Formula.GetVariables])]
  | .Eq a b, h => by
    simp only [Formula.GetVariables, List.mem_append] at h
    simp [Formula.rename, Expression_rename_id ρ a (fun v hv => h v (Or.inl hv)),
      Expression_rename_id ρ b (fun v hv => h v (Or.inr hv))]
  | .Neq a b, h => by
    simp only [Formula.GetVariables, List.mem_append] at h
    simp [Formula.rename, Expression_rename_id ρ a (fun v hv => h v (Or.inl hv)),
      Expression_rename_id ρ b (fun v hv => h v (Or.inr hv))]
  | .Gt a b, h => by
    simp only [Formula.GetVariables, List.mem_append] at h
    simp [Formula.rename, Expression_rename_id ρ a (fun v hv => h v (Or.inl hv)),
      Expression_rename_id ρ b (fun v hv => h v (Or.inr hv))]
  | .Geq a b, h => by
    simp only [Formula.GetVariables, List.mem_append] at h
    simp [Formula.rename, Expression_rename_id ρ a (fun v hv => h v (Or.inl hv)),
      Expression_rename_id ρ b (fun v hv => h v (Or.inr hv))]
  | .Lt a b, h => by
    simp only [Formula.GetVariables, List.mem_append] at h
    simp [Formula.rename, Expression_rename_id ρ a (fun v hv => h v (Or.inl hv)),
      Expression_rename_id ρ b (fun v hv => h v (Or.inr hv))]
  | .Leq a b, h => by
    simp only [Formula.GetVariables, List.mem_append] at h
    simp [Formula.rename, Expression_rename_id ρ a (fun v hv => h v (Or.inl hv)),
      Expression_rename_id ρ b (fun v hv => h v (Or.inr hv))]
  | .And l, h => by
    simp only [Formula.GetVariables] at h
    simp [Formula.rename, renameOperands_id ρ l h]
  | .Or l, h => by
    simp only [Formula.GetVariables] at h
    simp [Formula.rename, renameOperands_id ρ l h]
  | .Not f, h => by
    simp only [Formula.GetVariables] at h
    simp [Formula.rename, Formula_rename_id ρ f h]
  | .Forall vs f, h => by
    simp only [Formula.GetVariables, List.mem_append] at h
    simp [Formula.rename, Formula_rename_id ρ f (fun v hv => h v (Or.inr hv)),
      map_rename_id ρ vs (fun v hv => h v (Or.inl hv))]
theorem renameOperands_id (ρ : Variable → Variable) :
    ∀ l : List Formula, (∀ v ∈ GetVariablesOfOperands l, ρ v = v) → renameOperands ρ l = l
  | [], _ => rfl
  | f :: fs, h => by
    simp only [GetVariablesOfOperands, List.mem_append] at h
    simp [renameOperands, Formula_rename_id ρ f (fun v hv => h v (Or.inl hv)),
      renameOperands_id ρ fs (fun v hv => h v (Or.inr hv))]
end

theorem Globals.le_refl (g : Globals) : g.le g := ⟨Nat.le_refl _, Nat.le_refl _,
  Nat.le_refl _, Nat.le_refl _⟩

theorem Globals.le_trans {g1 g2 g3 : Globals} (h1 : g1.le g2) (h2 : g2.le g3) : g1.le g3 :=
  ⟨Nat.le_trans h1.1 h2.1, Nat.le_trans h1.2.1 h2.2.1, Nat.le_trans h1.2.2.1 h2.2.2.1,
    Nat.le_trans h1.2.2.2 h2.2.2.2⟩

theorem Globals.shift_self (g1 g2 : Globals) : Globals.shift g1 g1 g2 = g2 := by
  simp [Globals.shift]

theorem Globals.shift_trans {g1 g1a g1' : Globals} (g2 : Globals) (h1 : g1.le g1a)
    (h2 : g1a.le g1') :
    Globals.shift g1a g1' (Globals.shift g1 g1a g2) = Globals.shift g1 g1' g2 := by
  obtain ⟨a1, a2, a3, a4⟩ := h1
  obtain ⟨b1, b2, b3, b4⟩ := h2
  simp only [Globals.shift, Globals.mk.injEq]
  refine ⟨?_, ?_, ?_, ?_⟩ <;> omega

theorem ProxyLog.image {A : List (Variable × Variable)} {g1 g1' g2 : Globals}
    (hA : ProxyLog A g1 g1' g2) {ρ : Variable → Variable} {P : Variable → Prop}
    (hρ : ∀ p ∈ A, P p.1 ∧ ρ p.1 = p.2) {k : Variable} (hk : k ∈ A.map Prod.fst) :
    P k ∧ g1.next_id ≤ k.id ∧ k.id < g1'.next_id ∧
      (ρ k).id + g1.next_id = k.id + g2.next_id := by
  obtain ⟨p, hp, rfl⟩ := List.mem_map.1 hk
  have h1 := hA.range p hp
  have h2 := hρ p hp
  rw [h2.2]
  exact ⟨h2.1, h1.1, h1.2.1, h1.2.2⟩

theorem emplace_rename_fresh {A : List (Variable × Variable)} {g1 g1' g2 : Globals}
    (hA : ProxyLog A g1 g1' g2) {ρ : Variable → Variable} {P : Variable → Prop}
    (hρ : ∀ p ∈ A, P p.1 ∧ ρ p.1 = p.2) (c2 : Cnfizer) (Δ : DefinitionMap)
    (hc2 : ∀ p ∈ c2.map_, p.1.id < g2.next_id) (hΔ : ∀ k ∈ Δ, k.1 ∈ A.map Prod.fst)
    (bvar : Variable) (body : Formula)
    (hb : g2.next_id ≤ bvar.id)
    (hb' : ∀ k ∈ A.map Prod.fst, k.id + g2.next_id ≠ bvar.id + g1.next_id) :
    DefinitionMap.emplace (c2.map_ ++ Δ.rename ρ) bvar body =
      c2.map_ ++ Δ.rename ρ ++ [(bvar, body)] := by
  apply DefinitionMap.emplace_fresh
  intro p hp
  rcases List.mem_append.1 hp with hp | hp
  · have := hc2 p hp
    omega
  · simp only [DefinitionMap.rename, List.mem_map] at hp
    obtain ⟨k, hk, rfl⟩ := hp
    have h1 := hA.image hρ (hΔ k hk)
    have h2 := hb' k.1 (hΔ k hk)
    simp only
    omega

theorem Visit_Forall_of_Convert (c : Cnfizer) (vars : List Variable) (body : Formula)
    (g : Globals) (L : List Formula) (c1 : Cnfizer) (g1 : Globals)
    (h : Cnfizer.Convert ⟨[]⟩ body g = .ok (L, c1, g1)) :
    (∀ x, L = [x] →
      Cnfizer.Visit (.Forall vars body) c g = .ok (hoist vars x, c, g1)) ∧
    (L.length ≠ 1 →
      Cnfizer.Visit (.Forall vars body) c g =
        .ok (.Var ⟨g1.next_id, "forall" ++ toString g1.forall_id, .BOOLEAN⟩,
          ⟨c.map_.emplace ⟨g1.next_id, "forall" ++ toString g1.forall_id, .BOOLEAN⟩
            (.And (FormulaSet.ofList (L.map (hoist vars))))⟩,
          { g1 with next_id := g1.next_id + 1, forall_id := g1.forall_id + 1 })) := by
  rw [Visit_Forall, h]
  refine ⟨?_, ?_⟩
  · rintro x rfl
    rfl
  · intro hlen
    match L, hlen with
    | [], _ => rfl
    | [x], hlen => simp at hlen
    | x :: y :: rest, _ => rfl

theorem ConvertFrom_vars {P : Variable → Prop} {f head : Formula} {Δ : DefinitionMap}
    {n n' : Nat} {L : List Formula} (hf : VisitFacts f head Δ n n')
    (hc : Cnfizer.ConvertFrom head Δ = .ok L) (hh : ∀ v ∈ head.GetVariables, P v)
    (hΔ : ∀ k ∈ Δ, P k.1 ∧ ∀ v ∈ k.2.GetVariables, P v) :
    ∀ x ∈ L, ∀ v ∈ x.GetVariables, P v := by
  intro x hx v hv
  rcases ConvertFrom_of_facts hf hc with ⟨_, hL⟩ | ⟨p, body, Δ0, clauses, hΔ', _, _, hcl, hL⟩
  · subst hL
    simp only [List.mem_singleton] at hx
    subst hx
    exact hh v hv
  · subst hL
    rcases List.mem_append.1 hx with hx | hx
    · obtain ⟨q, hq, c1, h1, h2⟩ := mem_CnfizeAll hcl hx
      have hq' := hΔ q (by rw [hΔ']; exact List.mem_append_left _ hq)
      rcases vars_of_Cnfize h1 h2 v hv with rfl | h3
      · exact hq'.1
      · exact hq'.2 v h3
    · have hb := hΔ (p, body) (by rw [hΔ']; simp)
      unfold head_clauses at hx
      split at hx
      · exact mem_vars_get_operands hb.2 x hx v hv
      · simp only [List.mem_singleton] at hx
        subst hx
        exact hb.2 v hv

theorem VisitAlike_leaf {f : Formula} (h : returned_unchanged f = true) (g1 : Globals) :
    VisitAlike f f [] g1 g1 := by
  intro g2
  refine ⟨[], ⟨by simp, by simp, by simp⟩, by simp, ?_⟩
  intro c2 ρ P _ _ hf _
  refine ⟨?_, fun v hv => (hf v hv).1, by simp⟩
  rw [Visit_returned_unchanged h, Formula_rename_id ρ f (fun v hv => (hf v hv).2),
    Globals.shift_self]
  simp [DefinitionMap.rename]

theorem VisitOperandsAlike_nil (g1 : Globals) : VisitOperandsAlike [] [] [] g1 g1 := by
  intro g2
  refine ⟨[], ⟨by simp, by simp, by simp⟩, by simp, ?_⟩
  intro c2 ρ P _ _ _ _
  refine ⟨?_, by simp, by simp⟩
  rw [Globals.shift_self]
  simp [Cnfizer.VisitOperands, DefinitionMap.rename]

theorem ProxyLog.append {A1 A2 : List (Variable × Variable)} {g1 g1a g1' g2 : Globals}
    (h1 : ProxyLog A1 g1 g1a g2) (h2 : ProxyLog A2 g1a g1' (Globals.shift g1 g1a g2))
    (hle1 : g1.le g1a) (hle2 : g1a.le g1') : ProxyLog (A1 ++ A2) g1 g1' g2 := by
  have a1 := hle1.1
  have a2 := hle2.1
  constructor
  · intro p hp
    rcases List.mem_append.1 hp with hp | hp
    · have := h1.range p hp
      omega
    · have := h2.range p hp
      simp only [Globals.shift] at this
      omega
  · rw [List.map_append]
    refine List.Nodup.append h1.nodup h2.nodup ?_
    intro i hi1 hi2
    obtain ⟨p, hp, rfl⟩ := List.mem_map.1 hi1
    obtain ⟨q, hq, hqp⟩ := List.mem_map.1 hi2
    have := h1.range p hp
    have := h2.range q hq
    have hqp' : q.1.id = p.1.id := hqp
    omega
  · have := h1.length
    have := h2.length
    simp only [List.length_append]
    omega

theorem VisitOperandsAlike_cons {f r1 : Formula} {fs visited : List Formula}
    {Δ1 Δ2 : DefinitionMap} {g1 g1a g1' : Globals} (h1 : VisitAlike f r1 Δ1 g1 g1a)
    (h2 : VisitOperandsAlike fs visited Δ2 g1a g1') (hle1 : g1.le g1a) (hle2 : g1a.le g1') :
    VisitOperandsAlike (f :: fs) (r1 :: visited) (Δ1 ++ Δ2) g1 g1' := by
  intro g2
  obtain ⟨A1, hA1, hk1, hr1⟩ := h1 g2
  obtain ⟨A2, hA2, hk2, hr2⟩ := h2 (Globals.shift g1 g1a g2)
  refine ⟨A1 ++ A2, hA1.append hA2 hle1 hle2, ?_, ?_⟩
  · intro k hk
    rw [List.map_append]
    rcases List.mem_append.1 hk with hk | hk
    · exact List.mem_append_left _ (hk1 k hk)
    · exact List.mem_append_right _ (hk2 k hk)
  · intro c2 ρ P hc2 hρ hops hA
    have hA1' : ∀ p ∈ A1, P p.1 ∧ ρ p.1 = p.2 := fun p hp => hA p (List.mem_append_left _ hp)
    have hA2' : ∀ p ∈ A2, P p.1 ∧ ρ p.1 = p.2 := fun p hp => hA p (List.mem_append_right _ hp)
    obtain ⟨e1, t1, d1⟩ := hr1 c2 ρ P hc2 hρ (hops f (List.mem_cons_self _ _)) hA1'
    have hc2a : ∀ p ∈ (⟨c2.map_ ++ Δ1.rename ρ⟩ : Cnfizer).map_,
        p.1.id < (Globals.shift g1 g1a g2).next_id := by
      intro p hp
      have a1 := hle1.1
      rcases List.mem_append.1 hp with hp | hp
      · have := hc2 p hp
        simp only [Globals.shift]
        omega
      · simp only [DefinitionMap.rename, List.mem_map] at hp
        obtain ⟨k, hk, rfl⟩ := hp
        have := hA1.image hA1' (hk1 k hk)
        simp only [Globals.shift]
        omega
    obtain ⟨e2, t2, d2⟩ := hr2 ⟨c2.map_ ++ Δ1.rename ρ⟩ ρ P hc2a hρ
      (fun o ho => hops o (List.mem_cons_of_mem _ ho)) hA2'
    refine ⟨?_, ?_, ?_⟩
    · simp only [Cnfizer.VisitOperands, e1, e2, Globals.shift_trans g2 hle1 hle2]
      simp [DefinitionMap.rename]
    · intro x hx
      rcases List.mem_cons.1 hx with rfl | hx
      · exact t1
      · exact t2 x hx
    · intro k hk
      rcases List.mem_append.1 hk with hk | hk
      · exact d1 k hk
      · exact d2 k hk

theorem ProxyLog.snoc {A : List (Variable × Variable)} {g1 g1s g1' g2 : Globals}
    (h : ProxyLog A g1 g1s g2) (hle : g1.le g1s) (b1 b2 : Variable)
    (hb1 : b1.id = g1s.next_id) (hb2 : b2.id = (Globals.shift g1 g1s g2).next_id)
    (hn : g1'.next_id = g1s.next_id + 1) : ProxyLog (A ++ [(b1, b2)]) g1 g1' g2 := by
  have a1 := hle.1
  simp only [Globals.shift] at hb2
  constructor
  · intro p hp
    rcases List.mem_append.1 hp with hp | hp
    · have := h.range p hp
      omega
    · simp only [List.mem_singleton] at hp
      subst hp
      simp only
      omega
  · rw [List.map_append]
    refine List.Nodup.append h.nodup (by simp) ?_
    intro i hi1 hi2
    obtain ⟨p, hp, rfl⟩ := List.mem_map.1 hi1
    simp only [List.map_cons, List.map_nil, List.mem_singleton] at hi2
    have := h.range p hp
    omega
  · have := h.length
    simp only [List.length_append, List.length_singleton]
    omega

theorem VisitAlike_snoc {f : Formula} {ops visited : List Formula} {Δ : DefinitionMap}
    {g1 g1s g1' : Globals} (h : VisitOperandsAlike ops visited Δ g1 g1s) (hle : g1.le g1s)
    (hf : ∀ o ∈ ops, ∀ v ∈ o.GetVariables, v ∈ f.GetVariables)
    (name : Globals → String) (body : List Formula → Formula) (next : Globals → Globals)
    (hbody : ∀ v l, v ∈ (body (FormulaSet.ofList l)).GetVariables → ∃ x ∈ l, v ∈ x.GetVariables)
    (hren : ∀ ρ l, (body l).rename ρ = body (l.map (Formula.rename ρ)))
    (hnext : g1' = next g1s) (hn : (next g1s).next_id = g1s.next_id + 1)
    (hshift : ∀ g2, next (Globals.shift g1 g1s g2) = Globals.shift g1 (next g1s) g2)
    (hvisit : ∀ (c : Cnfizer) (g gs : Globals) (cs : Cnfizer) (vis : List Formula),
      Cnfizer.VisitOperands ops c g = .ok (vis, cs, gs) →
      Cnfizer.Visit f c g = .ok (.Var ⟨gs.next_id, name gs, .BOOLEAN⟩,
        ⟨cs.map_.emplace ⟨gs.next_id, name gs, .BOOLEAN⟩ (body (FormulaSet.ofList vis))⟩,
        next gs)) :
    VisitAlike f (.Var ⟨g1s.next_id, name g1s, .BOOLEAN⟩)
      (Δ ++ [(⟨g1s.next_id, name g1s, .BOOLEAN⟩, body (FormulaSet.ofList visited))]) g1 g1' := by
  subst hnext
  intro g2
  obtain ⟨A, hA, hk, hr⟩ := h g2
  have hlog : ProxyLog (A ++ [((⟨g1s.next_id, name g1s, .BOOLEAN⟩ : Variable),
      (⟨(Globals.shift g1 g1s g2).next_id, name (Globals.shift g1 g1s g2), .BOOLEAN⟩ :
        Variable))]) g1 (next g1s) g2 :=
    hA.snoc hle _ _ rfl rfl hn
  refine ⟨_, hlog, ?_, ?_⟩
  · intro k hk'
    rw [List.map_append]
    rcases List.mem_append.1 hk' with hk' | hk'
    · exact List.mem_append_left _ (hk k hk')
    · simp only [List.mem_singleton] at hk'
      subst hk'
      simp
  · intro c2 ρ P hc2 hρ hfv hAρ
    have hA' : ∀ p ∈ A, P p.1 ∧ ρ p.1 = p.2 := fun p hp => hAρ p (List.mem_append_left _ hp)
    have hb := hAρ _ (List.mem_append_right A (List.mem_singleton_self _))
    simp only at hb
    obtain ⟨e, t, d⟩ := hr c2 ρ P hc2 hρ (fun o ho v hv => hfv v (hf o ho v hv)) hA'
    have a1 := hle.1
    refine ⟨?_, ?_, ?_⟩
    · rw [hvisit c2 g2 _ _ _ e]
      have hfresh := emplace_rename_fresh hA hA' c2 Δ hc2 hk
        ⟨(Globals.shift g1 g1s g2).next_id, name (Globals.shift g1 g1s g2), .BOOLEAN⟩
        (body (FormulaSet.ofList (visited.map (Formula.rename ρ))))
        (by simp only [Globals.shift]; omega)
        (by
          intro k hk'
          obtain ⟨p, hp, rfl⟩ := List.mem_map.1 hk'
          have := hA.range p hp
          simp only [Globals.shift]
          omega)
      simp only [hfresh, hshift]
      rw [ofList_rename hρ visited t]
      simp only [Formula.rename, hb.2, DefinitionMap.rename, List.map_append, List.map_cons,
        List.map_nil, hren, List.append_assoc]
    · intro v hv
      simp only [Formula.GetVariables, List.mem_singleton] at hv
      subst hv
      exact hb.1
    · intro k hk'
      rcases List.mem_append.1 hk' with hk' | hk'
      · exact d k hk'
      · simp only [List.mem_singleton] at hk'
        subst hk'
        intro v hv
        obtain ⟨x, hx, hvx⟩ := hbody v visited hv
        exact t x hx v hvx

theorem VisitAlike_And {ops visited : List Formula} {Δ : DefinitionMap} {g1 g1s : Globals}
    (h : VisitOperandsAlike ops visited Δ g1 g1s) (hle : g1.le g1s) :
    VisitAlike (.And ops) (.Var ⟨g1s.next_id, "conj" ++ toString g1s.conj_id, .BOOLEAN⟩)
      (Δ ++ [(⟨g1s.next_id, "conj" ++ toString g1s.conj_id, .BOOLEAN⟩,
        .And (FormulaSet.ofList visited))]) g1
      { g1s with next_id := g1s.next_id + 1, conj_id := g1s.conj_id + 1 } := by
  refine VisitAlike_snoc h hle (fun o ho v hv => mem_GetVariables_And.2 ⟨o, ho, hv⟩)
    (fun g => "conj" ++ toString g.conj_id) Formula.And
    (fun g => { g with next_id := g.next_id + 1, conj_id := g.conj_id + 1 })
    ?_ (fun ρ l => rename_And ρ l) rfl rfl ?_ ?_
  · intro v l hv
    obtain ⟨x, hx, hvx⟩ := mem_GetVariables_And.1 hv
    exact ⟨x, FormulaSet.mem_ofList.1 hx, hvx⟩
  · intro g2
    obtain ⟨a1, a2, a3, a4⟩ := hle
    simp only [Globals.shift, Globals.mk.injEq]
    refine ⟨?_, ?_, trivial, trivial⟩ <;> omega
  · intro c g gs cs vis hv
    simp [Cnfizer.Visit, hv, Globals.new_variable, make_conjunction]

theorem VisitAlike_Or {ops visited : List Formula} {Δ : DefinitionMap} {g1 g1s : Globals}
    (h : VisitOperandsAlike ops visited Δ g1 g1s) (hle : g1.le g1s) :
    VisitAlike (.Or ops) (.Var ⟨g1s.next_id, "disj" ++ toString g1s.disj_id, .BOOLEAN⟩)
      (Δ ++ [(⟨g1s.next_id, "disj" ++ toString g1s.disj_id, .BOOLEAN⟩,
        .Or (FormulaSet.ofList visited))]) g1
      { g1s with next_id := g1s.next_id + 1, disj_id := g1s.disj_id + 1 } := by
  refine VisitAlike_snoc h hle (fun o ho v hv => mem_GetVariables_Or.2 ⟨o, ho, hv⟩)
    (fun g => "disj" ++ toString g.disj_id) Formula.Or
    (fun g => { g with next_id := g.next_id + 1, disj_id := g.disj_id + 1 })
    ?_ (fun ρ l => rename_Or ρ l) rfl rfl ?_ ?_
  · intro v l hv
    obtain ⟨x, hx, hvx⟩ := mem_GetVariables_Or.1 hv
    exact ⟨x, FormulaSet.mem_ofList.1 hx, hvx⟩
  · intro g2
    obtain ⟨a1, a2, a3, a4⟩ := hle
    simp only [Globals.shift, Globals.mk.injEq]
    refine ⟨?_, trivial, ?_, trivial⟩ <;> omega
  · intro c g gs cs vis hv
    simp [Cnfizer.Visit, hv, Globals.new_variable, make_disjunction]

theorem VisitAlike_Not {operand t : Formula} {Δ : DefinitionMap} {g1 g1' : Globals}
    (ha : is_atomic operand = false)
    (h : VisitAlike operand t Δ { g1 with next_id := g1.next_id + 1 } g1')
    (hle : Globals.le { g1 with next_id := g1.next_id + 1 } g1') :
    VisitAlike (.Not operand) (.Var ⟨g1.next_id, "neg", .BOOLEAN⟩)
      (Δ ++ [(⟨g1.next_id, "neg", .BOOLEAN⟩, t.lnot)]) g1 g1' := by
  intro g2
  obtain ⟨A, hA, hk, hr⟩ := h { g2 with next_id := g2.next_id + 1 }
  obtain ⟨a1, a2, a3, a4⟩ := hle
  simp only at a1 a2 a3 a4
  have hlog : ProxyLog (((⟨g1.next_id, "neg", .BOOLEAN⟩ : Variable),
      (⟨g2.next_id, "neg", .BOOLEAN⟩ : Variable)) :: A) g1 g1' g2 := by
    constructor
    · intro p hp
      rcases List.mem_cons.1 hp with rfl | hp
      · simp only
        omega
      · have := hA.range p hp
        simp only at this
        omega
    · simp only [List.map_cons, List.nodup_cons]
      refine ⟨?_, hA.nodup⟩
      intro hi
      obtain ⟨p, hp, hpe⟩ := List.mem_map.1 hi
      have := hA.range p hp
      simp only at this hpe
      omega
    · have := hA.length
      simp only [List.length_cons] at this ⊢
      omega
  have hshift : Globals.shift { g1 with next_id := g1.next_id + 1 } g1'
      { g2 with next_id := g2.next_id + 1 } = Globals.shift g1 g1' g2 := by
    simp only [Globals.shift, Globals.mk.injEq]
    refine ⟨?_, trivial, trivial, trivial⟩
    omega
  refine ⟨_, hlog, ?_, ?_⟩
  · intro k hk'
    rcases List.mem_append.1 hk' with hk' | hk'
    · exact List.mem_map.2 (by
        obtain ⟨p, hp, hpe⟩ := List.mem_map.1 (hk k hk')
        exact ⟨p, List.mem_cons_of_mem _ hp, hpe⟩)
    · simp only [List.mem_singleton] at hk'
      subst hk'
      simp
  · intro c2 ρ P hc2 hρ hfv hAρ
    have hA' : ∀ p ∈ A, P p.1 ∧ ρ p.1 = p.2 := fun p hp => hAρ p (List.mem_cons_of_mem _ hp)
    have hb := hAρ _ (List.mem_cons_self _ _)
    simp only at hb
    obtain ⟨e, t', d⟩ := hr c2 ρ P (fun p hp => Nat.lt_succ_of_lt (hc2 p hp)) hρ
      (fun v hv => hfv v (by simpa [Formula.GetVariables] using hv)) hA'
    refine ⟨?_, ?_, ?_⟩
    · have hfresh : DefinitionMap.emplace (c2.map_ ++ Δ.rename ρ)
          ⟨g2.next_id, "neg", .BOOLEAN⟩ ((t.rename ρ).lnot) =
          c2.map_ ++ Δ.rename ρ ++ [(⟨g2.next_id, "neg", .BOOLEAN⟩, (t.rename ρ).lnot)] := by
        apply DefinitionMap.emplace_fresh
        intro p hp
        rcases List.mem_append.1 hp with hp | hp
        · have := hc2 p hp
          simp only
          omega
        · simp only [DefinitionMap.rename, List.mem_map] at hp
          obtain ⟨k, hk', rfl⟩ := hp
          have := hA.image hA' (hk k hk')
          simp only at this ⊢
          omega
      simp only [Cnfizer.Visit, ha, Globals.new_variable, e, hfresh, hshift,
        Bool.false_eq_true, if_false]
      simp only [Formula.rename, hb.2, DefinitionMap.rename, List.map_append, List.map_cons,
        List.map_nil, lnot_rename, List.append_assoc]
    · intro v hv
      simp only [Formula.GetVariables, List.mem_singleton] at hv
      subst hv
      exact hb.1
    · intro k hk'
      rcases List.mem_append.1 hk' with hk' | hk'
      · exact d k hk'
      · simp only [List.mem_singleton] at hk'
        subst hk'
        intro v hv
        rw [GetVariables_lnot] at hv
        exact t' v hv

theorem Convert_of_alike {f head : Formula} {Δ : DefinitionMap} {g1 g1' : Globals}
    {cnf : List Formula} (h : VisitAlike f head Δ g1 g1')
    (hf : VisitFacts f head Δ g1.next_id g1'.next_id)
    (hc : Cnfizer.ConvertFrom head Δ = .ok cnf) (g2 : Globals) :
    ∃ A : List (Variable × Variable), ProxyLog A g1 g1' g2 ∧
      (∀ k ∈ Δ, k.1 ∈ A.map Prod.fst) ∧
      ∀ (c2 : Cnfizer) (ρ : Variable → Variable) (P : Variable → Prop), Renaming ρ P →
        (∀ v ∈ f.GetVariables, P v ∧ ρ v = v) → (∀ p ∈ A, P p.1 ∧ ρ p.1 = p.2) →
        Cnfizer.Convert c2 f g2 =
            .ok (cnf.map (Formula.rename ρ), ⟨Δ.rename ρ⟩, Globals.shift g1 g1' g2) ∧
          ∀ x ∈ cnf, ∀ v ∈ x.GetVariables, P v := by
  obtain ⟨A, hA, hk, hr⟩ := h g2
  refine ⟨A, hA, hk, ?_⟩
  intro c2 ρ P hρ hfv hAρ
  obtain ⟨e, t, d⟩ := hr ⟨[]⟩ ρ P (by simp) hρ hfv hAρ
  have hm : ∀ k ∈ Δ, P k.1 ∧ ∀ v ∈ k.2.GetVariables, P v :=
    fun k hk' => ⟨(hA.image hAρ (hk k hk')).1, d k hk'⟩
  have hh : Δ ≠ [] → ∃ p, head = .Var p ∧ P p := by
    intro hne
    rcases hf.head with h0 | ⟨p, body, Δ0, _, hp⟩
    · exact absurd h0 hne
    · exact ⟨p, hp, t p (by simp [hp, Formula.GetVariables])⟩
  have hcr := ConvertFrom_rename hρ head Δ hh hm
  rw [hc] at hcr
  refine ⟨?_, ConvertFrom_vars hf hc t hm⟩
  unfold Cnfizer.Convert
  simp only [e, List.nil_append, hcr]

theorem VisitAlike_Forall_single {vars : List Variable} {body head x : Formula}
    {Δ : DefinitionMap} {g1 g1' : Globals} (h : VisitAlike body head Δ g1 g1')
    (hf : VisitFacts body head Δ g1.next_id g1'.next_id)
    (hc : Cnfizer.ConvertFrom head Δ = .ok [x]) :
    VisitAlike (.Forall vars body) (hoist vars x) [] g1 g1' := by
  intro g2
  obtain ⟨A, hA, _, hr⟩ := Convert_of_alike h hf hc g2
  refine ⟨A, hA, by simp, ?_⟩
  intro c2 ρ P hc2 hρ hfv hAρ
  obtain ⟨e, t⟩ := hr ⟨[]⟩ ρ P hρ
    (fun v hv => hfv v (by simp [Formula.GetVariables, hv])) hAρ
  have hvars : ∀ w ∈ vars, P w ∧ ρ w = w :=
    fun w hw => hfv w (by simp [Formula.GetVariables, hw])
  have hx : ∀ v ∈ x.GetVariables, P v := t x (by simp)
  refine ⟨?_, ?_, by simp⟩
  · rw [(Visit_Forall_of_Convert c2 vars body g2 _ _ _ e).1 (x.rename ρ) rfl,
      hoist_rename hρ vars x hvars hx]
    simp [DefinitionMap.rename]
  · intro v hv
    rcases GetVariables_hoist hv with hv | hv
    · exact (hvars v hv).1
    · exact hx v hv

theorem VisitAlike_Forall_proxy {vars : List Variable} {body head : Formula}
    {cnf : List Formula} {Δ : DefinitionMap} {g1 g1n : Globals}
    (h : VisitAlike body head Δ g1 g1n)
    (hf : VisitFacts body head Δ g1.next_id g1n.next_id)
    (hc : Cnfizer.ConvertFrom head Δ = .ok cnf) (hlen : cnf.length ≠ 1) (hle : g1.le g1n) :
    VisitAlike (.Forall vars body)
      (.Var ⟨g1n.next_id, "forall" ++ toString g1n.forall_id, .BOOLEAN⟩)
      [(⟨g1n.next_id, "forall" ++ toString g1n.forall_id, .BOOLEAN⟩,
        .And (FormulaSet.ofList (cnf.map (hoist vars))))] g1
      { g1n with next_id := g1n.next_id + 1, forall_id := g1n.forall_id + 1 } := by
  intro g2
  obtain ⟨A, hA, _, hr⟩ := Convert_of_alike h hf hc g2
  have hlog : ProxyLog (A ++ [((⟨g1n.next_id, "forall" ++ toString g1n.forall_id,
      .BOOLEAN⟩ : Variable),
      (⟨(Globals.shift g1 g1n g2).next_id,
        "forall" ++ toString (Globals.shift g1 g1n g2).forall_id, .BOOLEAN⟩ : Variable))])
      g1 { g1n with next_id := g1n.next_id + 1, forall_id := g1n.forall_id + 1 } g2 :=
    hA.snoc hle _ _ rfl rfl rfl
  refine ⟨_, hlog, by simp, ?_⟩
  intro c2 ρ P hc2 hρ hfv hAρ
  have hA' : ∀ p ∈ A, P p.1 ∧ ρ p.1 = p.2 := fun p hp => hAρ p (List.mem_append_left _ hp)
  have hb := hAρ _ (List.mem_append_right A (List.mem_singleton_self _))
  simp only at hb
  obtain ⟨e, t⟩ := hr ⟨[]⟩ ρ P hρ
    (fun v hv => hfv v (by simp [Formula.GetVariables, hv])) hA'
  have hvars : ∀ w ∈ vars, P w ∧ ρ w = w :=
    fun w hw => hfv w (by simp [Formula.GetVariables, hw])
  have hhoist : ∀ y ∈ cnf.map (hoist vars), ∀ v ∈ y.GetVariables, P v := by
    intro y hy v hv
    obtain ⟨x, hx, rfl⟩ := List.mem_map.1 hy
    rcases GetVariables_hoist hv with hv | hv
    · exact (hvars v hv).1
    · exact t x hx v hv
  have hmap : (cnf.map (Formula.rename ρ)).map (hoist vars) =
      (cnf.map (hoist vars)).map (Formula.rename ρ) := by
    rw [List.map_map, List.map_map]
    apply List.map_congr_left
    intro x hx
    exact hoist_rename hρ vars x hvars (t x hx)
  obtain ⟨a1, a2, a3, a4⟩ := hle
  have hfresh : DefinitionMap.emplace c2.map_
      ⟨(Globals.shift g1 g1n g2).next_id,
        "forall" ++ toString (Globals.shift g1 g1n g2).forall_id, .BOOLEAN⟩
      (.And (FormulaSet.ofList ((cnf.map (Formula.rename ρ)).map (hoist vars)))) =
      c2.map_ ++ [(⟨(Globals.shift g1 g1n g2).next_id,
        "forall" ++ toString (Globals.shift g1 g1n g2).forall_id, .BOOLEAN⟩,
        .And (FormulaSet.ofList ((cnf.map (Formula.rename ρ)).map (hoist vars))))] := by
    apply DefinitionMap.emplace_fresh
    intro p hp
    have := hc2 p hp
    simp only [Globals.shift]
    omega
  have hshift : ({ Globals.shift g1 g1n g2 with
      next_id := (Globals.shift g1 g1n g2).next_id + 1,
      forall_id := (Globals.shift g1 g1n g2).forall_id + 1 } : Globals) =
      Globals.shift g1
        ({ g1n with next_id := g1n.next_id + 1, forall_id := g1n.forall_id + 1 } : Globals)
        g2 := by
    simp only [Globals.shift, Globals.mk.injEq]
    refine ⟨?_, trivial, trivial, ?_⟩ <;> omega
  refine ⟨?_, ?_, ?_⟩
  · rw [(Visit_Forall_of_Convert c2 vars body g2 _ _ _ e).2 (by simpa using hlen), hfresh,
      hshift, hmap, ofList_rename hρ _ hhoist]
    simp only [DefinitionMap.rename, List.map_cons, List.map_nil, rename_And]
    simp only [Formula.rename, hb.2]
  · intro v hv
    simp only [Formula.GetVariables, List.mem_singleton] at hv
    subst hv
    exact hb.1
  · intro k hk'
    simp only [List.mem_singleton] at hk'
    subst hk'
    intro v hv
    obtain ⟨y, hy, hvy⟩ := mem_GetVariables_And.1 hv
    exact hhoist y (FormulaSet.mem_ofList.1 hy) v hvy

mutual
theorem Visit_alike : ∀ (f : Formula) (c : Cnfizer) (g : Globals) (r : Formula)
    (c' : Cnfizer) (g' : Globals), Cnfizer.Visit f c g = .ok (r, c', g') →
    (∀ p ∈ c.map_, p.1.id < g.next_id) →
    ∃ Δ, c'.map_ = c.map_ ++ Δ ∧ g.le g' ∧ VisitAlike f r Δ g g'
  | .False, c, g, r, c', g', h, _ => by
    simp only [Cnfizer.Visit, Except.ok.injEq, Prod.mk.injEq] at h
    obtain ⟨rfl, rfl, rfl⟩ := h
    exact ⟨[], by simp, g.le_refl, VisitAlike_leaf (by rfl) g⟩
  | .True, c, g, r, c', g', h, _ => by
    simp only [Cnfizer.Visit, Except.ok.injEq, Prod.mk.injEq] at h
    obtain ⟨rfl, rfl, rfl⟩ := h
    exact ⟨[], by simp, g.le_refl, VisitAlike_leaf (by rfl) g⟩
  | .Var v, c, g, r, c', g', h, _ => by
    simp only [Cnfizer.Visit, Except.ok.injEq, Prod.mk.injEq] at h
    obtain ⟨rfl, rfl, rfl⟩ := h
    exact ⟨[], by simp, g.le_refl, VisitAlike_leaf (by rfl) g⟩
  | .Eq a b, c, g, r, c', g', h, _ => by
    simp only [Cnfizer.Visit, Except.ok.injEq, Prod.mk.injEq] at h
    obtain ⟨rfl, rfl, rfl⟩ := h
    exact ⟨[], by simp, g.le_refl, VisitAlike_leaf (by rfl) g⟩
  | .Neq a b, c, g, r, c', g', h, _ => by
    simp only [Cnfizer.Visit, Except.ok.injEq, Prod.mk.injEq] at h
    obtain ⟨rfl, rfl, rfl⟩ := h
    exact ⟨[], by simp, g.le_refl, VisitAlike_leaf (by rfl) g⟩
  | .Gt a b, c, g, r, c', g', h, _ => by
    simp only [Cnfizer.Visit, Except.ok.injEq, Prod.mk.injEq] at h
    obtain ⟨rfl, rfl, rfl⟩ := h
    exact ⟨[], by simp, g.le_refl, VisitAlike_leaf (by rfl) g⟩
  | .Geq a b, c, g, r, c', g', h, _ => by
    simp only [Cnfizer.Visit, Except.ok.injEq, Prod.mk.injEq] at h
    obtain ⟨rfl, rfl, rfl⟩ := h
    exact ⟨[], by simp, g.le_refl, VisitAlike_leaf (by rfl) g⟩
  | .Lt a b, c, g, r, c', g', h, _ => by
    simp only [Cnfizer.Visit, Except.ok.injEq, Prod.mk.injEq] at h
    obtain ⟨rfl, rfl, rfl⟩ := h
    exact ⟨[], by simp, g.le_refl, VisitAlike_leaf (by rfl) g⟩
  | .Leq a b, c, g, r, c', g', h, _ => by
    simp only [Cnfizer.Visit, Except.ok.injEq, Prod.mk.injEq] at h
    obtain ⟨rfl, rfl, rfl⟩ := h
    exact ⟨[], by simp, g.le_refl, VisitAlike_leaf (by rfl) g⟩
  | .Forall vars body, c, g, r, c', g', h, hk => by
    obtain ⟨cnf, c1, g1, hconv, hcase⟩ := Visit_Forall_ok h
    obtain ⟨head, hv, hfrom⟩ := Convert_ok hconv
    obtain ⟨Δ1, hΔ1, hle1, ha1⟩ := Visit_alike body ⟨[]⟩ g head c1 g1 hv (by simp)
    obtain ⟨Δ1', hΔ1', hf1⟩ := Visit_facts body ⟨[]⟩ g head c1 g1 hv (by simp)
    obtain rfl : Δ1' = Δ1 := List.append_cancel_left (hΔ1'.symm.trans hΔ1)
    simp only [List.nil_append] at hΔ1
    rw [hΔ1] at hfrom
    rcases hcase with ⟨x, rfl, rfl, rfl, rfl⟩ | ⟨hlen, rfl, rfl, rfl⟩
    · exact ⟨[], by simp, hle1, VisitAlike_Forall_single ha1 hf1 hfrom⟩
    · have hfresh : ∀ p ∈ c.map_, p.1.id ≠ g1.next_id := by
        intro p hp
        have := hk p hp
        have := hf1.le
        omega
      refine ⟨[(⟨g1.next_id, "forall" ++ toString g1.forall_id, .BOOLEAN⟩,
        .And (FormulaSet.ofList (cnf.map (hoist vars))))], ?_, ?_,
        VisitAlike_Forall_proxy ha1 hf1 hfrom hlen hle1⟩
      · simp only
        rw [DefinitionMap.emplace_fresh _ _ _ hfresh]
      · obtain ⟨a1, a2, a3, a4⟩ := hle1
        exact ⟨Nat.le_succ_of_le a1, a2, a3, Nat.le_succ_of_le a4⟩
  | .And ops, c, g, r, c', g', h, hk => by
    obtain ⟨visited, c1, g1, hv, rfl, rfl, rfl⟩ := Visit_And_ok h
    obtain ⟨Δ, hΔ, hle, ha⟩ := VisitOperands_alike ops c g visited c1 g1 hv hk
    obtain ⟨Δ', hΔ', hf⟩ := VisitOperands_facts ops c g visited c1 g1 hv hk
    obtain rfl : Δ' = Δ := List.append_cancel_left (hΔ'.symm.trans hΔ)
    have hfresh : ∀ p ∈ c1.map_, p.1.id ≠ g1.next_id := by
      intro p hp
      rw [hΔ] at hp
      have hle := hf.le
      rcases List.mem_append.1 hp with hp | hp
      · have := hk p hp
        omega
      · have := hf.keys p hp
        omega
    refine ⟨Δ' ++ [(⟨g1.next_id, "conj" ++ toString g1.conj_id, .BOOLEAN⟩,
      .And (FormulaSet.ofList visited))], ?_, ?_, VisitAlike_And ha hle⟩
    · simp only
      rw [DefinitionMap.emplace_fresh _ _ _ hfresh, hΔ, List.append_assoc]
    · obtain ⟨a1, a2, a3, a4⟩ := hle
      exact ⟨Nat.le_succ_of_le a1, Nat.le_succ_of_le a2, a3, a4⟩
  | .Or ops, c, g, r, c', g', h, hk => by
    obtain ⟨visited, c1, g1, hv, rfl, rfl, rfl⟩ := Visit_Or_ok h
    obtain ⟨Δ, hΔ, hle, ha⟩ := VisitOperands_alike ops c g visited c1 g1 hv hk
    obtain ⟨Δ', hΔ', hf⟩ := VisitOperands_facts ops c g visited c1 g1 hv hk
    obtain rfl : Δ' = Δ := List.append_cancel_left (hΔ'.symm.trans hΔ)
    have hfresh : ∀ p ∈ c1.map_, p.1.id ≠ g1.next_id := by
      intro p hp
      rw [hΔ] at hp
      have hle := hf.le
      rcases List.mem_append.1 hp with hp | hp
      · have := hk p hp
        omega
      · have := hf.keys p hp
        omega
    refine ⟨Δ' ++ [(⟨g1.next_id, "disj" ++ toString g1.disj_id, .BOOLEAN⟩,
      .Or (FormulaSet.ofList visited))], ?_, ?_, VisitAlike_Or ha hle⟩
    · simp only
      rw [DefinitionMap.emplace_fresh _ _ _ hfresh, hΔ, List.append_assoc]
    · obtain ⟨a1, a2, a3, a4⟩ := hle
      exact ⟨Nat.le_succ_of_le a1, a2, Nat.le_succ_of_le a3, a4⟩
  | .Not operand, c, g, r, c', g', h, hk => by
    by_cases ha : is_atomic operand = true
    · simp only [Cnfizer.Visit, ha, if_true, Except.ok.injEq, Prod.mk.injEq] at h
      obtain ⟨rfl, rfl, rfl⟩ := h
      exact ⟨[], by simp, g.le_refl, VisitAlike_leaf (by simpa [returned_unchanged] using ha) g⟩
    · have ha' : is_atomic operand = false := by simpa using ha
      obtain ⟨t, c1, hv, rfl, rfl⟩ := Visit_Not_ok ha' h
      obtain ⟨Δ, hΔ, hle, hal⟩ := Visit_alike operand c { g with next_id := g.next_id + 1 }
        t c1 g' hv (fun p hp => Nat.lt_succ_of_lt (hk p hp))
      obtain ⟨Δ', hΔ', hf⟩ := Visit_facts operand c { g with next_id := g.next_id + 1 } t c1 g'
        hv (fun p hp => Nat.lt_succ_of_lt (hk p hp))
      obtain rfl : Δ' = Δ := List.append_cancel_left (hΔ'.symm.trans hΔ)
      have hfresh : ∀ p ∈ c1.map_, p.1.id ≠ g.next_id := by
        intro p hp
        rw [hΔ] at hp
        rcases List.mem_append.1 hp with hp | hp
        · have := hk p hp
          omega
        · have := hf.keys p hp
          simp only at this
          omega
      refine ⟨Δ' ++ [(⟨g.next_id, "neg", .BOOLEAN⟩, t.lnot)], ?_, ?_,
        VisitAlike_Not ha' hal hle⟩
      · simp only
        rw [DefinitionMap.emplace_fresh _ _ _ hfresh, hΔ, List.append_assoc]
      · obtain ⟨a1, a2, a3, a4⟩ := hle
        exact ⟨Nat.le_of_succ_le a1, a2, a3, a4⟩
theorem VisitOperands_alike : ∀ (ops : List Formula) (c : Cnfizer) (g : Globals)
    (visited : List Formula) (c' : Cnfizer) (g' : Globals),
    Cnfizer.VisitOperands ops c g = .ok (visited, c', g') →
    (∀ p ∈ c.map_, p.1.id < g.next_id) →
    ∃ Δ, c'.map_ = c.map_ ++ Δ ∧ g.le g' ∧ VisitOperandsAlike ops visited Δ g g'
  | [], c, g, visited, c', g', h, _ => by
    simp only [Cnfizer.VisitOperands, Except.ok.injEq, Prod.mk.injEq] at h
    obtain ⟨rfl, rfl, rfl⟩ := h
    exact ⟨[], by simp, g.le_refl, VisitOperandsAlike_nil g⟩
  | f :: fs, c, g, visited, c', g', h, hk => by
    obtain ⟨r1, c1, g1, vis, hv1, hv2, rfl⟩ := VisitOperands_cons_ok h
    obtain ⟨Δ1, hΔ1, hle1, ha1⟩ := Visit_alike f c g r1 c1 g1 hv1 hk
    obtain ⟨Δ1', hΔ1', hf1⟩ := Visit_facts f c g r1 c1 g1 hv1 hk
    obtain rfl : Δ1' = Δ1 := List.append_cancel_left (hΔ1'.symm.trans hΔ1)
    have hk1 : ∀ p ∈ c1.map_, p.1.id < g1.next_id := by
      intro p hp
      rw [hΔ1] at hp
      have hle := hf1.le
      rcases List.mem_append.1 hp with hp | hp
      · have := hk p hp
        omega
      · exact (hf1.keys p hp).2.1
    obtain ⟨Δ2, hΔ2, hle2, ha2⟩ := VisitOperands_alike fs c1 g1 vis c' g' hv2 hk1
    refine ⟨Δ1' ++ Δ2, ?_, Globals.le_trans hle1 hle2, VisitOperandsAlike_cons ha1 ha2 hle1 hle2⟩
    rw [hΔ2, hΔ1, List.append_assoc]
end

/-! ## The renaming of a record of proxies -/

mutual
theorem Formula_GetVariables_rename (ρ : Variable → Variable) :
    ∀ x : Formula, (x.rename ρ).GetVariables = x.GetVariables.map ρ
  | .False => rfl
  | .True => rfl
  | .Var _ => rfl
  | .Eq a b => by
    simp [Formula.rename, Formula.GetVariables, Expression_GetVariables_rename]
  | .Neq a b => by
    simp [Formula.rename, Formula.GetVariables, Expression_GetVariables_rename]
  | .Gt a b => by
    simp [Formula.rename, Formula.GetVariables, Expression_GetVariables_rename]
  | .Geq a b => by
    simp [Formula.rename, Formula.GetVariables, Expression_GetVariables_rename]
  | .Lt a b => by
    simp [Formula.rename, Formula.GetVariables, Expression_GetVariables_rename]
  | .Leq a b => by
    simp [Formula.rename, Formula.GetVariables, Expression_GetVariables_rename]
  | .And l => by
    simp [Formula.rename, Formula.GetVariables, GetVariablesOfOperands_rename ρ l]
  | .Or l => by
    simp [Formula.rename, Formula.GetVariables, GetVariablesOfOperands_rename ρ l]
  | .Not f => by
    simp [Formula.rename, Formula.GetVariables, Formula_GetVariables_rename ρ f]
  | .Forall vs f => by
    simp [Formula.rename, Formula.GetVariables, Formula_GetVariables_rename ρ f]
theorem GetVariablesOfOperands_rename (ρ : Variable → Variable) :
    ∀ l : List Formula,
      GetVariablesOfOperands (renameOperands ρ l) = (GetVariablesOfOperands l).map ρ
  | [] => rfl
  | f :: fs => by
    simp [renameOperands, GetVariablesOfOperands, Formula_GetVariables_rename ρ f,
      GetVariablesOfOperands_rename ρ fs]
end

theorem rename_by_of_not_mem :
    ∀ (A : List (Variable × Variable)) (v : Variable), v ∉ A.map Prod.fst → rename_by A v = v
  | [], _, _ => rfl
  | p :: rest, v, h => by
    simp only [List.map_cons, List.mem_cons, not_or] at h
    simp [rename_by, h.1, rename_by_of_not_mem rest v h.2]

theorem rename_by_of_mem :
    ∀ (A : List (Variable × Variable)), (A.map Prod.fst).Nodup →
      ∀ p ∈ A, rename_by A p.1 = p.2
  | [], _, p, hp => by simp at hp
  | q :: rest, hn, p, hp => by
    simp only [List.map_cons, List.nodup_cons] at hn
    rcases List.mem_cons.1 hp with rfl | hp
    · simp [rename_by]
    · have hne : p.1 ≠ q.1 := by
        intro he
        exact hn.1 (he ▸ List.mem_map_of_mem Prod.fst hp)
      simp [rename_by, hne, rename_by_of_mem rest hn.2 p hp]

theorem ProxyLog.nodup_fst {A : List (Variable × Variable)} {g1 g1' g2 : Globals}
    (hA : ProxyLog A g1 g1' g2) : (A.map Prod.fst).Nodup := by
  have h := hA.nodup
  have : A.map (fun p => p.1.id) = (A.map Prod.fst).map Variable.id := by
    simp [List.map_map, Function.comp]
  rw [this] at h
  exact List.Nodup.of_map _ h

theorem ProxyLog.nodup_snd {A : List (Variable × Variable)} {g1 g1' g2 : Globals}
    (hA : ProxyLog A g1 g1' g2) : (A.map (fun p => p.2.id)).Nodup := by
  have h := hA.nodup
  have hn : A.Nodup := List.Nodup.of_map _ h
  rw [List.nodup_map_iff_inj_on hn] at h ⊢
  intro p hp q hq hpq
  apply h p hp q hq
  have := hA.range p hp
  have := hA.range q hq
  omega

theorem ProxyLog.facts {A : List (Variable × Variable)} {g1 g1' g2 : Globals}
    (hA : ProxyLog A g1 g1' g2) (u : Variable)
    (hu : (u.id < g1.next_id ∧ u.id < g2.next_id) ∨ u ∈ A.map Prod.fst) :
    (rename_by A u = u ∧ u.id < g1.next_id ∧ u.id < g2.next_id) ∨
      (g1.next_id ≤ u.id ∧ (rename_by A u).id + g1.next_id = u.id + g2.next_id ∧
        u ∈ A.map Prod.fst) := by
  rcases hu with hu | hu
  · left
    refine ⟨rename_by_of_not_mem A u ?_, hu⟩
    intro hm
    obtain ⟨p, hp, rfl⟩ := List.mem_map.1 hm
    have := hA.range p hp
    omega
  · right
    obtain ⟨p, hp, rfl⟩ := List.mem_map.1 hu
    have := hA.range p hp
    rw [rename_by_of_mem A hA.nodup_fst p hp]
    exact ⟨this.1, this.2.2, hu⟩

theorem ProxyLog.eq_of_id {A : List (Variable × Variable)} {g1 g1' g2 : Globals}
    (hA : ProxyLog A g1 g1' g2) {u v : Variable} (hu : u ∈ A.map Prod.fst)
    (hv : v ∈ A.map Prod.fst) (h : u.id = v.id) : u = v := by
  obtain ⟨p, hp, rfl⟩ := List.mem_map.1 hu
  obtain ⟨q, hq, rfl⟩ := List.mem_map.1 hv
  have hn := hA.nodup
  rw [List.nodup_map_iff_inj_on (List.Nodup.of_map _ hn)] at hn
  rw [hn p hp q hq h]

theorem ProxyLog.renaming {A : List (Variable × Variable)} {g1 g1' g2 : Globals}
    (hA : ProxyLog A g1 g1' g2) :
    Renaming (rename_by A)
      (fun v => (v.id < g1.next_id ∧ v.id < g2.next_id) ∨ v ∈ A.map Prod.fst) := by
  constructor
  · intro u v hu hv
    have fu := hA.facts u hu
    have fv := hA.facts v hv
    rcases Nat.lt_trichotomy u.id v.id with h | h | h
    · have h' : (rename_by A u).id < (rename_by A v).id := by
        rcases fu with ⟨e1, _, _⟩ | ⟨_, e1, _⟩ <;> rcases fv with ⟨e2, _, _⟩ | ⟨_, e2, _⟩
        · rw [e1, e2]; exact h
        · rw [e1]; omega
        · omega
        · omega
      rw [(Variable.compare_of_id_lt h).1, (Variable.compare_of_id_lt h').1]
    · rcases fu with ⟨e1, _, _⟩ | ⟨_, e1, m1⟩ <;> rcases fv with ⟨e2, _, _⟩ | ⟨_, e2, m2⟩
      · rw [e1, e2]
      · omega
      · omega
      · rw [hA.eq_of_id m1 m2 h, Variable_compare_eq.2 rfl, Variable_compare_eq.2 rfl]
    · have h' : (rename_by A v).id < (rename_by A u).id := by
        rcases fu with ⟨e1, _, _⟩ | ⟨_, e1, _⟩ <;> rcases fv with ⟨e2, _, _⟩ | ⟨_, e2, _⟩
        · rw [e1, e2]; exact h
        · omega
        · rw [e2]; omega
        · omega
      rw [(Variable.compare_of_id_lt h).2, (Variable.compare_of_id_lt h').2]
  · intro u v hu hv
    have fu := hA.facts u hu
    have fv := hA.facts v hv
    have key : (rename_by A u).id = (rename_by A v).id ↔ u.id = v.id := by
      rcases fu with ⟨e1, _, _⟩ | ⟨_, e1, _⟩ <;> rcases fv with ⟨e2, _, _⟩ | ⟨_, e2, _⟩
      · rw [e1, e2]
      · rw [e1]; constructor <;> intro <;> omega
      · rw [e2]; constructor <;> intro <;> omega
      · constructor <;> intro <;> omega
    simp only [Variable.equal_to]
    by_cases h : u.id = v.id
    · simp [h, key.2 h]
    · have : (rename_by A u).id ≠ (rename_by A v).id := fun h' => h (key.1 h')
      simp [h, this]

theorem Renaming.mono {ρ : Variable → Variable} {P Q : Variable → Prop} (h : Renaming ρ P)
    (hQ : ∀ v, Q v → P v) : Renaming ρ Q :=
  ⟨fun u v hu hv => h.compare u v (hQ u hu) (hQ v hv),
    fun u v hu hv => h.ident u v (hQ u hu) (hQ v hv)⟩

/-! ## Two calls of `Convert` -/

theorem Convert_alike {f : Formula} (c1 c2 : Cnfizer) {g1 : Globals} (g2 : Globals)
    (hv1 : ∀ v ∈ f.GetVariables, v.id < g1.next_id)
    (hv2 : ∀ v ∈ f.GetVariables, v.id < g2.next_id)
    {L1 : List Formula} {c1' : Cnfizer} {g1' : Globals}
    (h : Cnfizer.Convert c1 f g1 = .ok (L1, c1', g1')) :
    ∃ A : List (Variable × Variable), ProxyLog A g1 g1' g2 ∧ g1.le g1' ∧
      (∀ k ∈ c1'.map_, k.1 ∈ A.map Prod.fst) ∧
      Cnfizer.Convert c2 f g2 =
        .ok (L1.map (Formula.rename (rename_by A)), ⟨c1'.map_.rename (rename_by A)⟩,
          Globals.shift g1 g1' g2) ∧
      ∀ x ∈ L1, ∀ v ∈ x.GetVariables, v ∈ f.GetVariables ∨ v ∈ A.map Prod.fst := by
  obtain ⟨head, hv, hfrom⟩ := Convert_ok h
  obtain ⟨Δ, hΔ, hle, ha⟩ := Visit_alike f ⟨[]⟩ g1 head c1' g1' hv (by simp)
  obtain ⟨Δ', hΔ', hf⟩ := Visit_facts f ⟨[]⟩ g1 head c1' g1' hv (by simp)
  obtain rfl : Δ' = Δ := List.append_cancel_left (hΔ'.symm.trans hΔ)
  simp only [List.nil_append] at hΔ
  rw [hΔ] at hfrom ⊢
  obtain ⟨A, hA, hk, hr⟩ := Convert_of_alike ha hf hfrom g2
  refine ⟨A, hA, hle, hk, ?_⟩
  have hρ : Renaming (rename_by A) (fun v => v ∈ f.GetVariables ∨ v ∈ A.map Prod.fst) :=
    hA.renaming.mono (fun v hv' => hv'.elim (fun h' => Or.inl ⟨hv1 v h', hv2 v h'⟩) Or.inr)
  have hfv : ∀ v ∈ f.GetVariables,
      (v ∈ f.GetVariables ∨ v ∈ A.map Prod.fst) ∧ rename_by A v = v := by
    intro v hv'
    refine ⟨Or.inl hv', rename_by_of_not_mem A v ?_⟩
    intro hm
    obtain ⟨p, hp, rfl⟩ := List.mem_map.1 hm
    have := hA.range p hp
    have := hv1 _ hv'
    omega
  have hAρ : ∀ p ∈ A, (p.1 ∈ f.GetVariables ∨ p.1 ∈ A.map Prod.fst) ∧
      rename_by A p.1 = p.2 :=
    fun p hp => ⟨Or.inr (List.mem_map_of_mem Prod.fst hp), rename_by_of_mem A hA.nodup_fst p hp⟩
  exact hr c2 (rename_by A) _ hρ hfv hAρ

/-- C13. Determinism up to proxy renaming. Let every variable of `f` have been
handed out before either call (its identity is below `next_id` of both process
states). If a call of `Convert` on `f` from the process state `g1` returns the
list `L1`, then a call on `f` from any process state `g2`, on any instance `c2`
(its definition map may hold the entries of an earlier call), returns a list
`L2` of the same length with `L2 = L1.map (rename ρ)`, where `ρ = rename_by A`
for a record `A` of pairs that is one-to-one in both components, pairs the
proxies allocated by the first call (identities from `g1.next_id` up to
`g1'.next_id`, as many pairs as identities) with proxies allocated by the
second call at the same distance from `g2.next_id`, and `ρ` is the identity
off the proxies of the first call. The second call returns what a call on a
new instance returns; its definition map afterwards is the renamed map of the
first call, so it holds no entry of an earlier call, and every variable of
`L2` is a variable of `f` or a proxy of the second call, with an identity at or
above `g2.next_id`. If the first call fails, so does the second one. -/
theorem Convert_deterministic (f : Formula) (c1 c2 : Cnfizer) (g1 g2 : Globals)
    (hv1 : ∀ v ∈ f.GetVariables, v.id < g1.next_id)
    (hv2 : ∀ v ∈ f.GetVariables, v.id < g2.next_id) :
    (∀ L1 c1' g1', Cnfizer.Convert c1 f g1 = .ok (L1, c1', g1') →
      ∃ (A : List (Variable × Variable)) (L2 : List Formula) (c2' : Cnfizer) (g2' : Globals),
        Cnfizer.Convert c2 f g2 = .ok (L2, c2', g2') ∧
        Cnfizer.Convert ⟨[]⟩ f g2 = .ok (L2, c2', g2') ∧
        L2.length = L1.length ∧
        L2 = L1.map (Formula.rename (rename_by A)) ∧
        c2'.map_ = c1'.map_.rename (rename_by A) ∧
        g2' = Globals.shift g1 g1' g2 ∧
        (A.map Prod.fst).Nodup ∧ (A.map Prod.snd).Nodup ∧
        A.length + g1.next_id = g1'.next_id ∧
        A.length + g2.next_id = g2'.next_id ∧
        (∀ p ∈ A, rename_by A p.1 = p.2) ∧
        (∀ v, v ∉ A.map Prod.fst → rename_by A v = v) ∧
        (∀ p ∈ A, g1.next_id ≤ p.1.id ∧ p.1.id < g1'.next_id ∧
          g2.next_id ≤ p.2.id ∧ p.2.id < g2'.next_id ∧
          p.2.id - g2.next_id = p.1.id - g1.next_id) ∧
        (∀ k ∈ c1'.map_, k.1 ∈ A.map Prod.fst) ∧
        (∀ k ∈ c2'.map_, k.1 ∈ A.map Prod.snd) ∧
        (∀ x ∈ L1, ∀ v ∈ x.GetVariables, v ∈ f.GetVariables ∨ v ∈ A.map Prod.fst) ∧
        (∀ x ∈ L2, ∀ v ∈ x.GetVariables,
          v ∈ f.GetVariables ∨ (v ∈ A.map Prod.snd ∧ g2.next_id ≤ v.id))) ∧
    (∀ e, Cnfizer.Convert c1 f g1 = .error e → ∃ e', Cnfizer.Convert c2 f g2 = .error e') := by
  refine ⟨?_, ?_⟩
  · intro L1 c1' g1' h
    obtain ⟨A, hA, hle, hk, hc, ht⟩ := Convert_alike c1 c2 g2 hv1 hv2 h
    obtain ⟨A0, hA0, _, _, hc0, _⟩ := Convert_alike c1 ⟨[]⟩ g2 hv1 hv2 h
    have hfresh : Cnfizer.Convert ⟨[]⟩ f g2 = Cnfizer.Convert c2 f g2 := by
      unfold Cnfizer.Convert
      rfl
    have hmem : ∀ p ∈ A, rename_by A p.1 = p.2 := rename_by_of_mem A hA.nodup_fst
    have hrange : ∀ p ∈ A, g1.next_id ≤ p.1.id ∧ p.1.id < g1'.next_id ∧
        g2.next_id ≤ p.2.id ∧ p.2.id < (Globals.shift g1 g1' g2).next_id ∧
        p.2.id - g2.next_id = p.1.id - g1.next_id := by
      intro p hp
      have := hA.range p hp
      have := hle.1
      simp only [Globals.shift]
      omega
    have hsnd : (A.map Prod.snd).Nodup := by
      have h2 := hA.nodup_snd
      have : A.map (fun p => p.2.id) = (A.map Prod.snd).map Variable.id := by
        simp [List.map_map, Function.comp]
      rw [this] at h2
      exact List.Nodup.of_map _ h2
    refine ⟨A, _, _, _, hc, hfresh.trans hc, by simp, rfl, rfl, rfl, hA.nodup_fst, hsnd,
      hA.length, ?_, hmem, rename_by_of_not_mem A, hrange, hk, ?_, ht, ?_⟩
    · have := hA.length
      have := hle.1
      simp only [Globals.shift]
      omega
    · intro k hk'
      simp only [DefinitionMap.rename, List.mem_map] at hk'
      obtain ⟨q, hq, rfl⟩ := hk'
      obtain ⟨p, hp, hpq⟩ := List.mem_map.1 (hk q hq)
      simp only
      rw [← hpq, hmem p hp]
      exact List.mem_map_of_mem Prod.snd hp
    · intro x hx v hv
      obtain ⟨y, hy, rfl⟩ := List.mem_map.1 hx
      rw [Formula_GetVariables_rename] at hv
      obtain ⟨u, hu, rfl⟩ := List.mem_map.1 hv
      rcases ht y hy u hu with h' | h'
      · left
        have hne : u ∉ A.map Prod.fst := by
          intro hm
          obtain ⟨p, hp, rfl⟩ := List.mem_map.1 hm
          have := hA.range p hp
          have := hv1 _ h'
          omega
        rw [rename_by_of_not_mem A u hne]
        exact h'
      · right
        obtain ⟨p, hp, rfl⟩ := List.mem_map.1 h'
        rw [hmem p hp]
        exact ⟨List.mem_map_of_mem Prod.snd hp, (hrange p hp).2.2.1⟩
  · intro e he
    cases h2 : Cnfizer.Convert c2 f g2 with
    | error e' => exact ⟨e', rfl⟩
    | ok res =>
      obtain ⟨L2, c2', g2'⟩ := res
      obtain ⟨_, _, _, _, hc, _⟩ := Convert_alike c2 c1 g1 hv2 hv1 h2
      rw [he] at hc
      cases hc

/-- C13, witness: `¬(a ∧ b)` is converted from the start state on a new
instance, and again on the instance and from the process state that the first
call has left. The first call returns clauses over the proxies `neg` (7) and
`conj0` (8), the second call the same clauses over `neg` (9) and `conj1`
(10). -/
theorem Convert_deterministic_witness :
    Cnfizer.Convert ⟨[]⟩ Scenario.S2 Scenario.start =
      .ok ([.Or [.Var Scenario.a, .Not (.Var ⟨8, "conj0", .BOOLEAN⟩)],
          .Or [.Var Scenario.b, .Not (.Var ⟨8, "conj0", .BOOLEAN⟩)],
          .Or [.Var ⟨8, "conj0", .BOOLEAN⟩, .Not (.Var Scenario.a), .Not (.Var Scenario.b)],
          .Not (.Var ⟨8, "conj0", .BOOLEAN⟩)],
        ⟨[(⟨8, "conj0", .BOOLEAN⟩, .And [.Var Scenario.a, .Var Scenario.b]),
          (⟨7, "neg", .BOOLEAN⟩, .Not (.Var ⟨8, "conj0", .BOOLEAN⟩))]⟩,
        { next_id := 9, conj_id := 1, disj_id := 0, forall_id := 0 }) ∧
    Cnfizer.Convert
        ⟨[(⟨8, "conj0", .BOOLEAN⟩, .And [.Var Scenario.a, .Var Scenario.b]),
          (⟨7, "neg", .BOOLEAN⟩, .Not (.Var ⟨8, "conj0", .BOOLEAN⟩))]⟩
        Scenario.S2 { next_id := 9, conj_id := 1, disj_id := 0, forall_id := 0 } =
      .ok ([.Or [.Var Scenario.a, .Not (.Var ⟨10, "conj1", .BOOLEAN⟩)],
          .Or [.Var Scenario.b, .Not (.Var ⟨10, "conj1", .BOOLEAN⟩)],
          .Or [.Var ⟨10, "conj1", .BOOLEAN⟩, .Not (.Var Scenario.a), .Not (.Var Scenario.b)],
          .Not (.Var ⟨10, "conj1", .BOOLEAN⟩)],
        ⟨[(⟨10, "conj1", .BOOLEAN⟩, .And [.Var Scenario.a, .Var Scenario.b]),
          (⟨9, "neg", .BOOLEAN⟩, .Not (.Var ⟨10, "conj1", .BOOLEAN⟩))]⟩,
        { next_id := 11, conj_id := 2, disj_id := 0, forall_id := 0 }) ∧
    ∃ (A : List (Variable × Variable)) (L2 : List Formula) (c2' : Cnfizer) (g2' : Globals),
      Cnfizer.Convert
          ⟨[(⟨8, "conj0", .BOOLEAN⟩, .And [.Var Scenario.a, .Var Scenario.b]),
            (⟨7, "neg", .BOOLEAN⟩, .Not (.Var ⟨8, "conj0", .BOOLEAN⟩))]⟩
          Scenario.S2 { next_id := 9, conj_id := 1, disj_id := 0, forall_id := 0 } =
        .ok (L2, c2', g2') ∧
      L2 = [Formula.Or [.Var Scenario.a, .Not (.Var ⟨8, "conj0", .BOOLEAN⟩)],
          .Or [.Var Scenario.b, .Not (.Var ⟨8, "conj0", .BOOLEAN⟩)],
          .Or [.Var ⟨8, "conj0", .BOOLEAN⟩, .Not (.Var Scenario.a), .Not (.Var Scenario.b)],
          .Not (.Var ⟨8, "conj0", .BOOLEAN⟩)].map (Formula.rename (rename_by A)) ∧
      (A.map Prod.fst).Nodup ∧ (A.map Prod.snd).Nodup ∧ A.length = 2 := by
  refine ⟨rfl, rfl, ?_⟩
  obtain ⟨A, L2, c2', g2', h1, _, _, h4, _, _, h7, h8, h9, _⟩ :=
    (Convert_deterministic Scenario.S2 ⟨[]⟩
      ⟨[(⟨8, "conj0", .BOOLEAN⟩, .And [.Var Scenario.a, .Var Scenario.b]),
        (⟨7, "neg", .BOOLEAN⟩, .Not (.Var ⟨8, "conj0", .BOOLEAN⟩))]⟩
      Scenario.start { next_id := 9, conj_id := 1, disj_id := 0, forall_id := 0 }
      (by decide) (by decide)).1 _ _ _ rfl
  refine ⟨A, L2, c2', g2', h1, h4, h7, h8, ?_⟩
  have : Scenario.start.next_id = 7 := rfl
  simp only [this] at h9
  omega

end dreal
